import Mathlib

/-!
# go-trustpilot: request pipeline of the Trustpilot client

A shallow embedding of `trustpilot.go`, `auth.go`, `business.go` and
`product.go` (request construction, dispatch, the authorization flow, the
endpoint methods) together with the parts of the Go standard library they
call (`strings`, `net/url`, `encoding/json`, `net/http`), followed by theorems
about them.

Go strings are byte sequences; a byte is a natural number below 256.
Standard-library functions follow the Go 1.22 sources.
-/

set_option autoImplicit false
set_option maxRecDepth 100000
set_option maxHeartbeats 2000000

deriving instance DecidableEq for Except

/-- A Go `string` (equally a `[]byte`): a sequence of bytes. -/
abbrev GoString := List Nat

/-- UTF-8 encoding of one code point. -/
def utf8EncodeRune (r : Nat) : GoString :=
  if r < 0x80 then [r]
  else if r < 0x800 then [0xC0 + r / 64, 0x80 + r % 64]
  else if r < 0x10000 then [0xE0 + r / 4096, 0x80 + r / 64 % 64, 0x80 + r % 64]
  else [0xF0 + r / 262144, 0x80 + r / 4096 % 64, 0x80 + r / 64 % 64, 0x80 + r % 64]

/-- The bytes of a string literal of the source. -/
def str (s : String) : GoString := s.toList.flatMap (fun c => utf8EncodeRune c.toNat)

/-- The byte of an ASCII character literal of the source. -/
abbrev ch (c : Char) : Nat := c.toNat

/-! ## Package `strings` -/

namespace strings

/-- Go `strings.HasPrefix`. -/
def HasPrefix (s pre : GoString) : Bool := pre.isPrefixOf s

/-- Go `strings.HasSuffix`. -/
def HasSuffix (s suf : GoString) : Bool := suf.isSuffixOf s

/-- Go `strings.IndexByte`; `none` stands for `-1`. -/
def IndexByte : GoString → Nat → Option Nat
  | [], _ => none
  | b :: s, c => if b = c then some 0 else (IndexByte s c).map (· + 1)

/-- Go `strings.LastIndexByte`; `none` stands for `-1`. -/
def LastIndexByte : GoString → Nat → Option Nat
  | [], _ => none
  | b :: s, c =>
    match LastIndexByte s c with
    | some i => some (i + 1)
    | none => if b = c then some 0 else none

/-- Go `strings.Index`; `none` stands for `-1`. -/
def Index : GoString → GoString → Option Nat
  | [], sub => if sub = [] then some 0 else none
  | b :: s, sub => if sub.isPrefixOf (b :: s) then some 0 else (Index s sub).map (· + 1)

/-- Go `strings.Cut` for a one-byte separator: the text before the first
separator, the text after it, and whether the separator occurs. -/
def Cut : GoString → Nat → GoString × GoString × Bool
  | [], _ => ([], [], false)
  | b :: s, sep =>
    if b = sep then ([], s, true)
    else let r := Cut s sep; (b :: r.1, r.2.1, r.2.2)

/-- Go `strings.Contains` for a one-byte substring. -/
def ContainsByte (s : GoString) (c : Nat) : Bool := s.contains c

/-- Go `strings.Count` for a one-byte substring. -/
def CountByte (s : GoString) (c : Nat) : Nat := s.count c

/-- Go `strings.ToLower` on ASCII text. -/
def ToLower (s : GoString) : GoString :=
  s.map (fun c => if ch 'A' ≤ c ∧ c ≤ ch 'Z' then c + 32 else c)

/-- Go `strings.TrimSuffix`. -/
def TrimSuffix (s suf : GoString) : GoString :=
  if HasSuffix s suf then s.take (s.length - suf.length) else s

end strings

/-- An index as Go reports it: `-1` when absent. -/
def goIndex : Option Nat → Int
  | none => -1
  | some i => i

/-! ## Package `net/url` -/

namespace url

/-- Go `url.encoding`: the part of a URL being escaped. -/
inductive encoding where
  | encodePath
  | encodePathSegment
  | encodeHost
  | encodeZone
  | encodeUserPassword
  | encodeQueryComponent
  | encodeFragment
deriving DecidableEq, Repr

open encoding

/-- Errors of package `net/url`. -/
inductive ParseError where
  | invalidControlCharacter
  | missingProtocolScheme
  | firstPathSegmentColon
  | escapeError (s : GoString)
  | invalidHostError (s : GoString)
  | missingBracket
  | invalidPort (s : GoString)
  | invalidUserinfo
  | invalidSemicolon
deriving DecidableEq, Repr

/-- Go `url.ishex`. -/
def ishex (c : Nat) : Bool :=
  (ch '0' ≤ c ∧ c ≤ ch '9') ∨ (ch 'a' ≤ c ∧ c ≤ ch 'f') ∨ (ch 'A' ≤ c ∧ c ≤ ch 'F')

/-- Go `url.unhex`. -/
def unhex (c : Nat) : Nat :=
  if ch '0' ≤ c ∧ c ≤ ch '9' then c - ch '0'
  else if ch 'a' ≤ c ∧ c ≤ ch 'f' then c - ch 'a' + 10
  else if ch 'A' ≤ c ∧ c ≤ ch 'F' then c - ch 'A' + 10
  else 0

/-- Go `url.upperhex` indexed by a nibble. -/
def upperhex (n : Nat) : Nat :=
  (str "0123456789ABCDEF").getD n 0

/-- Go `url.shouldEscape`. -/
def shouldEscape (c : Nat) (mode : encoding) : Bool :=
  if (ch 'a' ≤ c ∧ c ≤ ch 'z') ∨ (ch 'A' ≤ c ∧ c ≤ ch 'Z') ∨ (ch '0' ≤ c ∧ c ≤ ch '9') then
    false
  else if (mode = encodeHost ∨ mode = encodeZone) ∧
      c ∈ [ch '!', ch '$', ch '&', 39, ch '(', ch ')', ch '*', ch '+', ch ',', ch ';',
           ch '=', ch ':', ch '[', ch ']', ch '<', ch '>', ch '"'] then
    false
  else if c ∈ [ch '-', ch '_', ch '.', ch '~'] then
    false
  else if c ∈ [ch '$', ch '&', ch '+', ch ',', ch '/', ch ':', ch ';', ch '=', ch '?', ch '@']
      ∧ mode ∈ [encodePath, encodePathSegment, encodeUserPassword, encodeQueryComponent,
                encodeFragment] then
    match mode with
    | encodePath => c = ch '?'
    | encodePathSegment => c = ch '/' ∨ c = ch ';' ∨ c = ch ',' ∨ c = ch '?'
    | encodeUserPassword => c = ch '@' ∨ c = ch '/' ∨ c = ch '?' ∨ c = ch ':'
    | encodeQueryComponent => true
    | _ => false
  else if mode = encodeFragment ∧ c ∈ [ch '!', ch '(', ch ')', ch '*'] then
    false
  else
    true

/-- Go `url.escape`. -/
def escape (s : GoString) (mode : encoding) : GoString :=
  s.flatMap (fun c =>
    if shouldEscape c mode then
      if c = ch ' ' ∧ mode = encodeQueryComponent then [ch '+']
      else [ch '%', upperhex (c / 16), upperhex (c % 16)]
    else [c])

/-- Go `url.unescape`: validation and decoding in one left-to-right pass. -/
def unescape : GoString → encoding → Except ParseError GoString
  | [], _ => .ok []
  | c :: s, mode =>
    if c = ch '%' then
      match s with
      | h1 :: h2 :: rest =>
        if !ishex h1 || !ishex h2 then .error (.escapeError [c, h1, h2])
        else if mode = encodeHost ∧ unhex h1 < 8 ∧ [c, h1, h2] ≠ str "%25" then
          .error (.escapeError [c, h1, h2])
        else if mode = encodeZone ∧ [c, h1, h2] ≠ str "%25" ∧
            unhex h1 * 16 + unhex h2 ≠ ch ' ' ∧
            shouldEscape (unhex h1 * 16 + unhex h2) encodeHost then
          .error (.escapeError [c, h1, h2])
        else
          match unescape rest mode with
          | .ok t => .ok ((unhex h1 * 16 + unhex h2) :: t)
          | .error e => .error e
      | _ => .error (.escapeError (c :: s))
    else if c = ch '+' then
      match unescape s mode with
      | .ok t => .ok ((if mode = encodeQueryComponent then ch ' ' else ch '+') :: t)
      | .error e => .error e
    else if (mode = encodeHost ∨ mode = encodeZone) ∧ c < 0x80 ∧ shouldEscape c encodeHost then
      .error (.invalidHostError [c])
    else
      match unescape s mode with
      | .ok t => .ok (c :: t)
      | .error e => .error e

/-- Go `url.validEncoded`. -/
def validEncoded (s : GoString) (mode : encoding) : Bool :=
  s.all (fun c =>
    if c ∈ [ch '!', ch '$', ch '&', 39, ch '(', ch ')', ch '*', ch '+', ch ',', ch ';',
            ch '=', ch ':', ch '@'] then true
    else if c ∈ [ch '[', ch ']'] then true
    else if c = ch '%' then true
    else !shouldEscape c mode)

/-- Go `url.Userinfo`. -/
structure Userinfo where
  username : GoString
  password : GoString
  passwordSet : Bool
deriving DecidableEq, Repr

/-- Go `url.URL`. -/
structure URL where
  Scheme : GoString := []
  Opaque : GoString := []
  User : Option Userinfo := none
  Host : GoString := []
  Path : GoString := []
  RawPath : GoString := []
  OmitHost : Bool := false
  ForceQuery : Bool := false
  RawQuery : GoString := []
  Fragment : GoString := []
  RawFragment : GoString := []
deriving DecidableEq, Repr

/-- Go `url.Error`: the operation, the URL text and the cause. -/
structure Error where
  Op : GoString
  URL : GoString
  Err : ParseError
deriving DecidableEq, Repr

/-- Go `url.stringContainsCTLByte`. -/
def stringContainsCTLByte (s : GoString) : Bool :=
  s.any (fun b => b < ch ' ' ∨ b = 0x7f)

/-- Loop of Go `url.getScheme`: `i` is the index of the head of the remaining text. -/
def getSchemeLoop (rawURL : GoString) : GoString → Nat → Except ParseError (GoString × GoString)
  | [], _ => .ok ([], rawURL)
  | c :: rest, i =>
    if (ch 'a' ≤ c ∧ c ≤ ch 'z') ∨ (ch 'A' ≤ c ∧ c ≤ ch 'Z') then
      getSchemeLoop rawURL rest (i + 1)
    else if (ch '0' ≤ c ∧ c ≤ ch '9') ∨ c = ch '+' ∨ c = ch '-' ∨ c = ch '.' then
      if i = 0 then .ok ([], rawURL) else getSchemeLoop rawURL rest (i + 1)
    else if c = ch ':' then
      if i = 0 then .error .missingProtocolScheme else .ok (rawURL.take i, rest)
    else
      .ok ([], rawURL)

/-- Go `url.getScheme`: the scheme and the text after its colon. -/
def getScheme (rawURL : GoString) : Except ParseError (GoString × GoString) :=
  getSchemeLoop rawURL rawURL 0

/-- Go `url.validOptionalPort`. -/
def validOptionalPort (port : GoString) : Bool :=
  match port with
  | [] => true
  | c :: digits => c = ch ':' && digits.all (fun b => ch '0' ≤ b ∧ b ≤ ch '9')

/-- Go `url.validUserinfo`. -/
def validUserinfo (s : GoString) : Bool :=
  s.all (fun r =>
    (ch 'A' ≤ r ∧ r ≤ ch 'Z') ∨ (ch 'a' ≤ r ∧ r ≤ ch 'z') ∨ (ch '0' ≤ r ∧ r ≤ ch '9') ∨
    r ∈ [ch '-', ch '.', ch '_', ch ':', ch '~', ch '!', ch '$', ch '&', 39, ch '(', ch ')',
         ch '*', ch '+', ch ',', ch ';', ch '=', ch '%', ch '@'])

/-- Go `url.parseHost`. -/
def parseHost (host : GoString) : Except ParseError GoString :=
  if strings.HasPrefix host (str "[") then
    match strings.LastIndexByte host (ch ']') with
    | none => .error .missingBracket
    | some i =>
      let colonPort := host.drop (i + 1)
      if !validOptionalPort colonPort then .error (.invalidPort colonPort)
      else
        match strings.Index (host.take i) (str "%25") with
        | some zone =>
          match unescape (host.take zone) encodeHost with
          | .error e => .error e
          | .ok host1 =>
            match unescape ((host.take i).drop zone) encodeZone with
            | .error e => .error e
            | .ok host2 =>
              match unescape (host.drop i) encodeHost with
              | .error e => .error e
              | .ok host3 => .ok (host1 ++ host2 ++ host3)
        | none => unescape host encodeHost
  else
    match strings.LastIndexByte host (ch ':') with
    | some i =>
      let colonPort := host.drop i
      if !validOptionalPort colonPort then .error (.invalidPort colonPort)
      else unescape host encodeHost
    | none => unescape host encodeHost

/-- Go `url.parseAuthority`. -/
def parseAuthority (authority : GoString) : Except ParseError (Option Userinfo × GoString) :=
  match strings.LastIndexByte authority (ch '@') with
  | none =>
    match parseHost authority with
    | .error e => .error e
    | .ok host => .ok (none, host)
  | some i =>
    match parseHost (authority.drop (i + 1)) with
    | .error e => .error e
    | .ok host =>
      let userinfo := authority.take i
      if !validUserinfo userinfo then .error .invalidUserinfo
      else if !strings.ContainsByte userinfo (ch ':') then
        match unescape userinfo encodeUserPassword with
        | .error e => .error e
        | .ok u => .ok (some ⟨u, [], false⟩, host)
      else
        let cut := strings.Cut userinfo (ch ':')
        match unescape cut.1 encodeUserPassword with
        | .error e => .error e
        | .ok username =>
          match unescape cut.2.1 encodeUserPassword with
          | .error e => .error e
          | .ok password => .ok (some ⟨username, password, true⟩, host)

/-- Go `(*URL).setPath`. -/
def URL.setPath (u : URL) (p : GoString) : Except ParseError URL :=
  match unescape p encodePath with
  | .error e => .error e
  | .ok path =>
    .ok { u with Path := path, RawPath := if p = escape path encodePath then [] else p }

/-- Go `(*URL).EscapedPath`. -/
def URL.EscapedPath (u : URL) : GoString :=
  if u.RawPath ≠ [] ∧ validEncoded u.RawPath encodePath ∧
      unescape u.RawPath encodePath = .ok u.Path then u.RawPath
  else if u.Path = str "*" then str "*"
  else escape u.Path encodePath

/-- Go `(*URL).setFragment`. -/
def URL.setFragment (u : URL) (f : GoString) : Except ParseError URL :=
  match unescape f encodeFragment with
  | .error e => .error e
  | .ok frag =>
    .ok { u with Fragment := frag,
                 RawFragment := if f = escape frag encodeFragment then [] else f }

/-- Go `(*URL).EscapedFragment`. -/
def URL.EscapedFragment (u : URL) : GoString :=
  if u.RawFragment ≠ [] ∧ validEncoded u.RawFragment encodeFragment ∧
      unescape u.RawFragment encodeFragment = .ok u.Fragment then u.RawFragment
  else escape u.Fragment encodeFragment

/-- Go `url.parse` with `viaRequest = false`. -/
def parse (rawURL : GoString) : Except ParseError URL :=
  if stringContainsCTLByte rawURL then .error .invalidControlCharacter
  else if rawURL = str "*" then .ok { Path := str "*" }
  else
    match getScheme rawURL with
    | .error e => .error e
    | .ok (scheme, rest0) =>
      let url : URL := { Scheme := strings.ToLower scheme }
      let forceQuery : Bool :=
        strings.HasSuffix rest0 (str "?") && strings.CountByte rest0 (ch '?') = 1
      let rest1 := if forceQuery then rest0.take (rest0.length - 1)
                   else (strings.Cut rest0 (ch '?')).1
      let url : URL :=
        if forceQuery then { url with ForceQuery := true }
        else { url with RawQuery := (strings.Cut rest0 (ch '?')).2.1 }
      if !strings.HasPrefix rest1 (str "/") ∧ url.Scheme ≠ [] then
        .ok { url with Opaque := rest1 }
      else if !strings.HasPrefix rest1 (str "/") ∧
          strings.ContainsByte (strings.Cut rest1 (ch '/')).1 (ch ':') then
        .error .firstPathSegmentColon
      else if (url.Scheme ≠ [] ∨ !strings.HasPrefix rest1 (str "///")) ∧
          strings.HasPrefix rest1 (str "//") then
        let authority0 := rest1.drop 2
        let authority := match strings.IndexByte authority0 (ch '/') with
          | some i => authority0.take i
          | none => authority0
        let rest := match strings.IndexByte authority0 (ch '/') with
          | some i => authority0.drop i
          | none => []
        match parseAuthority authority with
        | .error e => .error e
        | .ok (user, host) => URL.setPath { url with User := user, Host := host } rest
      else if url.Scheme ≠ [] ∧ strings.HasPrefix rest1 (str "/") then
        URL.setPath { url with OmitHost := true } rest1
      else
        URL.setPath url rest1

/-- Go `url.Parse`. -/
def Parse (rawURL : GoString) : Except Error URL :=
  let cut := strings.Cut rawURL (ch '#')
  match parse cut.1 with
  | .error e => .error ⟨str "parse", cut.1, e⟩
  | .ok url =>
    if cut.2.1 = [] then .ok url
    else
      match url.setFragment cut.2.1 with
      | .error e => .error ⟨str "parse", rawURL, e⟩
      | .ok url => .ok url

/-- Go `(*Userinfo).String`. -/
def Userinfo.String (u : Userinfo) : GoString :=
  escape u.username encodeUserPassword ++
    (if u.passwordSet then ch ':' :: escape u.password encodeUserPassword else [])

/-- Go `(*URL).String`. -/
def URL.String (u : URL) : GoString :=
  let buf0 : GoString := if u.Scheme ≠ [] then u.Scheme ++ [ch ':'] else []
  let buf1 : GoString :=
    if u.Opaque ≠ [] then buf0 ++ u.Opaque
    else
      let authority : GoString :=
        if u.Scheme ≠ [] ∨ u.Host ≠ [] ∨ u.User ≠ none then
          if u.OmitHost ∧ u.Host = [] ∧ u.User = none then []
          else
            (if u.Host ≠ [] ∨ u.Path ≠ [] ∨ u.User ≠ none then str "//" else []) ++
            (match u.User with
             | some ui => ui.String ++ [ch '@']
             | none => []) ++
            (if u.Host ≠ [] then escape u.Host encodeHost else [])
        else []
      let buf := buf0 ++ authority
      let path := u.EscapedPath
      let buf := if path ≠ [] ∧ path.head? ≠ some (ch '/') ∧ u.Host ≠ [] then buf ++ [ch '/']
                 else buf
      let buf := if buf = [] ∧ strings.ContainsByte (strings.Cut path (ch '/')).1 (ch ':')
                 then buf ++ str "./" else buf
      buf ++ path
  let buf2 : GoString :=
    if u.ForceQuery ∨ u.RawQuery ≠ [] then buf1 ++ [ch '?'] ++ u.RawQuery else buf1
  if u.Fragment ≠ [] then buf2 ++ [ch '#'] ++ u.EscapedFragment else buf2

/-- Go `strings.Split` for a one-byte separator: the elements `resolvePath`
obtains by cutting repeatedly at "/". -/
def splitByte : GoString → Nat → List GoString
  | [], _ => [[]]
  | b :: s, sep =>
    if b = sep then [] :: splitByte s sep
    else
      match splitByte s sep with
      | [] => [[b]]
      | e :: es => (b :: e) :: es

/-- One turn of the loop of Go `url.resolvePath`: the builder `dst` and the
flag `first` after the element `elem`. -/
def resolveStep (st : GoString × Bool) (elem : GoString) : GoString × Bool :=
  if elem = str "." then (st.1, false)
  else if elem = str ".." then
    let s := st.1.drop 1
    match strings.LastIndexByte s (ch '/') with
    | none => ([ch '/'], true)
    | some index => (ch '/' :: s.take index, st.2)
  else ((if !st.2 then st.1 ++ [ch '/'] else st.1) ++ elem, false)

/-- Go `url.resolvePath`. -/
def resolvePath (base ref : GoString) : GoString :=
  let full : GoString :=
    if ref = [] then base
    else if ref.head? ≠ some (ch '/') then
      (match strings.LastIndexByte base (ch '/') with
       | some i => base.take (i + 1)
       | none => []) ++ ref
    else ref
  if full = [] then []
  else
    let elems := splitByte full (ch '/')
    let dst := (elems.foldl resolveStep ([ch '/'], true)).1
    let dst := if elems.getLast? = some (str ".") ∨ elems.getLast? = some (str "..")
               then dst ++ [ch '/'] else dst
    if dst.length > 1 ∧ dst.get? 1 = some (ch '/') then dst.drop 1 else dst

/-- Go `(*URL).setPath` where `ResolveReference` ignores its error: the path
comes from `resolvePath` over escaped paths. -/
def URL.setPathIgnoringError (u : URL) (p : GoString) : URL :=
  match u.setPath p with
  | .ok v => v
  | .error _ => u

/-- Go `(*URL).ResolveReference`. -/
def URL.ResolveReference (u ref : URL) : URL :=
  let url : URL := if ref.Scheme = [] then { ref with Scheme := u.Scheme } else ref
  if ref.Scheme ≠ [] ∨ ref.Host ≠ [] ∨ ref.User ≠ none then
    url.setPathIgnoringError (resolvePath ref.EscapedPath [])
  else if ref.Opaque ≠ [] then
    { url with User := none, Host := [], Path := [] }
  else
    let url : URL :=
      if ref.Path = [] ∧ !ref.ForceQuery ∧ ref.RawQuery = [] then
        if ref.Fragment = [] then
          { url with RawQuery := u.RawQuery, Fragment := u.Fragment,
                     RawFragment := u.RawFragment }
        else { url with RawQuery := u.RawQuery }
      else url
    if ref.Path = [] ∧ u.Opaque ≠ [] then
      { url with Opaque := u.Opaque, User := none, Host := [], Path := [] }
    else
      URL.setPathIgnoringError { url with Host := u.Host, User := u.User }
        (resolvePath u.EscapedPath ref.EscapedPath)

/-- Go `(*URL).Parse`: parse `ref` and resolve it against the receiver. -/
def URL.Parse (u : URL) (ref : GoString) : Except Error URL :=
  match url.Parse ref with
  | .error e => .error e
  | .ok refURL => .ok (u.ResolveReference refURL)

/-- Go `url.Values`: the keys in order of first appearance, each with its values. -/
structure Values where
  m : List (GoString × List GoString) := []
deriving DecidableEq, Repr

/-- Go `Values.Get`: the first value of the key, or the empty string. -/
def Values.Get (v : Values) (key : GoString) : GoString :=
  match v.m.lookup key with
  | some (x :: _) => x
  | _ => []

/-- Go `m[key] = append(m[key], value)` on `Values`. -/
def Values.append (v : Values) (key value : GoString) : Values :=
  match v.m.lookup key with
  | some vs => ⟨v.m.map (fun kv => if kv.1 = key then (key, vs ++ [value]) else kv)⟩
  | none => ⟨v.m ++ [(key, [value])]⟩

/-- Pieces of a query between "&" separators. -/
def queryPieces (query : GoString) : List GoString := splitByte query (ch '&')

/-- One turn of the loop of Go `url.parseQuery`: the map and the first error so far. -/
def parseQueryStep (st : Values × Option ParseError) (piece : GoString) :
    Values × Option ParseError :=
  if strings.ContainsByte piece (ch ';') then (st.1, some .invalidSemicolon)
  else if piece = [] then st
  else
    let cut := strings.Cut piece (ch '=')
    match unescape cut.1 encodeQueryComponent with
    | .error e1 => (st.1, if st.2 = none then some e1 else st.2)
    | .ok key =>
      match unescape cut.2.1 encodeQueryComponent with
      | .error e1 => (st.1, if st.2 = none then some e1 else st.2)
      | .ok value => (st.1.append key value, st.2)

/-- Go `url.ParseQuery`: the values found and the first error, if any. -/
def ParseQuery (query : GoString) : Values × Option ParseError :=
  if query = [] then ({}, none)
  else (queryPieces query).foldl parseQueryStep ({}, none)

/-- Go `(*URL).Query`: the parsed query, malformed pairs dropped. -/
def URL.Query (u : URL) : Values := (ParseQuery u.RawQuery).1

end url

/-! ## Package `unicode/utf8` -/

namespace utf8

/-- Go `utf8.RuneError`. -/
def RuneError : Nat := 0xFFFD

/-- A continuation byte of a UTF-8 sequence within the bounds `lo..hi`. -/
def inRange (lo hi b : Nat) : Bool := lo ≤ b ∧ b ≤ hi

/-- Go `utf8.DecodeRuneInString`: the first rune of the text and its width in
bytes; `(RuneError, 1)` for an invalid or truncated encoding, `(RuneError, 0)`
for the empty text. -/
def DecodeRuneInString : GoString → Nat × Nat
  | [] => (RuneError, 0)
  | b0 :: rest =>
    if b0 < 0x80 then (b0, 1)
    else if inRange 0xC2 0xDF b0 then
      match rest with
      | b1 :: _ =>
        if inRange 0x80 0xBF b1 then (b0 % 32 * 64 + b1 % 64, 2) else (RuneError, 1)
      | _ => (RuneError, 1)
    else if inRange 0xE0 0xEF b0 then
      match rest with
      | b1 :: b2 :: _ =>
        if inRange (if b0 = 0xE0 then 0xA0 else 0x80) (if b0 = 0xED then 0x9F else 0xBF) b1
            ∧ inRange 0x80 0xBF b2 then
          (b0 % 16 * 4096 + b1 % 64 * 64 + b2 % 64, 3)
        else (RuneError, 1)
      | _ => (RuneError, 1)
    else if inRange 0xF0 0xF4 b0 then
      match rest with
      | b1 :: b2 :: b3 :: _ =>
        if inRange (if b0 = 0xF0 then 0x90 else 0x80) (if b0 = 0xF4 then 0x8F else 0xBF) b1
            ∧ inRange 0x80 0xBF b2 ∧ inRange 0x80 0xBF b3 then
          (b0 % 8 * 262144 + b1 % 64 * 4096 + b2 % 64 * 64 + b3 % 64, 4)
        else (RuneError, 1)
      | _ => (RuneError, 1)
    else (RuneError, 1)

/-- The text read as UTF-8 from left to right, as a Go `range` loop reads it:
`some r` for the code point `r` of a valid encoding, `none` for a byte that
belongs to no valid encoding. The first argument bounds the number of items. -/
def runesLoop : Nat → GoString → List (Option Nat)
  | 0, _ => []
  | _ + 1, [] => []
  | fuel + 1, b :: s =>
    let d := DecodeRuneInString (b :: s)
    (if d.1 = RuneError ∧ d.2 = 1 then none else some d.1) :: runesLoop fuel (s.drop (d.2 - 1))

/-- The items of a text read as UTF-8. -/
def runes (s : GoString) : List (Option Nat) := runesLoop s.length s

/-- Go `utf8.ValidString`. -/
def ValidString (s : GoString) : Bool := (runes s).all Option.isSome

end utf8

/-! ## Package `encoding/json` (encoder) -/

/-- Go values handed to the JSON encoder as `interface{}`: the shapes the
client sends and the standard shapes around them. A struct is its fields in
declaration order under their JSON names; `unsupported` stands for a value
of a type the encoder rejects (a channel, a function, a complex number). -/
inductive GoValue where
  | null
  | bool (b : Bool)
  | int (i : Int)
  | string (s : GoString)
  | slice (vs : List GoValue)
  | struct (fields : List (GoString × GoValue))
  | unsupported (typeName : GoString)
deriving Repr

namespace json

/-- Go `json.UnsupportedTypeError`. -/
structure UnsupportedTypeError where
  TypeName : GoString
deriving DecidableEq, Repr

/-- Go `json.safeSet`: ASCII bytes written to a JSON string as they are. -/
def safeSet (b : Nat) : Bool := 0x20 ≤ b ∧ b < 0x80 ∧ b ≠ ch '"' ∧ b ≠ 92

/-- Go `json.htmlSafeSet`: `safeSet` without "<", ">" and "&". -/
def htmlSafeSet (b : Nat) : Bool := safeSet b ∧ b ≠ ch '<' ∧ b ≠ ch '>' ∧ b ≠ ch '&'

/-- Go `json.hex` indexed by a nibble. -/
def hex (n : Nat) : Nat := (str "0123456789abcdef").getD n 0

/-- The escape Go `appendString` writes for an ASCII byte outside the safe set. -/
def escapeByte (b : Nat) : GoString :=
  if b = 92 ∨ b = ch '"' then [92, b]
  else if b = 8 then [92, ch 'b']
  else if b = 12 then [92, ch 'f']
  else if b = 10 then [92, ch 'n']
  else if b = 13 then [92, ch 'r']
  else if b = 9 then [92, ch 't']
  else [92, ch 'u', ch '0', ch '0', hex (b / 16), hex (b % 16)]

/-- Loop of Go `json.appendString` over the text that remains. `pending` is
the number of further bytes of the current multi-byte rune; they are copied
when `copy` is set (an ordinary rune) and dropped otherwise (U+2028, U+2029,
already written as an escape). -/
def appendStringLoop (escapeHTML : Bool) : GoString → Nat → Bool → GoString
  | [], _, _ => []
  | b :: s, pending + 1, copy =>
    (if copy then [b] else []) ++ appendStringLoop escapeHTML s pending copy
  | b :: s, 0, _ =>
    if b < 0x80 then
      (if htmlSafeSet b || (!escapeHTML && safeSet b) then [b] else escapeByte b)
        ++ appendStringLoop escapeHTML s 0 true
    else
      let d := utf8.DecodeRuneInString ((b :: s).take 4)
      if d.1 = utf8.RuneError ∧ d.2 = 1 then
        [92] ++ str "ufffd" ++ appendStringLoop escapeHTML s 0 true
      else if d.1 = 0x2028 ∨ d.1 = 0x2029 then
        [92] ++ str "u202" ++ [hex (d.1 % 16)] ++ appendStringLoop escapeHTML s (d.2 - 1) false
      else
        b :: appendStringLoop escapeHTML s (d.2 - 1) true

/-- Go `json.appendString`: a quoted JSON string. -/
def appendString (src : GoString) (escapeHTML : Bool) : GoString :=
  [ch '"'] ++ appendStringLoop escapeHTML src 0 true ++ [ch '"']

/-- Go `strconv.AppendInt` in base 10. -/
def formatInt (i : Int) : GoString :=
  (if i < 0 then [ch '-'] else []) ++ (Nat.toDigits 10 i.natAbs).map Char.toNat

/-- Go `json.Marshal` under the encoder option `escapeHTML`. -/
def encode (escapeHTML : Bool) : GoValue → Except UnsupportedTypeError GoString
  | .null => .ok (str "null")
  | .bool b => .ok (if b then str "true" else str "false")
  | .int i => .ok (formatInt i)
  | .string s => .ok (appendString s escapeHTML)
  | .slice vs =>
    match encodeElems escapeHTML vs with
    | .ok es => .ok ([ch '['] ++ es ++ [ch ']'])
    | .error e => .error e
  | .struct fields =>
    match encodeFields escapeHTML fields with
    | .ok fs => .ok ([ch '{'] ++ fs ++ [ch '}'])
    | .error e => .error e
  | .unsupported t => .error ⟨t⟩
where
  /-- Elements of an array, separated by commas. -/
  encodeElems (escapeHTML : Bool) : List GoValue → Except UnsupportedTypeError GoString
    | [] => .ok []
    | v :: vs =>
      match encode escapeHTML v, encodeElems escapeHTML vs with
      | .ok e, .ok es => .ok (e ++ (if vs.isEmpty then [] else [ch ',']) ++ es)
      | .error e, _ => .error e
      | _, .error e => .error e
  /-- Fields of an object, separated by commas. -/
  encodeFields (escapeHTML : Bool) :
      List (GoString × GoValue) → Except UnsupportedTypeError GoString
    | [] => .ok []
    | (name, v) :: fs =>
      match encode escapeHTML v, encodeFields escapeHTML fs with
      | .ok e, .ok es =>
        .ok (appendString name escapeHTML ++ [ch ':'] ++ e ++
              (if fs.isEmpty then [] else [ch ',']) ++ es)
      | .error e, _ => .error e
      | _, .error e => .error e

/-- Go `(*json.Encoder).Encode` into an empty buffer: the encoding of the
value followed by a newline. -/
def Encoder.Encode (escapeHTML : Bool) (v : GoValue) : Except UnsupportedTypeError GoString :=
  match encode escapeHTML v with
  | .ok b => .ok (b ++ [10])
  | .error e => .error e

end json

/-! ## Package `net/http` -/

namespace http

/-- Go `httpguts.isTokenTable` (equally `textproto.validHeaderFieldByte`): the
bytes of an HTTP token. -/
def isToken (b : Nat) : Bool :=
  (ch 'a' ≤ b ∧ b ≤ ch 'z') ∨ (ch 'A' ≤ b ∧ b ≤ ch 'Z') ∨ (ch '0' ≤ b ∧ b ≤ ch '9') ∨
  b ∈ [ch '!', ch '#', ch '$', ch '%', ch '&', 39, ch '*', ch '+', ch '-', ch '.', ch '^',
       ch '_', 96, ch '|', ch '~']

/-- Go `http.validMethod`. -/
def validMethod (method : GoString) : Bool :=
  method.length > 0 && method.all isToken

/-- Second loop of Go `textproto.canonicalMIMEHeaderKey`: upper case at the
start and after each dash, lower case elsewhere. -/
def canonicalLoop : GoString → Bool → GoString
  | [], _ => []
  | c :: s, upper =>
    let c1 := if upper ∧ ch 'a' ≤ c ∧ c ≤ ch 'z' then c - 32
              else if !upper ∧ ch 'A' ≤ c ∧ c ≤ ch 'Z' then c + 32
              else c
    c1 :: canonicalLoop s (c1 = ch '-')

/-- Go `textproto.CanonicalMIMEHeaderKey`: a key with a byte outside the token
set is returned unchanged. -/
def CanonicalMIMEHeaderKey (s : GoString) : GoString :=
  if s.all isToken then canonicalLoop s true else s

/-- Go `http.Header`: a map from canonical keys to their values. -/
structure Header where
  m : List (GoString × List GoString) := []
deriving DecidableEq, Repr

/-- Go `Header.Get`: the first value under the canonical form of the key. -/
def Header.Get (h : Header) (key : GoString) : GoString :=
  match h.m.lookup (CanonicalMIMEHeaderKey key) with
  | some (v :: _) => v
  | _ => []

/-- Go `Header.Values`: all values under the canonical form of the key. -/
def Header.Values (h : Header) (key : GoString) : List GoString :=
  (h.m.lookup (CanonicalMIMEHeaderKey key)).getD []

/-- Go `Header.Set`: the key holds the single value. -/
def Header.Set (h : Header) (key value : GoString) : Header :=
  let k := CanonicalMIMEHeaderKey key
  match h.m.lookup k with
  | some _ => ⟨h.m.map (fun kv => if kv.1 = k then (k, [value]) else kv)⟩
  | none => ⟨h.m ++ [(k, [value])]⟩

/-- Go `Header.Add`: the value is appended to those of the key. -/
def Header.Add (h : Header) (key value : GoString) : Header :=
  let k := CanonicalMIMEHeaderKey key
  match h.m.lookup k with
  | some vs => ⟨h.m.map (fun kv => if kv.1 = k then (k, vs ++ [value]) else kv)⟩
  | none => ⟨h.m ++ [(k, [value])]⟩

/-- Go `http.Request`, the fields the client sets. `Body` is the payload the
request will send: `none` is a nil body, `some []` is `http.NoBody`. -/
structure Request where
  Method : GoString
  URL : url.URL
  Header : Header := {}
  Body : Option GoString := none
  ContentLength : Nat := 0
  Host : GoString := []
deriving DecidableEq, Repr

/-- Errors of `http.NewRequest`. -/
inductive RequestError where
  | invalidMethod (method : GoString)
  | url (e : url.Error)
deriving DecidableEq, Repr

/-- Go `http.hasPort`. -/
def hasPort (s : GoString) : Bool :=
  goIndex (strings.LastIndexByte s (ch ':')) > goIndex (strings.LastIndexByte s (ch ']'))

/-- Go `http.removeEmptyPort`. -/
def removeEmptyPort (host : GoString) : GoString :=
  if hasPort host then strings.TrimSuffix host (str ":") else host

/-- Go `http.NewRequest` (the context is `context.Background()`), with `body`
either nil or a `*bytes.Buffer` holding the given bytes. -/
def NewRequest (method urlStr : GoString) (body : Option GoString) :
    Except RequestError Request :=
  let method := if method = [] then str "GET" else method
  if !validMethod method then .error (.invalidMethod method)
  else
    match url.Parse urlStr with
    | .error e => .error (.url e)
    | .ok u =>
      let u := { u with Host := removeEmptyPort u.Host }
      .ok { Method := method, URL := u, Header := {}, Host := u.Host,
            Body := body, ContentLength := (body.map List.length).getD 0 }

/-- The body of a response as a reader: the bytes it delivers and the error,
if any, that ends the stream in place of `io.EOF`. -/
structure Body where
  data : GoString
  err : Option GoString := none
deriving DecidableEq, Repr

/-- Go `http.Response`, the fields the client reads. -/
structure Response where
  StatusCode : Nat
  Status : GoString := []
  Header : Header := {}
  Body : Body := { data := [] }
deriving DecidableEq, Repr

end http

/-! ## Package `trustpilot`: `trustpilot.go` -/

/-- The package variable `baseURL`. -/
def baseURL : GoString := str "https://api.trustpilot.com/v1/"

/-- The package variable `fakeURL`. -/
def fakeURL : GoString := str "http://localhost:8005/trustpilot/"

/-- The error a done `context.Context` reports from `Err`. -/
inductive ContextError where
  | Canceled
  | DeadlineExceeded
deriving DecidableEq, Repr

/-- A non-nil `context.Context` as `Do` observes it in its `select`: `Err` is
`none` while the context is not done. -/
structure Context where
  Err : Option ContextError := none
deriving DecidableEq, Repr

/-- Modelled from the spec: the rate snapshot is not declared in the sources;
the spec describes it as limit (total allowed), remaining (calls left) and
reset (epoch timestamp of the window reset). -/
structure Rate where
  Limit : Int := 0
  Remaining : Int := 0
  Reset : Int := 0
deriving DecidableEq, Repr

/-- Errors the client returns. The last three kinds come from `CheckResponse`
and from reading and decoding a response. -/
inductive Error where
  /-- The error of `fmt.Errorf("BaseURL must have a trailing slash, but %q does not", c.BaseURL)`. -/
  | baseURLTrailingSlash (BaseURL : url.URL)
  /-- An error of `(*url.URL).Parse`. -/
  | url (e : url.Error)
  /-- An error of the JSON encoder. -/
  | json (e : json.UnsupportedTypeError)
  /-- An error of `http.NewRequest`. -/
  | http (e : http.RequestError)
  /-- The error of `errors.New("context must be non-nil")`. -/
  | contextNil
  /-- The value of `ctx.Err()`. -/
  | context (e : ContextError)
  /-- An error of the underlying HTTP client, as it returned it. -/
  | transport (e : GoString)
  /-- The typed error `RateLimitExceeded` with its rate snapshot. -/
  | RateLimitExceeded (StatusCode : Nat) (rate : Rate)
  /-- The typed error `APIError`: the status code, with the status text and the
  body text its message is extracted from. -/
  | APIError (StatusCode : Nat) (Status : GoString) (body : GoString)
  /-- An error of reading the response body. -/
  | read (e : GoString)
  /-- An error of `json.Unmarshal`. -/
  | unmarshal (e : GoString)
deriving DecidableEq, Repr

/-- The underlying `*http.Client`: what its `Do` returns for a request, a
response or a transport error. -/
abbrev HTTPClient := http.Request → Except GoString http.Response

/-- The struct `Response` of `trustpilot.go`: the raw HTTP response and the
rate limit. -/
structure Response where
  httpResponse : http.Response
  Rate : Rate := {}
deriving DecidableEq, Repr

/-- The `Client` of `trustpilot.go`; `CTX` is `none` for a nil context and
`Response` is `none` for a nil pointer. -/
structure Client where
  CTX : Option Context := none
  client : HTTPClient
  BaseURL : url.URL
  UserAgent : GoString := []
  ClientID : GoString := []
  ClientSecret : GoString := []
  ResponseType : GoString := []
  Response : Option Response := none

/-- The function `NewClient` of `trustpilot.go`; `defaultClient` is the
`&http.Client{}` used for a nil `httpClient`. The error of `url.Parse` is
discarded as in the source. -/
def NewClient (defaultClient : HTTPClient) (httpClient : Option HTTPClient) : Client :=
  let httpClient := match httpClient with
    | none => defaultClient
    | some h => h
  let bURL := match url.Parse baseURL with
    | .ok u => u
    | .error _ => {}
  { client := httpClient, BaseURL := bURL }

/-- The method `(*Client).NewRequest` of `trustpilot.go`; `body` is `none` for
a nil interface value. -/
def Client.NewRequest (c : Client) (method urlStr : GoString) (body : Option GoValue) :
    Except Error http.Request :=
  if !strings.HasSuffix c.BaseURL.Path (str "/") then
    .error (.baseURLTrailingSlash c.BaseURL)
  else
    match c.BaseURL.Parse urlStr with
    | .error err => .error (.url err)
    | .ok u =>
      let buf : Except Error (Option GoString) :=
        match body with
        | some v =>
          match json.Encoder.Encode false v with
          | .error err => .error (.json err)
          | .ok b => .ok (some b)
        | none => .ok none
      match buf with
      | .error err => .error err
      | .ok buf =>
        match http.NewRequest method u.String buf with
        | .error err => .error (.http err)
        | .ok req =>
          if body.isSome then
            .ok { req with Header := req.Header.Set (str "Content-Type") (str "application/json") }
          else .ok req

/-- Decimal text to an integer: an optional sign and digits; `0` for anything
else, as a header that is absent or malformed leaves the zero value. -/
def atoi (s : GoString) : Int :=
  let digits (d : GoString) : Option Nat :=
    if d ≠ [] ∧ d.all (fun b => ch '0' ≤ b ∧ b ≤ ch '9')
    then some (d.foldl (fun n b => 10 * n + (b - ch '0')) 0) else none
  match s with
  | [] => 0
  | c :: rest =>
    if c = ch '-' then
      match digits rest with
      | some n => -(n : Int)
      | none => 0
    else if c = ch '+' then
      match digits rest with
      | some n => n
      | none => 0
    else
      match digits (c :: rest) with
      | some n => n
      | none => 0

/-- The header names of `auth.go`. -/
def headerRateLimit : GoString := str "X-RateLimit-Limit"

/-- The header name `headerRateRemaining` of `auth.go`. -/
def headerRateRemaining : GoString := str "X-RateLimit-Remaining"

/-- The header name `headerRateReset` of `auth.go`. -/
def headerRateReset : GoString := str "X-RateLimit-Reset"

/-- Modelled from the spec: the rate envelope parser is not among the sources.
The spec: it parses the `X-RateLimit-*` response headers into a rate snapshot;
absent headers yield zero values, never an error. -/
def parseRate (r : http.Response) : Rate :=
  { Limit := atoi (r.Header.Get headerRateLimit),
    Remaining := atoi (r.Header.Get headerRateRemaining),
    Reset := atoi (r.Header.Get headerRateReset) }

/-- Modelled from the spec: `CheckResponse` is called by `Do` and is not among
the sources. The spec (Error Classifier): the rate envelope is parsed from the
headers whatever the status; a 2xx status yields no error; status 403 or 429
with remaining equal to 0 and a reset time in the future yields
`RateLimitExceeded` carrying the rate snapshot, without reading the body; any
other status yields `APIError` with the status code and a message extracted
from the body or the status text. `now` is the clock, in epoch seconds. -/
def CheckResponse (now : Int) (r : http.Response) : Option Error :=
  let rate := parseRate r
  if 200 ≤ r.StatusCode ∧ r.StatusCode ≤ 299 then none
  else if (r.StatusCode = 403 ∨ r.StatusCode = 429) ∧ rate.Remaining = 0 ∧ now < rate.Reset then
    some (.RateLimitExceeded r.StatusCode rate)
  else some (.APIError r.StatusCode r.Status r.Body.data)

/-- Go `ioutil.ReadAll`: the bytes read and the error that ended the stream,
if it was not `io.EOF`. -/
def ioutil.ReadAll (b : http.Body) : GoString × Option Error :=
  (b.data, b.err.map Error.read)

/-- What a call of `Do` leaves: the bytes and the error it returns (`none`
for nil) and the requests it handed to the underlying HTTP client. -/
structure DoResult where
  bytes : Option GoString
  err : Option Error
  sent : List http.Request := []
deriving DecidableEq, Repr

/-- The method `(*Client).Do` of `trustpilot.go`; `ctx` is `none` for a nil
context and `now` is the clock `CheckResponse` reads. -/
def Client.Do (c : Client) (now : Int) (ctx : Option Context) (req : http.Request) : DoResult :=
  match ctx with
  | none => { bytes := none, err := some .contextNil }
  | some ctx =>
    match c.client req with
    | .error err =>
      match ctx.Err with
      | some e => { bytes := none, err := some (.context e), sent := [req] }
      | none => { bytes := none, err := some (.transport err), sent := [req] }
    | .ok resp =>
      match CheckResponse now resp with
      | some err => { bytes := none, err := some err, sent := [req] }
      | none =>
        let r := ioutil.ReadAll resp.Body
        { bytes := some r.1, err := r.2, sent := [req] }

/-! ## Package `trustpilot`: `auth.go` -/

/-- What an endpoint method leaves: the value and the error it returns and
the requests handed to the underlying HTTP client. -/
structure Call (α : Type) where
  value : α
  err : Option Error
  sent : List http.Request := []

/-- Go `json.Unmarshal(data, &v)` for a destination of type `α`, a parameter
of the endpoint methods: from the data and the destination, the destination
afterwards and the error. The methods pass the address of a pointer, so
their `α` is an `Option`, `none` being the nil pointer. -/
abbrev Unmarshal (α : Type) := GoString → α → α × Option Error

/-- The alphabet of the standard base64 encoding. -/
def base64Alphabet : GoString :=
  str "ABCDEFGHIJKLMNOPQRSTUVWXYZabcdefghijklmnopqrstuvwxyz0123456789+/"

/-- The base64 character of a six-bit value. -/
def base64Char (n : Nat) : Nat := base64Alphabet.getD n 0

/-- Modelled from the spec: `base64Encode` is called by `RetrieveAccessToken`
and is not among the sources. The spec gives the header as
`Basic base64(clientID:clientSecret)`: the standard base64 encoding with
padding. -/
def base64Encode : GoString → GoString
  | [] => []
  | [a] => [base64Char (a / 4), base64Char (a % 4 * 16), ch '=', ch '=']
  | [a, b] =>
    [base64Char (a / 4), base64Char (a % 4 * 16 + b / 16), base64Char (b % 16 * 4), ch '=']
  | a :: b :: c :: rest =>
    [base64Char (a / 4), base64Char (a % 4 * 16 + b / 16),
     base64Char (b % 16 * 4 + c / 64), base64Char (c % 64)] ++ base64Encode rest

/-- The struct `Authorization` of `auth.go`; a nil pointer field is `none`. -/
structure Authorization where
  AccessToken : Option GoString := none
  RefreshToken : Option GoString := none
  ExpiresIN : Option GoString := none
deriving DecidableEq, Repr

/-- The URL string `AuthorizationCode` formats; `isTEST` is the package
variable of that name. -/
def AuthorizationsService.authorizationCodeURL (isTEST : Bool) (c : Client)
    (redirectURL : GoString) : GoString :=
  if isTEST then
    str "/v1/oauth/oauth-business-users-for-applications/authenticate" ++
      str "?response_type=code&client_id=" ++ c.ClientID ++ str "&redirect_uri=" ++ redirectURL
  else
    fakeURL ++ str "/authenticate?response_type=code&client_id=" ++ c.ClientID ++
      str "&redirect_uri=" ++ redirectURL

/-- The request `AuthorizationCode` builds (`auth.go`, lines 51 to 56). -/
def AuthorizationsService.authorizationCodeRequest (isTEST : Bool) (c : Client)
    (redirectURL : GoString) : Except Error http.Request :=
  c.NewRequest (str "GET") (AuthorizationsService.authorizationCodeURL isTEST c redirectURL) none

/-- The method `(*AuthorizationsService).AuthorizationCode` of `auth.go`. -/
def AuthorizationsService.AuthorizationCode (isTEST : Bool) (c : Client) (now : Int)
    (redirectURL : GoString) : Call GoString :=
  match AuthorizationsService.authorizationCodeRequest isTEST c redirectURL with
  | .error err => { value := [], err := some err }
  | .ok req =>
    let r := c.Do now c.CTX req
    match r.err with
    | some err => { value := [], err := some err, sent := r.sent }
    | none => { value := r.bytes.getD [], err := none, sent := r.sent }

/-- The body `RetrieveAccessToken` sends: the anonymous struct `reqBody`. -/
def AuthorizationsService.reqBody (code redirectURL : GoString) : GoValue :=
  .struct [(str "grant_type", .string (str "authorization_code")),
           (str "code", .string code),
           (str "redirect_uri", .string redirectURL)]

/-- The value `RetrieveAccessToken` assigns to the package variable `accessTokenURL`. -/
def AuthorizationsService.accessTokenURL (isTEST : Bool) : GoString :=
  if isTEST then str "/v1/oauth/oauth-business-users-for-applications/accesstoken"
  else fakeURL ++ str "accesstoken"

/-- The request `RetrieveAccessToken` dispatches (`auth.go`, lines 75 to 92):
the request of `NewRequest` with the two headers added. -/
def AuthorizationsService.retrieveAccessTokenRequest (isTEST : Bool) (c : Client)
    (code redirectURL : GoString) : Except Error http.Request :=
  match c.NewRequest (str "POST") (AuthorizationsService.accessTokenURL isTEST)
      (some (AuthorizationsService.reqBody code redirectURL)) with
  | .error err => .error err
  | .ok req =>
    let bc := base64Encode (c.ClientID ++ str ":" ++ c.ClientSecret)
    let header := req.Header.Add (str "Content-Type") (str "application/x-www-form-urlencoded")
    let header := header.Add (str "Authorization") (str "Basic " ++ bc)
    .ok { req with Header := header }

/-- The method `(*AuthorizationsService).RetrieveAccessToken` of `auth.go`;
the value is `none` for a nil pointer. -/
def AuthorizationsService.RetrieveAccessToken (isTEST : Bool)
    (unmarshal : Unmarshal (Option Authorization)) (c : Client) (now : Int)
    (code redirectURL : GoString) : Call (Option Authorization) :=
  match AuthorizationsService.retrieveAccessTokenRequest isTEST c code redirectURL with
  | .error err => { value := none, err := some err }
  | .ok req =>
    let auth : Option Authorization := some {}
    let r := c.Do now c.CTX req
    match r.err with
    | some err => { value := auth, err := some err, sent := r.sent }
    | none =>
      let d := unmarshal (r.bytes.getD []) auth
      match d.2 with
      | some err => { value := none, err := some err, sent := r.sent }
      | none => { value := d.1, err := none, sent := r.sent }

/-! ## Package `trustpilot`: `business.go` and `product.go` -/

/-- The struct `Links` of `business.go`. -/
structure Links where
  HREF : Option GoString := none
  Method : Option GoString := none
  REL : Option GoString := none
deriving DecidableEq, Repr

/-- The struct `Business` of `business.go`. -/
structure Business where
  DisplayName : Option GoString := none
  ID : Option GoString := none
  Links : List Links := []
deriving DecidableEq, Repr

/-- The struct `BusinessUnit` of `business.go`. -/
structure BusinessUnit where
  DisplaName : Option GoString := none
  ID : Option GoString := none
deriving DecidableEq, Repr

/-- The pointer type `*BusinessUnit`; `none` is nil. -/
abbrev BusinessUnitPtr := Option BusinessUnit

/-- The struct `SingleServiceReview` of `business.go`. -/
structure SingleServiceReview where
  Title : Option GoString := none
  Text : Option GoString := none
  UpdatedAt : Option GoString := none
  CreatedAt : Option GoString := none
  Stars : Option Int := none
  BusinessUnit : BusinessUnitPtr := none
  ID : Option GoString := none
  Consumer : BusinessUnitPtr := none
deriving DecidableEq, Repr

/-- The struct `ServiceReviews` of `business.go`. -/
structure ServiceReviews where
  Reviews : List (Option SingleServiceReview) := []
deriving DecidableEq, Repr

/-- The struct `ServiceReviewResp` of `business.go`. -/
structure ServiceReviewResp where
deriving DecidableEq, Repr

/-- The struct `TFiles` of `product.go`. -/
structure TFiles where
  MimeType : Option GoString := none
  URL : Option GoString := none
  Dimension : Option GoString := none
deriving DecidableEq, Repr

/-- The struct `Attachments` of `product.go`. -/
structure Attachments where
  State : Option GoString := none
  ID : Option GoString := none
  ProcessedFile : List (Option TFiles) := []
deriving DecidableEq, Repr

/-- The struct `SingleProductReview` of `product.go`. -/
structure SingleProductReview where
  Content : Option GoString := none
  CreatedAt : Option GoString := none
  Stars : Option Int := none
  ID : Option GoString := none
  Consumer : Option BusinessUnit := none
  Links : List (Option Links) := []
  Attachments : List (Option Attachments) := []
deriving DecidableEq, Repr

/-- The struct `ProductReviews` of `product.go`. -/
structure ProductReviews where
  Reviews : List (Option SingleProductReview) := []
deriving DecidableEq, Repr

/-- The tail shared by the methods of `business.go` and `product.go`: from the
result of `NewRequest`, add the `Authorization` header, dispatch with the
client's `CTX`, decode the bytes into `zero`, the pointer to a fresh struct;
the destination is returned on every path. -/
def dispatchInto {α : Type} (unmarshal : Unmarshal α) (c : Client) (now : Int) (zero : α)
    (authorization : GoString) (built : Except Error http.Request) : Call α :=
  match built with
  | .error err => { value := zero, err := some err }
  | .ok req =>
    let req := { req with Header := req.Header.Add (str "Authorization") authorization }
    let r := c.Do now c.CTX req
    match r.err with
    | some err => { value := zero, err := some err, sent := r.sent }
    | none =>
      let d := unmarshal (r.bytes.getD []) zero
      { value := d.1, err := d.2, sent := r.sent }

/-- The URL string `GetBusinessCredentials` formats. -/
def BusinessService.getBusinessCredentialsURL (isTEST : Bool) (search : GoString) : GoString :=
  if isTEST then str "/v1/business-units/find?name=" ++ search
  else fakeURL ++ str "/v1/business-units/find?name=" ++ search

/-- The method `(*BusinessService).GetBusinessCredentials` of `business.go`. -/
def BusinessService.GetBusinessCredentials (isTEST : Bool) (unmarshal : Unmarshal (Option Business))
    (c : Client) (now : Int) (token search : GoString) : Call (Option Business) :=
  dispatchInto unmarshal c now (some {}) token
    (c.NewRequest (str "GET") (BusinessService.getBusinessCredentialsURL isTEST search) none)

/-- The URL string `GetServiceReviews` formats. -/
def BusinessService.getServiceReviewsURL (isTEST : Bool) : GoString :=
  if isTEST then str "/v1/reviews/latest" else fakeURL ++ str "/reviews/latest"

/-- The method `(*BusinessService).GetServiceReviews` of `business.go`. -/
def BusinessService.GetServiceReviews (isTEST : Bool) (unmarshal : Unmarshal (Option ServiceReviews))
    (c : Client) (now : Int) (_count : Int) : Call (Option ServiceReviews) :=
  dispatchInto unmarshal c now (some {}) c.ClientID
    (c.NewRequest (str "GET") (BusinessService.getServiceReviewsURL isTEST) none)

/-- The URL string `GetServicePrivateReview` formats. -/
def BusinessService.getServicePrivateReviewURL (isTEST : Bool) (reviewID : GoString) : GoString :=
  if isTEST then str "/private/reviews/507f191e810c19729de860ea"
  else fakeURL ++ str "/private/reviews/" ++ reviewID

/-- The method `(*BusinessService).GetServicePrivateReview` of `business.go`. -/
def BusinessService.GetServicePrivateReview (isTEST : Bool)
    (unmarshal : Unmarshal (Option SingleServiceReview)) (c : Client) (now : Int)
    (token reviewID : GoString) : Call (Option SingleServiceReview) :=
  dispatchInto unmarshal c now (some {}) token
    (c.NewRequest (str "GET") (BusinessService.getServicePrivateReviewURL isTEST reviewID) none)

/-- The URL string `SendServiceReviews` formats. -/
def BusinessService.sendServiceReviewsURL (isTEST : Bool) (reviewID : GoString) : GoString :=
  if isTEST then str "/private/reviews/507f191e810c19729de860ea/reply"
  else fakeURL ++ str "/private/reviews/" ++ reviewID ++ str "/reply"

/-- The method `(*BusinessService).SendServiceReviews` of `business.go`. -/
def BusinessService.SendServiceReviews (isTEST : Bool) (unmarshal : Unmarshal (Option ServiceReviewResp))
    (c : Client) (now : Int) (token reviewID message : GoString) : Call (Option ServiceReviewResp) :=
  dispatchInto unmarshal c now (some {}) token
    (c.NewRequest (str "POST") (BusinessService.sendServiceReviewsURL isTEST reviewID)
      (some (.struct [(str "message", .string message)])))

/-- The URL string `GetProductReviews` formats. -/
def ProductService.getProductReviewsURL (isTEST : Bool) (businessUnitID : GoString) : GoString :=
  if isTEST then str "/product-reviews/business-units/507f191e810c19729de860ea/reviews"
  else fakeURL ++ str "/product-reviews/business-units/" ++ businessUnitID ++ str "/reviews"

/-- The method `(*ProductService).GetProductReviews` of `product.go`. -/
def ProductService.GetProductReviews (isTEST : Bool) (unmarshal : Unmarshal (Option ProductReviews))
    (c : Client) (now : Int) (businessUnitID : GoString) : Call (Option ProductReviews) :=
  dispatchInto unmarshal c now (some {}) c.ClientID
    (c.NewRequest (str "GET") (ProductService.getProductReviewsURL isTEST businessUnitID) none)

/-- The URL string `GetProductPrivateReviews` formats. -/
def ProductService.getProductPrivateReviewsURL (isTEST : Bool) (businessUnitID : GoString) :
    GoString :=
  if isTEST then str "/private/product-reviews/business-units/507f191e810c19729de860ea/reviews"
  else fakeURL ++ str "/private/product-reviews/business-units/" ++ businessUnitID ++
    str "/reviews"

/-- The method `(*ProductService).GetProductPrivateReviews` of `product.go`. -/
def ProductService.GetProductPrivateReviews (isTEST : Bool) (unmarshal : Unmarshal (Option ProductReviews))
    (c : Client) (now : Int) (token businessUnitID : GoString) : Call (Option ProductReviews) :=
  dispatchInto unmarshal c now (some {}) token
    (c.NewRequest (str "GET") (ProductService.getProductPrivateReviewsURL isTEST businessUnitID)
      none)

/-! ## Package `encoding/json` (decoder) -/

namespace json

/-- A JSON value as the decoder reads it; a number keeps its text. -/
inductive Value where
  | null
  | bool (b : Bool)
  | number (text : GoString)
  | string (s : GoString)
  | array (elems : List Value)
  | object (members : List (GoString × Value))
deriving Repr

/-- Go `json.isSpace`. -/
def isSpace (c : Nat) : Bool := c = ch ' ' ∨ c = 9 ∨ c = 13 ∨ c = 10

/-- The text after leading JSON white space. -/
def skipSpace (s : GoString) : GoString := s.dropWhile isSpace

/-- A decimal digit. -/
def isDigit (c : Nat) : Bool := ch '0' ≤ c ∧ c ≤ ch '9'

/-- Go `json.maxNestingDepth`. -/
def maxNestingDepth : Nat := 10000

/-- The number at the head of the text, as the scanner accepts it: an
optional minus, an integer part without a leading zero, an optional fraction
and an optional exponent. The number text and the text after it. -/
def scanNumber (s : GoString) : Option (GoString × GoString) :=
  let sign : GoString := if s.head? = some (ch '-') then [ch '-'] else []
  let s1 := s.drop sign.length
  match s1 with
  | [] => none
  | c :: t =>
    if !isDigit c then none
    else
      let intPart : GoString := if c = ch '0' then [c] else c :: t.takeWhile isDigit
      let s2 := if c = ch '0' then t else t.dropWhile isDigit
      let fracDigits : GoString := (s2.drop 1).takeWhile isDigit
      let hasFrac : Bool := s2.head? = some (ch '.')
      if hasFrac ∧ fracDigits = [] then none
      else
        let frac : GoString := if hasFrac then ch '.' :: fracDigits else []
        let s3 := s2.drop frac.length
        let hasExp : Bool := s3.head? = some (ch 'e') ∨ s3.head? = some (ch 'E')
        let afterE := s3.drop 1
        let expSign : GoString :=
          if afterE.head? = some (ch '+') ∨ afterE.head? = some (ch '-') then afterE.take 1
          else []
        let expDigits : GoString := (afterE.drop expSign.length).takeWhile isDigit
        if hasExp ∧ expDigits = [] then none
        else
          let exp : GoString := if hasExp then s3.take 1 ++ expSign ++ expDigits else []
          some (sign ++ intPart ++ frac ++ exp, s3.drop exp.length)

/-- Go `json.getu4` without the leading "\u": the value of four hexadecimal digits. -/
def hex4 (s : GoString) : Option Nat :=
  match s with
  | a :: b :: c :: d :: _ =>
    if url.ishex a ∧ url.ishex b ∧ url.ishex c ∧ url.ishex d then
      some (((url.unhex a * 16 + url.unhex b) * 16 + url.unhex c) * 16 + url.unhex d)
    else none
  | _ => none

/-- Go `json.getu4`: the value of an escape "\uXXXX" at the head of the text. -/
def getu4 (s : GoString) : Option Nat :=
  match s with
  | 92 :: 117 :: t => hex4 t
  | _ => none

/-- The byte a one-letter escape stands for. -/
def simpleEscape (e : Nat) : Option Nat :=
  if e = ch '"' ∨ e = 92 ∨ e = ch '/' then some e
  else if e = ch 'b' then some 8
  else if e = ch 'f' then some 12
  else if e = ch 'n' then some 10
  else if e = ch 'r' then some 13
  else if e = ch 't' then some 9
  else none

/-- The text of a JSON string after its opening quote, scanned and unquoted
as the scanner and Go `json.unquote` do: the decoded bytes and the text after
the closing quote. Invalid UTF-8 and lone surrogates become U+FFFD. -/
def scanString : Nat → GoString → Option (GoString × GoString)
  | 0, _ => none
  | _ + 1, [] => none
  | fuel + 1, c :: t =>
    if c = ch '"' then some ([], t)
    else if c = 92 then
      match t with
      | [] => none
      | e :: t2 =>
        if e = ch 'u' then
          match hex4 t2 with
          | none => none
          | some rr =>
            let t3 := t2.drop 4
            if 0xD800 ≤ rr ∧ rr < 0xE000 then
              match getu4 t3 with
              | some rr1 =>
                if rr < 0xDC00 ∧ 0xDC00 ≤ rr1 ∧ rr1 < 0xE000 then
                  (scanString fuel (t3.drop 6)).map (fun r =>
                    (utf8EncodeRune ((rr - 0xD800) * 1024 + (rr1 - 0xDC00) + 0x10000) ++ r.1, r.2))
                else
                  (scanString fuel t3).map (fun r => (utf8EncodeRune utf8.RuneError ++ r.1, r.2))
              | none =>
                (scanString fuel t3).map (fun r => (utf8EncodeRune utf8.RuneError ++ r.1, r.2))
            else (scanString fuel t3).map (fun r => (utf8EncodeRune rr ++ r.1, r.2))
        else
          match simpleEscape e with
          | none => none
          | some b => (scanString fuel t2).map (fun r => (b :: r.1, r.2))
    else if c < 0x20 then none
    else if c < 0x80 then (scanString fuel t).map (fun r => (c :: r.1, r.2))
    else
      let d := utf8.DecodeRuneInString ((c :: t).take 4)
      (scanString fuel (t.drop (d.2 - 1))).map (fun r => (utf8EncodeRune d.1 ++ r.1, r.2))

mutual
/-- The JSON value at the head of the text and the text after it. -/
def parseValue : Nat → Nat → GoString → Option (Value × GoString)
  | 0, _, _ => none
  | fuel + 1, depth, s =>
    match skipSpace s with
    | [] => none
    | c :: t =>
      if c = ch '{' then
        if depth + 1 > maxNestingDepth then none
        else
          match skipSpace t with
          | [] => none
          | c2 :: t2 =>
            if c2 = ch '}' then some (.object [], t2)
            else (parseMembers fuel (depth + 1) (c2 :: t2)).map (fun r => (.object r.1, r.2))
      else if c = ch '[' then
        if depth + 1 > maxNestingDepth then none
        else
          match skipSpace t with
          | [] => none
          | c2 :: t2 =>
            if c2 = ch ']' then some (.array [], t2)
            else (parseElems fuel (depth + 1) (c2 :: t2)).map (fun r => (.array r.1, r.2))
      else if c = ch '"' then
        (scanString (t.length + 1) t).map (fun r => (.string r.1, r.2))
      else if c = ch '-' ∨ isDigit c then
        (scanNumber (c :: t)).map (fun r => (.number r.1, r.2))
      else if (str "true").isPrefixOf (c :: t) then some (.bool true, t.drop 3)
      else if (str "false").isPrefixOf (c :: t) then some (.bool false, t.drop 4)
      else if (str "null").isPrefixOf (c :: t) then some (.null, t.drop 3)
      else none
/-- The elements of an array after its opening bracket, up to the closing one. -/
def parseElems : Nat → Nat → GoString → Option (List Value × GoString)
  | 0, _, _ => none
  | fuel + 1, depth, s =>
    match parseValue fuel depth s with
    | none => none
    | some (v, r) =>
      match skipSpace r with
      | [] => none
      | c :: t =>
        if c = ch ',' then (parseElems fuel depth t).map (fun e => (v :: e.1, e.2))
        else if c = ch ']' then some ([v], t)
        else none
/-- The members of an object after its opening brace, up to the closing one. -/
def parseMembers : Nat → Nat → GoString → Option (List (GoString × Value) × GoString)
  | 0, _, _ => none
  | fuel + 1, depth, s =>
    match skipSpace s with
    | [] => none
    | q :: t =>
      if q ≠ ch '"' then none
      else
        match scanString (t.length + 1) t with
        | none => none
        | some (key, r) =>
          match skipSpace r with
          | [] => none
          | colon :: r2 =>
            if colon ≠ ch ':' then none
            else
              match parseValue fuel depth r2 with
              | none => none
              | some (v, r3) =>
                match skipSpace r3 with
                | [] => none
                | c :: t3 =>
                  if c = ch ',' then
                    (parseMembers fuel depth t3).map (fun m => ((key, v) :: m.1, m.2))
                  else if c = ch '}' then some ([(key, v)], t3)
                  else none
end

/-- The JSON value a whole text holds: Go `json.checkValid` followed by the
decoder's reading of the value; `none` for a syntax error. -/
def parse (data : GoString) : Option Value :=
  match parseValue (data.length + 1) 0 data with
  | some (v, rest) => if skipSpace rest = [] then some v else none
  | none => none

/-- The rune Go `json.foldRune` gives: the smallest rune of the case orbit.
Outside ASCII only the long s and the Kelvin sign share an orbit with ASCII
letters; other runes are kept, which does not change whether a name folds to
an ASCII field name. -/
def foldRune (r : Nat) : Nat :=
  if r = 0x17F then ch 'S' else if r = 0x212A then ch 'K' else r

/-- Loop of Go `json.appendFoldedName`; `pending` counts the further bytes of
the current multi-byte rune, already folded. -/
def foldNameLoop : GoString → Nat → GoString
  | [], _ => []
  | _ :: s, pending + 1 => foldNameLoop s pending
  | c :: s, 0 =>
    if c < 0x80 then
      (if ch 'a' ≤ c ∧ c ≤ ch 'z' then c - 32 else c) :: foldNameLoop s 0
    else
      let d := utf8.DecodeRuneInString ((c :: s).take 4)
      utf8EncodeRune (foldRune d.1) ++ foldNameLoop s (d.2 - 1)

/-- Go `json.foldName`: the name folded for the case-insensitive match of keys. -/
def foldName (name : GoString) : GoString := foldNameLoop name 0

/-- The kind of a JSON value as `UnmarshalTypeError` names it. -/
def Value.kind : Value → GoString
  | .null => str "null"
  | .bool _ => str "bool"
  | .number _ => str "number"
  | .string _ => str "string"
  | .array _ => str "array"
  | .object _ => str "object"

end json

/-- The fields of `Authorization` that the decoder can set. -/
inductive AuthorizationField where
  | AccessToken
  | RefreshToken
  | ExpiresIN
deriving DecidableEq, Repr

/-- The JSON name of a field of `Authorization`, from its struct tag. -/
def AuthorizationField.name : AuthorizationField → GoString
  | .AccessToken => str "access_token"
  | .RefreshToken => str "refresh_token"
  | .ExpiresIN => str "expires_in"

/-- The field of `Authorization` a key of the JSON object is decoded into:
the field of that exact name, and failing that the field whose name is equal
to the key after folding. -/
def Authorization.fieldFor (key : GoString) : Option AuthorizationField :=
  match [AuthorizationField.AccessToken, .RefreshToken, .ExpiresIN].find?
      (fun f => f.name = key) with
  | some f => some f
  | none =>
    [AuthorizationField.AccessToken, .RefreshToken, .ExpiresIN].find?
      (fun f => json.foldName f.name = json.foldName key)

/-- The value of a field of `Authorization`. -/
def Authorization.get (a : Authorization) : AuthorizationField → Option GoString
  | .AccessToken => a.AccessToken
  | .RefreshToken => a.RefreshToken
  | .ExpiresIN => a.ExpiresIN

/-- The struct with a field of `Authorization` assigned. -/
def Authorization.set (a : Authorization) (f : AuthorizationField) (v : Option GoString) :
    Authorization :=
  match f with
  | .AccessToken => { a with AccessToken := v }
  | .RefreshToken => { a with RefreshToken := v }
  | .ExpiresIN => { a with ExpiresIN := v }

/-- The error Go `json.UnmarshalTypeError` reports for a value that does not
fit a `*string` field. -/
def unmarshalTypeError (v : json.Value) (f : AuthorizationField) : Error :=
  .unmarshal (str "json: cannot unmarshal " ++ v.kind ++ str " into Go struct field Authorization."
    ++ f.name ++ str " of type string")

/-- One member of the JSON object decoded into the struct: a key without a
field is skipped, `null` clears the pointer, a string sets it; for any other
value the decoder has already followed the pointer, so a nil pointer is left
pointing to a new empty string and a pointer that was set keeps its string,
and a type error is saved if none is saved yet. -/
def decodeMember (st : Authorization × Option Error) (m : GoString × json.Value) :
    Authorization × Option Error :=
  match Authorization.fieldFor m.1 with
  | none => st
  | some f =>
    match m.2 with
    | .null => (st.1.set f none, st.2)
    | .string s => (st.1.set f (some s), st.2)
    | v => (st.1.set f (some ((st.1.get f).getD [])),
            if st.2 = none then some (unmarshalTypeError v f) else st.2)

/-- Go `json.Unmarshal(data, &auth)` for `auth` of type `*Authorization`:
invalid JSON is a syntax error and leaves the destination; `null` sets the
pointer to nil; an object is decoded member by member into the struct the
pointer refers to (a fresh one for a nil pointer); any other value is a type
error. -/
def unmarshalAuthorization : Unmarshal (Option Authorization) := fun data auth =>
  match json.parse data with
  | none => (auth, some (.unmarshal (str "json: syntax error")))
  | some .null => (none, none)
  | some (.object members) =>
    let r := members.foldl decodeMember (auth.getD {}, none)
    (some r.1, r.2)
  | some v =>
    (auth, some (.unmarshal (str "json: cannot unmarshal " ++ v.kind ++
      str " into Go value of type trustpilot.Authorization")))

/-! ## Example values -/

/-- An HTTP client whose every call fails with a transport error. -/
def refusingClient : HTTPClient := fun _ => .error (str "connection refused")

/-- An HTTP client that answers every request with the given response. -/
def answeringClient (resp : http.Response) : HTTPClient := fun _ => .ok resp

/-- A client configured as in the test setup: the base URL of a local test
server under the path prefix of the tests, with the test credentials. -/
def testClient : Client :=
  { CTX := some {},
    client := refusingClient,
    BaseURL := { Scheme := str "http", Host := str "127.0.0.1:8080",
                 Path := str "/v1/oauth/oauth-business-users-for-applications/" },
    ClientID := str "xxxxxxx", ClientSecret := str "xxxxxxx" }

/-- A base URL without a path, as parsed from "https://api.trustpilot.com". -/
def hostOnlyURL : url.URL := { Scheme := str "https", Host := str "api.trustpilot.com" }

/-- A GET request for the latest reviews, as `NewRequest` builds it for the
client `NewClient` returns. -/
def sampleRequest : http.Request :=
  { Method := str "GET",
    URL := { Scheme := str "https", Host := str "api.trustpilot.com",
             Path := str "/v1/reviews/latest" },
    Host := str "api.trustpilot.com" }

/-- A 200 response whose body stream breaks after two bytes. -/
def brokenBodyResponse : http.Response :=
  { StatusCode := 200, Status := str "200 OK",
    Body := { data := str "ab", err := some (str "unexpected EOF") } }

/-- A 429 response with an empty body, no calls remaining and a reset at
epoch second 2000000000. -/
def rateLimitedResponse : http.Response :=
  { StatusCode := 429, Status := str "429 Too Many Requests",
    Header := ⟨[(str "X-Ratelimit-Limit", [str "60"]),
                (str "X-Ratelimit-Remaining", [str "0"]),
                (str "X-Ratelimit-Reset", [str "2000000000"])]⟩ }

/-- The error an endpoint method returns on a client with a nil `CTX`: the
error of request construction if there is one, that of `Do` otherwise. -/
def nilContextError (built : Except Error http.Request) : Error :=
  match built with
  | .error e => e
  | .ok _ => .contextNil

/-- An endpoint call fails before any network call: it hands no request to
the underlying HTTP client and returns the error `nilContextError` names. -/
def FailsBeforeNetwork {α : Type} (call : Call α) (built : Except Error http.Request) : Prop :=
  call.sent = [] ∧ call.err = some (nilContextError built)

/-- A decoder that leaves its destination as it is and reports no error. -/
def keepDestination {α : Type} : Unmarshal α := fun _ dst => (dst, none)

/-- The request `NewRequest` builds on the test client for a POST to "reply"
with the string body "Fish & <chips>". -/
def ampersandRequest : http.Request :=
  { Method := str "POST",
    URL := { Scheme := str "http", Host := str "127.0.0.1:8080",
             Path := str "/v1/oauth/oauth-business-users-for-applications/reply" },
    Header := ⟨[(str "Content-Type", [str "application/json"])]⟩,
    Body := some (str "\"Fish & <chips>\"\n"),
    ContentLength := 17,
    Host := str "127.0.0.1:8080" }

/-- The access-token URL outside test mode, parsed. -/
def fakeAccessTokenURL : url.URL :=
  { Scheme := str "http", Host := str "localhost:8005", Path := str "/trustpilot/accesstoken" }

/-- The request `RetrieveAccessToken` dispatches in test mode on the test
client for the code and redirect URL of the tests. -/
def tokenRequest : http.Request :=
  { Method := str "POST",
    URL := { Scheme := str "http", Host := str "127.0.0.1:8080",
             Path := str "/v1/oauth/oauth-business-users-for-applications/accesstoken" },
    Header := ⟨[(str "Content-Type",
                  [str "application/json", str "application/x-www-form-urlencoded"]),
                (str "Authorization", [str "Basic eHh4eHh4eDp4eHh4eHh4"])]⟩,
    Body := some (str ("\x7b\"grant_type\":\"authorization_code\",\"code\":\"612576sadxas\"," ++
                       "\"redirect_uri\":\"blah/ohai\"\x7d\n")),
    ContentLength := 85,
    Host := str "127.0.0.1:8080" }

/-! ## Plain URLs -/

/-- A byte `url.escape` leaves as it is in a path, the colon apart: a
letter, a digit or one of "-_.~$&+,/;=@". -/
def plainPathByte (c : Nat) : Bool := !url.shouldEscape c .encodePath && c != ch ':'

/-- A byte of a host name: one `url.escape` leaves as it is in a host, other
than the colon and the square brackets. -/
def hostNameByte (c : Nat) : Bool :=
  !url.shouldEscape c .encodeHost && c != ch ':' && c != ch '[' && c != ch ']'

/-- A byte of a lower-case scheme after its first. -/
def schemeByte (b : Nat) : Prop :=
  (ch 'a' ≤ b ∧ b ≤ ch 'z') ∨ (ch '0' ≤ b ∧ b ≤ ch '9') ∨ b = ch '+' ∨ b = ch '-' ∨ b = ch '.'

/-- A lower-case scheme: a lower-case letter followed by lower-case letters,
digits, "+", "-" and ".". -/
def isLowerScheme : GoString → Bool
  | [] => false
  | c :: s =>
    (ch 'a' ≤ c ∧ c ≤ ch 'z') &&
    s.all (fun b => (ch 'a' ≤ b ∧ b ≤ ch 'z') ∨ (ch '0' ≤ b ∧ b ≤ ch '9') ∨
                    b = ch '+' ∨ b = ch '-' ∨ b = ch '.')

/-- A host name with an optional port: host-name bytes, then possibly a
colon and one or more digits. -/
def isHostPort (h : GoString) : Bool :=
  let cut := strings.Cut h (ch ':')
  cut.1.all hostNameByte &&
    (!cut.2.2 || (cut.2.1 ≠ [] && cut.2.1.all (fun b => ch '0' ≤ b ∧ b ≤ ch '9')))

/-- An element of a path that is neither "." nor "..". -/
def notDot (e : GoString) : Bool := e != str "." && e != str ".."

/-- The elements of a path joined by the separator again. -/
def joinElems (sep : Nat) : List GoString → GoString
  | [] => []
  | e :: es => e ++ es.flatMap (fun x => sep :: x)

/-- A path of plain bytes none of whose elements between slashes is "." or "..". -/
def isPlainPath (p : GoString) : Bool :=
  p.all plainPathByte && (url.splitByte p (ch '/')).all notDot

/-- A base URL in plain form: a lower-case scheme, a host name with an
optional port, no user information, and a plain path, stored unescaped, that
begins and ends with a slash. -/
def isPlainBase (u : url.URL) : Bool :=
  isLowerScheme u.Scheme && isHostPort u.Host && u.User.isNone && u.RawPath = [] &&
    strings.HasPrefix u.Path (str "/") && strings.HasSuffix u.Path (str "/") &&
    isPlainPath u.Path

/-- A relative path in plain form: not empty, no leading slash, plain. -/
def isPlainRelative (s : GoString) : Bool :=
  s ≠ [] && !strings.HasPrefix s (str "/") && isPlainPath s

/-- The request `NewRequest` builds on the test client for the path
"reviews/latest". -/
def latestRequest : http.Request :=
  { Method := str "GET",
    URL := { Scheme := str "http", Host := str "127.0.0.1:8080",
             Path := str "/v1/oauth/oauth-business-users-for-applications/reviews/latest" },
    Host := str "127.0.0.1:8080" }

/-- The request `NewRequest` builds on the test client for "/v1/reviews/latest"
and for "../../reviews/latest": the base path is gone from its URL. -/
def escapedRequest : http.Request :=
  { Method := str "GET",
    URL := { Scheme := str "http", Host := str "127.0.0.1:8080",
             Path := str "/v1/reviews/latest" },
    Host := str "127.0.0.1:8080" }

/-- The value of a query parameter of a request that was built: what a
server reads with `r.URL.Query().Get(key)`. -/
def queryParameter (built : Except Error http.Request) (key : GoString) : Option GoString :=
  match built with
  | .ok req => some (req.URL.Query.Get key)
  | .error _ => none

/-- The value a field of `Authorization` has after the members of a JSON
object were decoded into the struct `a`: the string of the last member whose
key is decoded into the field, and the value in `a` when there is no such
member. -/
def fieldAfter (a : Authorization) (members : List (GoString × json.Value))
    (f : AuthorizationField) : Option GoString :=
  match members.reverse.find? (fun m => Authorization.fieldFor m.1 = some f) with
  | some (_, .string s) => some s
  | some _ => none
  | none => a.get f

/-- The members of the object are fit for `Authorization`: every member whose
key is decoded into a field has a string value. -/
def stringMembers (members : List (GoString × json.Value)) : Prop :=
  ∀ m ∈ members, ∀ f, Authorization.fieldFor m.1 = some f → ∃ s, m.2 = .string s

/-- A 200 response with the given body, read to its end without error. -/
def okResponse (body : GoString) : http.Response :=
  { StatusCode := 200, Status := str "200 OK", Body := { data := body } }

/-- The body the mock token endpoint of the tests returns. -/
def tokenBody : GoString :=
  str "\x7b\"access_token\":\"12345abc\",\"refresh_token\":\"deadmeat\"\x7d"

/-- A token response as OAuth servers send it, with a numeric `expires_in`. -/
def numericExpiryBody : GoString :=
  str "\x7b\"access_token\":\"12345abc\",\"expires_in\":3600\x7d"

/-- The members of the JSON object `tokenBody`. -/
def tokenMembers : List (GoString × json.Value) :=
  [(str "access_token", .string (str "12345abc")),
   (str "refresh_token", .string (str "deadmeat"))]

/-- The test client with an HTTP client that answers with the token body. -/
def exchangeClient : Client :=
  { testClient with client := answeringClient (okResponse tokenBody) }

/-- A client that has seen its rate limit exceeded: its `Response` holds a
429 response with no calls remaining and a reset at epoch second 2000000000,
and its HTTP client refuses every connection. -/
def rateLimitedClient : Client :=
  { testClient with
    Response := some { httpResponse := rateLimitedResponse,
                       Rate := { Limit := 60, Remaining := 0, Reset := 2000000000 } } }

/-- The request `GetServiceReviews` builds outside test mode on the client
`NewClient` returns: it goes to the fake server, not to the base URL. -/
def fakeReviewsRequest : http.Request :=
  { Method := str "GET",
    URL := { Scheme := str "http", Host := str "localhost:8005",
             Path := str "/trustpilot//reviews/latest" },
    Host := str "localhost:8005" }

/-! ## JSON text: the specification side -/

/-- Specification side: the lower-case hexadecimal digit of a value below 16. -/
def specHexDigit (n : Nat) : Nat := if n < 10 then ch '0' + n else ch 'a' + (n - 10)

/-- Specification side: how one item of a string is written inside a JSON
string when HTML escaping is off (RFC 8259, section 7, with the choices the
documentation of `encoding/json` states): the quotation mark and the reverse
solidus take a reverse solidus before them; backspace, form feed, line feed,
carriage return and tab are written as a reverse solidus and their letter;
any other control character below U+0020 is written as a reverse solidus,
"u00" and two hexadecimal digits; U+2028 and U+2029 are written as a reverse
solidus and "u2028" or "u2029"; a byte outside valid UTF-8 is written as a
reverse solidus and "ufffd"; every other character, "&", "<" and ">" among
them, is written as it is, in UTF-8. -/
def specCharText : Option Nat → GoString
  | none => 92 :: str "ufffd"
  | some r =>
    if r = ch '"' then [92, ch '"']
    else if r = 92 then [92, 92]
    else if r = 8 then [92, ch 'b']
    else if r = 12 then [92, ch 'f']
    else if r = 10 then [92, ch 'n']
    else if r = 13 then [92, ch 'r']
    else if r = 9 then [92, ch 't']
    else if r < 0x20 then 92 :: str "u00" ++ [specHexDigit (r / 16), specHexDigit (r % 16)]
    else if r = 0x2028 then 92 :: str "u2028"
    else if r = 0x2029 then 92 :: str "u2029"
    else utf8EncodeRune r

/-- Specification side: the characters of a JSON string, between its
quotation marks, for a text read as UTF-8. -/
def specJSONChars (s : GoString) : GoString := (utf8.runes s).flatMap specCharText

/-- Specification side: a JSON string, HTML escaping off. -/
def specJSONString (s : GoString) : GoString := [ch '"'] ++ specJSONChars s ++ [ch '"']

/-- Specification side: the decimal digits of a natural number, the most
significant first and without leading zeros ("0" for zero). The first
argument bounds the number of digits. -/
def specDigits : Nat → Nat → GoString
  | 0, _ => []
  | fuel + 1, n => (if n < 10 then [] else specDigits fuel (n / 10)) ++ [ch '0' + n % 10]

/-- Specification side: a JSON number for an integer, in decimal with a
minus sign for a negative one. -/
def specDecimal (i : Int) : GoString :=
  (if i < 0 then [ch '-'] else []) ++ specDigits (i.natAbs + 1) i.natAbs

/-- Specification side: texts separated by commas. -/
def specCommaSeparated : List GoString → GoString
  | [] => []
  | [t] => t
  | t :: ts => t ++ ch ',' :: specCommaSeparated ts

mutual
/-- Specification side: the JSON text of a Go value (RFC 8259), without
insignificant white space: the literals `null`, `true` and `false`, a decimal
number, a string, an array of the texts of its elements between square
brackets, an object of its members, each a name as a string, a colon and the
text of the value, between curly brackets. No text for a value that has none. -/
def specJSONText : GoValue → Option GoString
  | .null => some (str "null")
  | .bool true => some (str "true")
  | .bool false => some (str "false")
  | .int i => some (specDecimal i)
  | .string s => some (specJSONString s)
  | .slice vs => (specJSONElements vs).map (fun ts => ch '[' :: specCommaSeparated ts ++ [ch ']'])
  | .struct fields =>
    (specJSONMembers fields).map (fun ts => ch '{' :: specCommaSeparated ts ++ [ch '}'])
  | .unsupported _ => none
/-- Specification side: the texts of the elements of an array. -/
def specJSONElements : List GoValue → Option (List GoString)
  | [] => some []
  | v :: vs =>
    match specJSONText v, specJSONElements vs with
    | some t, some ts => some (t :: ts)
    | _, _ => none
/-- Specification side: the texts of the members of an object. -/
def specJSONMembers : List (GoString × GoValue) → Option (List GoString)
  | [] => some []
  | (name, v) :: fields =>
    match specJSONText v, specJSONMembers fields with
    | some t, some ts => some ((specJSONString name ++ ch ':' :: t) :: ts)
    | _, _ => none
end

/-- Specification side: the JSON object of the token exchange, with the keys
`grant_type`, `code` and `redirect_uri` in that order and the strings
"authorization_code", the code and the redirect URL as their values. -/
def specTokenRequestText (code redirectURL : GoString) : GoString :=
  str "\x7b\"grant_type\":\"authorization_code\",\"code\":" ++ specJSONString code ++
    str ",\"redirect_uri\":" ++ specJSONString redirectURL ++ str "\x7d"

/-- The members of the JSON object of the token exchange, as a decoder reads
them when the code and the redirect URL arrive as they were given. -/
def tokenRequestMembers (code redirectURL : GoString) : List (GoString × json.Value) :=
  [(str "grant_type", .string (str "authorization_code")),
   (str "code", .string code),
   (str "redirect_uri", .string redirectURL)]

/-- The request `RetrieveAccessToken` dispatches in test mode on the test
client for a code of the single byte 0xFF, which is not valid UTF-8, and the
redirect URL of the tests: the code is sent as the escape of U+FFFD. -/
def invalidCodeRequest : http.Request :=
  { tokenRequest with
    Body := some (str "\x7b\"grant_type\":\"authorization_code\",\"code\":\"" ++ 92 ::
                  str "ufffd\",\"redirect_uri\":\"blah/ohai\"\x7d\n"),
    ContentLength := 79 }

/-! ## Directory URLs and relative paths going down -/

/-- The elements of a relative path, read from the left, never climb above
the directory they start in: "." stays, ".." goes up one level and needs a
level to go up from, any other element goes down one level. The first
argument is the number of levels below the start. -/
def staysBelow : Nat → List GoString → Bool
  | _, [] => true
  | depth, e :: es =>
    if e = str "." then staysBelow depth es
    else if e = str ".." then
      match depth with
      | 0 => false
      | d + 1 => staysBelow d es
    else staysBelow (depth + 1) es

/-- A text of bytes: every element is below 256. -/
def isBytes (s : GoString) : Bool := s.all (fun b => b < 256)

/-- An absolute URL of a directory, fit to be the base of relative paths: a
lower-case scheme, no opaque part, a host without an empty port, a path of
bytes, and an escaped path that begins and ends with a slash and has no "."
or ".." element. User information, a query and a fragment may be present. -/
def isDirectoryURL (u : url.URL) : Bool :=
  isLowerScheme u.Scheme && u.Opaque = [] && http.removeEmptyPort u.Host = u.Host &&
    isBytes u.Path && strings.HasPrefix u.EscapedPath (str "/") &&
    strings.HasSuffix u.EscapedPath (str "/") &&
    (url.splitByte u.EscapedPath (ch '/')).all notDot

/-- A reference that is a relative path going down: no scheme, no host, no
user information, a path of bytes, and an escaped path that has no leading
slash and whose elements never climb above its start. A query and a fragment
may be present. -/
def isDescendingReference (ref : url.URL) : Bool :=
  ref.Scheme = [] && ref.Host = [] && ref.User.isNone && isBytes ref.Path &&
    !strings.HasPrefix ref.EscapedPath (str "/") &&
    staysBelow 0 (url.splitByte ref.EscapedPath (ch '/'))

/-- A text that `url.Parse` reads as a relative path going down. -/
def descends (urlStr : GoString) : Bool :=
  match url.Parse urlStr with
  | .error _ => false
  | .ok ref => isDescendingReference ref

/-- The authority of a URL as `String` writes it: the user information with
"@", if any, and the escaped host. -/
def authorityText (user : Option url.Userinfo) (host : GoString) : GoString :=
  (match user with
   | some ui => ui.String ++ [ch '@']
   | none => []) ++ url.escape host .encodeHost

/-- The query and the fragment of a URL as `String` writes them after the path. -/
def queryFragmentText (u : url.URL) : GoString :=
  (if u.ForceQuery ∨ u.RawQuery ≠ [] then ch '?' :: u.RawQuery else []) ++
    (if u.Fragment ≠ [] then ch '#' :: u.EscapedFragment else [])

/-- The request `NewRequest` builds on the test client for the path
"business-units/find?name=trustpilot.com": the query is carried over. -/
def findRequest : http.Request :=
  { Method := str "GET",
    URL := { Scheme := str "http", Host := str "127.0.0.1:8080",
             Path := str "/v1/oauth/oauth-business-users-for-applications/business-units/find",
             RawQuery := str "name=trustpilot.com" },
    Host := str "127.0.0.1:8080" }

/-- The test client with the base URL that `url.Parse` reads from a text; the
URL of the test client where the text does not parse. -/
def clientAt (base : GoString) : Client :=
  { testClient with
    BaseURL := match url.Parse base with
      | .ok u => u
      | .error _ => testClient.BaseURL }

/-- The URL of the request `NewRequest` builds for a GET without a body. -/
def requestURL (c : Client) (urlStr : GoString) : Option url.URL :=
  match c.NewRequest (str "GET") urlStr none with
  | .ok req => some req.URL
  | .error _ => none

/-! ## Request construction and dispatch -/

/-- C1: when the path of `BaseURL` does not end in "/" (the empty path
included), `NewRequest` returns no request and the trailing-slash error, for
every method, `urlStr` and body, and whatever the underlying HTTP client is:
the client is not consulted. -/
theorem NewRequest_no_trailing_slash (c : Client) (httpClient : HTTPClient)
    (method urlStr : GoString) (body : Option GoValue)
    (h : strings.HasSuffix c.BaseURL.Path (str "/") = false) :
    c.NewRequest method urlStr body = .error (.baseURLTrailingSlash c.BaseURL) ∧
    ({ c with client := httpClient } : Client).NewRequest method urlStr body
      = .error (.baseURLTrailingSlash c.BaseURL) := by
  constructor <;> simp [Client.NewRequest, h]

/-- Witness of C1: a base URL with an empty path. -/
theorem NewRequest_no_trailing_slash_witness :
    strings.HasSuffix ({ testClient with BaseURL := hostOnlyURL } : Client).BaseURL.Path (str "/")
      = false ∧
    (({ testClient with BaseURL := hostOnlyURL } : Client).NewRequest (str "GET")
        (str "reviews/latest") none = .error (.baseURLTrailingSlash hostOnlyURL) ∧
     ({ ({ testClient with BaseURL := hostOnlyURL } : Client) with
          client := answeringClient brokenBodyResponse } : Client).NewRequest (str "GET")
        (str "reviews/latest") none = .error (.baseURLTrailingSlash hostOnlyURL)) :=
  ⟨by decide,
   NewRequest_no_trailing_slash { testClient with BaseURL := hostOnlyURL }
     (answeringClient brokenBodyResponse) (str "GET") (str "reviews/latest") none (by decide)⟩

/-- C4, counterexample: a 200 response that `CheckResponse` accepts and whose
body stream breaks after two bytes; `Do` returns those two bytes together with
the read error, not the complete body with a nil error. -/
theorem Do_accepted_response_counterexample :
    CheckResponse 0 brokenBodyResponse = none ∧
    ({ testClient with client := answeringClient brokenBodyResponse } : Client).Do 0
        (some {}) sampleRequest
      = { bytes := some (str "ab"), err := some (.read (str "unexpected EOF")),
          sent := [sampleRequest] } := by
  constructor <;> decide

/-- C4, amended: when the underlying HTTP client returns a response, `Do`
returns nil bytes and exactly the error of `CheckResponse` if `CheckResponse`
rejects the response; if it accepts, `Do` returns what reading the body gives:
all the bytes the body delivers, unmodified, with a nil error when the body
is read to its end, and with the read error when reading fails. -/
theorem Do_response (c : Client) (now : Int) (ctx : Context) (req : http.Request)
    (resp : http.Response) (h : c.client req = .ok resp) :
    (∀ e, CheckResponse now resp = some e →
      c.Do now (some ctx) req = { bytes := none, err := some e, sent := [req] }) ∧
    (CheckResponse now resp = none →
      c.Do now (some ctx) req =
        { bytes := some resp.Body.data, err := resp.Body.err.map Error.read, sent := [req] }) ∧
    (CheckResponse now resp = none → resp.Body.err = none →
      c.Do now (some ctx) req =
        { bytes := some resp.Body.data, err := none, sent := [req] }) := by
  refine ⟨?_, ?_, ?_⟩
  · intro e he
    simp [Client.Do, h, he]
  · intro hc
    simp [Client.Do, h, hc, ioutil.ReadAll]
  · intro hc hb
    simp [Client.Do, h, hc, hb, ioutil.ReadAll]

/-- Witness of C4 (amended): the response with the broken body. -/
theorem Do_response_witness :
    ({ testClient with client := answeringClient brokenBodyResponse } : Client).client
        sampleRequest = .ok brokenBodyResponse ∧
    ((∀ e, CheckResponse 0 brokenBodyResponse = some e →
      ({ testClient with client := answeringClient brokenBodyResponse } : Client).Do 0
        (some {}) sampleRequest = { bytes := none, err := some e, sent := [sampleRequest] }) ∧
    (CheckResponse 0 brokenBodyResponse = none →
      ({ testClient with client := answeringClient brokenBodyResponse } : Client).Do 0
        (some {}) sampleRequest =
        { bytes := some brokenBodyResponse.Body.data,
          err := brokenBodyResponse.Body.err.map Error.read, sent := [sampleRequest] }) ∧
    (CheckResponse 0 brokenBodyResponse = none → brokenBodyResponse.Body.err = none →
      ({ testClient with client := answeringClient brokenBodyResponse } : Client).Do 0
        (some {}) sampleRequest =
        { bytes := some brokenBodyResponse.Body.data, err := none, sent := [sampleRequest] })) :=
  ⟨rfl, Do_response _ 0 {} sampleRequest brokenBodyResponse rfl⟩

/-- C5: when the underlying HTTP client fails with a transport error, `Do`
returns nil bytes and `ctx.Err()` if the context is done at that moment, and
nil bytes and the transport error unchanged if it is not. -/
theorem Do_transport_error (c : Client) (now : Int) (ctx : Context) (req : http.Request)
    (e : GoString) (h : c.client req = .error e) :
    (∀ ctxErr, ctx.Err = some ctxErr →
      c.Do now (some ctx) req =
        { bytes := none, err := some (.context ctxErr), sent := [req] }) ∧
    (ctx.Err = none →
      c.Do now (some ctx) req = { bytes := none, err := some (.transport e), sent := [req] }) := by
  constructor
  · intro ctxErr hc
    simp [Client.Do, h, hc]
  · intro hc
    simp [Client.Do, h, hc]

/-- Witness of C5: a refused connection under a canceled context. -/
theorem Do_transport_error_witness :
    testClient.client sampleRequest = .error (str "connection refused") ∧
    ((∀ ctxErr, (⟨some .Canceled⟩ : Context).Err = some ctxErr →
      testClient.Do 0 (some ⟨some .Canceled⟩) sampleRequest =
        { bytes := none, err := some (.context ctxErr), sent := [sampleRequest] }) ∧
    ((⟨some .Canceled⟩ : Context).Err = none →
      testClient.Do 0 (some ⟨some .Canceled⟩) sampleRequest =
        { bytes := none, err := some (.transport (str "connection refused")),
          sent := [sampleRequest] })) :=
  ⟨rfl, Do_transport_error testClient 0 ⟨some .Canceled⟩ sampleRequest
    (str "connection refused") rfl⟩

/-! ## A nil context -/

/-- With a nil `CTX` the shared tail of the endpoint methods sends nothing
and returns the construction error if there is one, the error of `Do`
otherwise. -/
theorem dispatchInto_nil_context {α : Type} (unmarshal : Unmarshal α) (c : Client) (now : Int)
    (zero : α) (authorization : GoString) (built : Except Error http.Request)
    (h : c.CTX = none) :
    FailsBeforeNetwork (dispatchInto unmarshal c now zero authorization built) built := by
  cases built with
  | error e => simp [FailsBeforeNetwork, dispatchInto, nilContextError]
  | ok req => simp [FailsBeforeNetwork, dispatchInto, nilContextError, Client.Do, h]

/-- C6, counterexample: on the client `NewClient` returns, whose `CTX` is nil,
`AuthorizationCode` called with a redirect URL that ends in a newline
fails in `NewRequest` with a URL parse error, which is not the error of `Do`
for a nil context; no request is sent. -/
theorem AuthorizationCode_nil_context_counterexample :
    (NewClient refusingClient none).CTX = none ∧
    (AuthorizationsService.AuthorizationCode false (NewClient refusingClient none) 0
        (str "blah/ohai" ++ [10])).err
      ≠ some Error.contextNil ∧
    (AuthorizationsService.AuthorizationCode false (NewClient refusingClient none) 0
        (str "blah/ohai" ++ [10])).sent
      = [] := by
  refine ⟨rfl, ?_, ?_⟩ <;> decide

/-- C6, amended: `Do` called with a nil context returns nil bytes and the
error "context must be non-nil" without invoking the underlying HTTP client;
`NewClient` leaves `CTX` nil; and every endpoint method called on a client
whose `CTX` is nil fails before any network call, with that error whenever
its request could be built and with the error of `NewRequest` otherwise. -/
theorem endpoints_nil_context (isTEST : Bool) (c : Client) (now : Int) (req : http.Request)
    (defaultClient : HTTPClient) (httpClient : Option HTTPClient)
    (uAuth : Unmarshal (Option Authorization)) (uBusiness : Unmarshal (Option Business))
    (uReviews : Unmarshal (Option ServiceReviews))
    (uReview : Unmarshal (Option SingleServiceReview))
    (uResp : Unmarshal (Option ServiceReviewResp))
    (uProduct : Unmarshal (Option ProductReviews))
    (redirectURL code token search reviewID message businessUnitID : GoString) (count : Int)
    (h : c.CTX = none) :
    c.Do now none req = { bytes := none, err := some .contextNil, sent := [] } ∧
    (NewClient defaultClient httpClient).CTX = none ∧
    FailsBeforeNetwork (AuthorizationsService.AuthorizationCode isTEST c now redirectURL)
      (AuthorizationsService.authorizationCodeRequest isTEST c redirectURL) ∧
    FailsBeforeNetwork (AuthorizationsService.RetrieveAccessToken isTEST uAuth c now code redirectURL)
      (AuthorizationsService.retrieveAccessTokenRequest isTEST c code redirectURL) ∧
    FailsBeforeNetwork (BusinessService.GetBusinessCredentials isTEST uBusiness c now token search)
      (c.NewRequest (str "GET") (BusinessService.getBusinessCredentialsURL isTEST search) none) ∧
    FailsBeforeNetwork (BusinessService.GetServiceReviews isTEST uReviews c now count)
      (c.NewRequest (str "GET") (BusinessService.getServiceReviewsURL isTEST) none) ∧
    FailsBeforeNetwork (BusinessService.GetServicePrivateReview isTEST uReview c now token reviewID)
      (c.NewRequest (str "GET") (BusinessService.getServicePrivateReviewURL isTEST reviewID)
        none) ∧
    FailsBeforeNetwork
      (BusinessService.SendServiceReviews isTEST uResp c now token reviewID message)
      (c.NewRequest (str "POST") (BusinessService.sendServiceReviewsURL isTEST reviewID)
        (some (.struct [(str "message", .string message)]))) ∧
    FailsBeforeNetwork (ProductService.GetProductReviews isTEST uProduct c now businessUnitID)
      (c.NewRequest (str "GET") (ProductService.getProductReviewsURL isTEST businessUnitID)
        none) ∧
    FailsBeforeNetwork
      (ProductService.GetProductPrivateReviews isTEST uProduct c now token businessUnitID)
      (c.NewRequest (str "GET")
        (ProductService.getProductPrivateReviewsURL isTEST businessUnitID) none) := by
  refine ⟨rfl, rfl, ?_, ?_, dispatchInto_nil_context _ _ _ _ _ _ h,
    dispatchInto_nil_context _ _ _ _ _ _ h, dispatchInto_nil_context _ _ _ _ _ _ h,
    dispatchInto_nil_context _ _ _ _ _ _ h, dispatchInto_nil_context _ _ _ _ _ _ h,
    dispatchInto_nil_context _ _ _ _ _ _ h⟩
  · unfold AuthorizationsService.AuthorizationCode
    cases AuthorizationsService.authorizationCodeRequest isTEST c redirectURL with
    | error e => simp [FailsBeforeNetwork, nilContextError]
    | ok r => simp [FailsBeforeNetwork, nilContextError, Client.Do, h]
  · unfold AuthorizationsService.RetrieveAccessToken
    cases AuthorizationsService.retrieveAccessTokenRequest isTEST c code redirectURL with
    | error e => simp [FailsBeforeNetwork, nilContextError]
    | ok r => simp [FailsBeforeNetwork, nilContextError, Client.Do, h]

/-- Witness of C6 (amended): the client `NewClient` returns, with the
arguments of the tests. -/
theorem endpoints_nil_context_witness :
    (NewClient refusingClient none).CTX = none ∧
    ((NewClient refusingClient none).Do 0 none sampleRequest
        = { bytes := none, err := some .contextNil, sent := [] } ∧
    (NewClient refusingClient none).CTX = none ∧
    FailsBeforeNetwork
      (AuthorizationsService.AuthorizationCode false (NewClient refusingClient none) 0
        (str "blah/ohai"))
      (AuthorizationsService.authorizationCodeRequest false (NewClient refusingClient none)
        (str "blah/ohai")) ∧
    FailsBeforeNetwork
      (AuthorizationsService.RetrieveAccessToken false keepDestination
        (NewClient refusingClient none) 0 (str "612576sadxas") (str "blah/ohai"))
      (AuthorizationsService.retrieveAccessTokenRequest false (NewClient refusingClient none)
        (str "612576sadxas") (str "blah/ohai")) ∧
    FailsBeforeNetwork
      (BusinessService.GetBusinessCredentials false keepDestination
        (NewClient refusingClient none) 0 (str "token") (str "Trustpilot"))
      ((NewClient refusingClient none).NewRequest (str "GET")
        (BusinessService.getBusinessCredentialsURL false (str "Trustpilot")) none) ∧
    FailsBeforeNetwork
      (BusinessService.GetServiceReviews false keepDestination (NewClient refusingClient none) 0 1)
      ((NewClient refusingClient none).NewRequest (str "GET")
        (BusinessService.getServiceReviewsURL false) none) ∧
    FailsBeforeNetwork
      (BusinessService.GetServicePrivateReview false keepDestination
        (NewClient refusingClient none) 0 (str "token") (str "507f191e810c19729de860ea"))
      ((NewClient refusingClient none).NewRequest (str "GET")
        (BusinessService.getServicePrivateReviewURL false (str "507f191e810c19729de860ea"))
        none) ∧
    FailsBeforeNetwork
      (BusinessService.SendServiceReviews false keepDestination (NewClient refusingClient none) 0
        (str "token") (str "507f191e810c19729de860ea") (str "thanks"))
      ((NewClient refusingClient none).NewRequest (str "POST")
        (BusinessService.sendServiceReviewsURL false (str "507f191e810c19729de860ea"))
        (some (.struct [(str "message", .string (str "thanks"))]))) ∧
    FailsBeforeNetwork
      (ProductService.GetProductReviews false keepDestination (NewClient refusingClient none) 0
        (str "507f191e810c19729de860ea"))
      ((NewClient refusingClient none).NewRequest (str "GET")
        (ProductService.getProductReviewsURL false (str "507f191e810c19729de860ea")) none) ∧
    FailsBeforeNetwork
      (ProductService.GetProductPrivateReviews false keepDestination
        (NewClient refusingClient none) 0 (str "token") (str "507f191e810c19729de860ea"))
      ((NewClient refusingClient none).NewRequest (str "GET")
        (ProductService.getProductPrivateReviewsURL false (str "507f191e810c19729de860ea"))
        none)) :=
  ⟨rfl, endpoints_nil_context false (NewClient refusingClient none) 0 sampleRequest
    refusingClient none keepDestination keepDestination keepDestination keepDestination
    keepDestination keepDestination (str "blah/ohai") (str "612576sadxas") (str "token")
    (str "Trustpilot") (str "507f191e810c19729de860ea") (str "thanks")
    (str "507f191e810c19729de860ea") 1 rfl⟩

/-! ## The error classifier -/

/-- C7: for a response with status 429 whose `X-RateLimit-Remaining` header
is "0" and whose `X-RateLimit-Reset` header is a time after `now`,
`CheckResponse` returns `RateLimitExceeded` carrying the rate snapshot parsed
from the three rate headers, whatever the body is, and `Do` returns that
error with nil bytes. -/
theorem CheckResponse_rate_limit (c : Client) (now : Int) (ctx : Context) (req : http.Request)
    (r : http.Response) (hs : r.StatusCode = 429)
    (hrem : r.Header.Get headerRateRemaining = str "0")
    (hreset : now < atoi (r.Header.Get headerRateReset))
    (hc : c.client req = .ok r) :
    CheckResponse now r
      = some (.RateLimitExceeded 429
          { Limit := atoi (r.Header.Get headerRateLimit),
            Remaining := 0,
            Reset := atoi (r.Header.Get headerRateReset) }) ∧
    c.Do now (some ctx) req
      = { bytes := none,
          err := some (.RateLimitExceeded 429
            { Limit := atoi (r.Header.Get headerRateLimit),
              Remaining := 0,
              Reset := atoi (r.Header.Get headerRateReset) }),
          sent := [req] } := by
  have h0 : atoi (str "0") = 0 := by decide
  have hcheck : CheckResponse now r
      = some (.RateLimitExceeded 429
          { Limit := atoi (r.Header.Get headerRateLimit),
            Remaining := 0,
            Reset := atoi (r.Header.Get headerRateReset) }) := by
    simp [CheckResponse, parseRate, hs, hrem, h0, hreset]
  exact ⟨hcheck, by simp [Client.Do, hc, hcheck]⟩

/-- Witness of C7: a 429 response with an empty body, at epoch second
1700000000. -/
theorem CheckResponse_rate_limit_witness :
    rateLimitedResponse.StatusCode = 429 ∧
    rateLimitedResponse.Header.Get headerRateRemaining = str "0" ∧
    (1700000000 : Int) < atoi (rateLimitedResponse.Header.Get headerRateReset) ∧
    ({ testClient with client := answeringClient rateLimitedResponse } : Client).client
      sampleRequest = .ok rateLimitedResponse ∧
    rateLimitedResponse.Body.data = [] ∧
    (CheckResponse 1700000000 rateLimitedResponse
      = some (.RateLimitExceeded 429
          { Limit := atoi (rateLimitedResponse.Header.Get headerRateLimit),
            Remaining := 0,
            Reset := atoi (rateLimitedResponse.Header.Get headerRateReset) }) ∧
    ({ testClient with client := answeringClient rateLimitedResponse } : Client).Do 1700000000
        (some {}) sampleRequest
      = { bytes := none,
          err := some (.RateLimitExceeded 429
            { Limit := atoi (rateLimitedResponse.Header.Get headerRateLimit),
              Remaining := 0,
              Reset := atoi (rateLimitedResponse.Header.Get headerRateReset) }),
          sent := [sampleRequest] }) :=
  ⟨rfl, by decide, by decide, rfl, rfl,
   CheckResponse_rate_limit { testClient with client := answeringClient rateLimitedResponse }
     1700000000 {} sampleRequest rateLimitedResponse rfl (by decide) (by decide) rfl⟩

/-! ## The request body -/

/-- What a successful `http.NewRequest` returns. -/
theorem http_NewRequest_ok (method urlStr : GoString) (body : Option GoString)
    (req : http.Request) (h : http.NewRequest method urlStr body = .ok req) :
    ∃ u, url.Parse urlStr = .ok u ∧
      req = { Method := if method = [] then str "GET" else method,
              URL := { u with Host := http.removeEmptyPort u.Host },
              Header := {}, Host := http.removeEmptyPort u.Host, Body := body,
              ContentLength := (body.map List.length).getD 0 } := by
  unfold http.NewRequest at h
  by_cases hv : http.validMethod (if method = [] then str "GET" else method)
  · cases hu : url.Parse urlStr with
    | error e => simp [hv, hu] at h
    | ok u =>
      refine ⟨u, rfl, ?_⟩
      simp only [hv, hu] at h
      simpa using h.symm
  · simp [hv] at h

/-- What a successful `NewRequest` of the client returns. -/
theorem Client_NewRequest_ok (c : Client) (method urlStr : GoString) (body : Option GoValue)
    (req : http.Request) (h : c.NewRequest method urlStr body = .ok req) :
    strings.HasSuffix c.BaseURL.Path (str "/") = true ∧
    ∃ u buf r, c.BaseURL.Parse urlStr = .ok u ∧
      (match body with
        | some v => ∃ b, json.encode false v = .ok b ∧ buf = some (b ++ [10])
        | none => buf = none) ∧
      http.NewRequest method u.String buf = .ok r ∧
      req = (if body.isSome then
              { r with Header := r.Header.Set (str "Content-Type") (str "application/json") }
             else r) := by
  unfold Client.NewRequest at h
  by_cases hs : strings.HasSuffix c.BaseURL.Path (str "/")
  · refine ⟨hs, ?_⟩
    cases hu : c.BaseURL.Parse urlStr with
    | error e => simp [hs, hu] at h
    | ok u =>
      cases body with
      | none =>
        cases hr : http.NewRequest method u.String none with
        | error e => simp [hs, hu, hr] at h
        | ok r =>
          refine ⟨u, none, r, rfl, rfl, hr, ?_⟩
          simpa [hs, hu, hr] using h.symm
      | some v =>
        cases hv : json.encode false v with
        | error e => simp [hs, hu, hv, json.Encoder.Encode] at h
        | ok b =>
          cases hr : http.NewRequest method u.String (some (b ++ [10])) with
          | error e => simp [hs, hu, hv, hr, json.Encoder.Encode] at h
          | ok r =>
            refine ⟨u, some (b ++ [10]), r, rfl, ⟨b, hv, rfl⟩, hr, ?_⟩
            simpa [hs, hu, hv, hr, json.Encoder.Encode] using h.symm
  · simp [hs] at h

/-- `http.NewRequest` succeeds for a valid method and a URL that parses. -/
theorem http_NewRequest_eq (method urlStr : GoString) (body : Option GoString) (u : url.URL)
    (hm : http.validMethod (if method = [] then str "GET" else method) = true)
    (hu : url.Parse urlStr = .ok u) :
    http.NewRequest method urlStr body
      = .ok { Method := if method = [] then str "GET" else method,
              URL := { u with Host := http.removeEmptyPort u.Host },
              Header := {}, Host := http.removeEmptyPort u.Host, Body := body,
              ContentLength := (body.map List.length).getD 0 } := by
  simp [http.NewRequest, hm, hu]

/-- A string of bytes of the safe set is written between quotes as it is
when HTML escaping is off. -/
theorem appendString_safe (s : GoString) (h : ∀ b ∈ s, json.safeSet b = true) :
    json.appendString s false = [ch '"'] ++ s ++ [ch '"'] := by
  have loop : ∀ t : GoString, (∀ b ∈ t, json.safeSet b = true) →
      json.appendStringLoop false t 0 true = t := by
    intro t
    induction t with
    | nil => intro _; rfl
    | cons b t ih =>
      intro ht
      have hb : json.safeSet b = true := ht b (List.mem_cons_self _ _)
      have hlt : b < 0x80 := by
        simp [json.safeSet] at hb
        omega
      simp [json.appendStringLoop, hlt, hb, ih (fun x hx => ht x (List.mem_cons_of_mem _ hx))]
  simp [json.appendString, loop s h]

theorem DecodeRuneInString_take (b : Nat) (s : GoString) :
    utf8.DecodeRuneInString ((b :: s).take 4) = utf8.DecodeRuneInString (b :: s) := by
  rcases s with _ | ⟨b1, _ | ⟨b2, _ | ⟨b3, s⟩⟩⟩ <;> simp [utf8.DecodeRuneInString]

theorem DecodeRuneInString_width (b : Nat) (s : GoString) :
    1 ≤ (utf8.DecodeRuneInString (b :: s)).2 ∧
    (utf8.DecodeRuneInString (b :: s)).2 ≤ (b :: s).length := by
  rcases s with _ | ⟨b1, _ | ⟨b2, _ | ⟨b3, s⟩⟩⟩ <;>
    simp only [utf8.DecodeRuneInString] <;> (repeat' split) <;> simp

theorem inRange_iff (lo hi b : Nat) : utf8.inRange lo hi b = true ↔ lo ≤ b ∧ b ≤ hi := by
  simp [utf8.inRange]

theorem utf8EncodeRune_two (b0 b1 : Nat) (h0 : 0xC2 ≤ b0 ∧ b0 ≤ 0xDF) (h1 : 0x80 ≤ b1 ∧ b1 ≤ 0xBF) :
    utf8EncodeRune (b0 % 32 * 64 + b1 % 64) = [b0, b1] ∧ 0x80 ≤ b0 % 32 * 64 + b1 % 64 := by
  have h2 : ¬ (b0 % 32 * 64 + b1 % 64 < 0x80) := by omega
  have h3 : b0 % 32 * 64 + b1 % 64 < 0x800 := by omega
  refine ⟨?_, by omega⟩
  simp only [utf8EncodeRune, if_neg h2, if_pos h3]
  congr 1
  · omega
  · congr 1
    omega

theorem utf8EncodeRune_three (b0 b1 b2 : Nat) (h0 : 0xE0 ≤ b0 ∧ b0 ≤ 0xEF)
    (h1 : (if b0 = 0xE0 then 0xA0 else 0x80) ≤ b1 ∧ b1 ≤ (if b0 = 0xED then 0x9F else 0xBF))
    (h2 : 0x80 ≤ b2 ∧ b2 ≤ 0xBF) :
    utf8EncodeRune (b0 % 16 * 4096 + b1 % 64 * 64 + b2 % 64) = [b0, b1, b2] ∧
    0x80 ≤ b0 % 16 * 4096 + b1 % 64 * 64 + b2 % 64 := by
  have h1a : 0x80 ≤ b1 ∧ b1 ≤ 0xBF := by
    split_ifs at h1 <;> omega
  have h1b : b0 = 0xE0 → 0xA0 ≤ b1 := by
    intro h; rw [if_pos h] at h1; exact h1.1
  have h3 : ¬ (b0 % 16 * 4096 + b1 % 64 * 64 + b2 % 64 < 0x80) := by omega
  have h4 : ¬ (b0 % 16 * 4096 + b1 % 64 * 64 + b2 % 64 < 0x800) := by omega
  have h5 : b0 % 16 * 4096 + b1 % 64 * 64 + b2 % 64 < 0x10000 := by omega
  refine ⟨?_, by omega⟩
  simp only [utf8EncodeRune, if_neg h3, if_neg h4, if_pos h5]
  congr 1
  · omega
  · congr 1
    · omega
    · congr 1
      omega

theorem utf8EncodeRune_four (b0 b1 b2 b3 : Nat) (h0 : 0xF0 ≤ b0 ∧ b0 ≤ 0xF4)
    (h1 : (if b0 = 0xF0 then 0x90 else 0x80) ≤ b1 ∧ b1 ≤ (if b0 = 0xF4 then 0x8F else 0xBF))
    (h2 : 0x80 ≤ b2 ∧ b2 ≤ 0xBF) (h3 : 0x80 ≤ b3 ∧ b3 ≤ 0xBF) :
    utf8EncodeRune (b0 % 8 * 262144 + b1 % 64 * 4096 + b2 % 64 * 64 + b3 % 64)
      = [b0, b1, b2, b3] ∧
    0x80 ≤ b0 % 8 * 262144 + b1 % 64 * 4096 + b2 % 64 * 64 + b3 % 64 := by
  have h1a : 0x80 ≤ b1 ∧ b1 ≤ 0xBF := by
    split_ifs at h1 <;> omega
  have h1b : b0 = 0xF0 → 0x90 ≤ b1 := by
    intro h; rw [if_pos h] at h1; exact h1.1
  have h4 : ¬ (b0 % 8 * 262144 + b1 % 64 * 4096 + b2 % 64 * 64 + b3 % 64 < 0x80) := by omega
  have h5 : ¬ (b0 % 8 * 262144 + b1 % 64 * 4096 + b2 % 64 * 64 + b3 % 64 < 0x800) := by omega
  have h6 : ¬ (b0 % 8 * 262144 + b1 % 64 * 4096 + b2 % 64 * 64 + b3 % 64 < 0x10000) := by omega
  refine ⟨?_, by omega⟩
  simp only [utf8EncodeRune, if_neg h4, if_neg h5, if_neg h6]
  congr 1
  · omega
  · congr 1
    · omega
    · congr 1
      · omega
      · congr 1
        omega

/-- A valid encoding of more than one byte is the encoding of the code point
it decodes to, and that code point is outside ASCII. -/
theorem utf8EncodeRune_DecodeRuneInString (b : Nat) (s : GoString) (hb : ¬ b < 0x80)
    (hv : ¬ ((utf8.DecodeRuneInString (b :: s)).1 = utf8.RuneError ∧
             (utf8.DecodeRuneInString (b :: s)).2 = 1)) :
    utf8EncodeRune (utf8.DecodeRuneInString (b :: s)).1
      = (b :: s).take (utf8.DecodeRuneInString (b :: s)).2 ∧
    0x80 ≤ (utf8.DecodeRuneInString (b :: s)).1 := by
  simp only [utf8.DecodeRuneInString, if_neg hb] at hv ⊢
  by_cases h2 : utf8.inRange 0xC2 0xDF b = true
  · rw [if_pos h2] at hv ⊢
    rcases s with _ | ⟨b1, s⟩
    · simp at hv
    · by_cases h21 : utf8.inRange 0x80 0xBF b1 = true
      · simp only [h21, if_true]
        have := utf8EncodeRune_two b b1 ((inRange_iff _ _ _).1 h2) ((inRange_iff _ _ _).1 h21)
        simpa using this
      · simp [h21] at hv
  · rw [if_neg h2] at hv ⊢
    by_cases h3 : utf8.inRange 0xE0 0xEF b = true
    · rw [if_pos h3] at hv ⊢
      rcases s with _ | ⟨b1, _ | ⟨b2, s⟩⟩
      · simp at hv
      · simp at hv
      · by_cases h31 : (utf8.inRange (if b = 0xE0 then 0xA0 else 0x80)
            (if b = 0xED then 0x9F else 0xBF) b1 = true ∧ utf8.inRange 0x80 0xBF b2 = true)
        · simp only [h31, and_self, if_true]
          have := utf8EncodeRune_three b b1 b2 ((inRange_iff _ _ _).1 h3)
            ((inRange_iff _ _ _).1 h31.1) ((inRange_iff _ _ _).1 h31.2)
          simpa using this
        · simp [h31] at hv
    · rw [if_neg h3] at hv ⊢
      by_cases h4 : utf8.inRange 0xF0 0xF4 b = true
      · rw [if_pos h4] at hv ⊢
        rcases s with _ | ⟨b1, _ | ⟨b2, _ | ⟨b3, s⟩⟩⟩
        · simp at hv
        · simp at hv
        · simp at hv
        · by_cases h41 : (utf8.inRange (if b = 0xF0 then 0x90 else 0x80)
              (if b = 0xF4 then 0x8F else 0xBF) b1 = true ∧ utf8.inRange 0x80 0xBF b2 = true ∧
              utf8.inRange 0x80 0xBF b3 = true)
          · simp only [h41, and_self, if_true]
            have := utf8EncodeRune_four b b1 b2 b3 ((inRange_iff _ _ _).1 h4)
              ((inRange_iff _ _ _).1 h41.1) ((inRange_iff _ _ _).1 h41.2.1)
              ((inRange_iff _ _ _).1 h41.2.2)
            simpa using this
          · simp [h41] at hv
      · rw [if_neg h4] at hv
        simp at hv

/-- The bytes of a rune that are still to come are copied, or dropped, before
the loop goes on. -/
theorem appendStringLoop_pending (escapeHTML : Bool) (p : Nat) (s : GoString) (copy : Bool) :
    json.appendStringLoop escapeHTML s p copy
      = (if copy then s.take p else []) ++ json.appendStringLoop escapeHTML (s.drop p) 0 true := by
  induction p generalizing s with
  | zero =>
    cases s with
    | nil => cases copy <;> simp [json.appendStringLoop]
    | cons b s =>
      cases copy
      · simp only [List.drop_zero, Bool.false_eq_true, if_false, List.nil_append]
        simp [json.appendStringLoop]
      · simp
  | succ p ih =>
    cases s with
    | nil => cases copy <;> simp [json.appendStringLoop]
    | cons b s =>
      rw [json.appendStringLoop, ih]
      cases copy <;> simp

/-- The escape of an ASCII byte outside the safe set is what the
specification writes for it. -/
theorem escapeByte_spec (b : Nat) (hb : b < 0x80) (hs : json.safeSet b = false) :
    json.escapeByte b = specCharText (some b) := by
  have h : b < 0x20 ∨ b = ch '"' ∨ b = 92 := by
    simp [json.safeSet] at hs
    by_contra hc
    push_neg at hc
    have := hs (by omega) hb hc.2.1
    exact hc.2.2 this
  rcases h with h | h | h
  · interval_cases b <;> rfl
  · subst h; rfl
  · subst h; rfl

/-- The loop of `appendString` with HTML escaping off writes every item of
the text as the specification says. -/
theorem appendStringLoop_spec (fuel : Nat) (s : GoString) (h : s.length ≤ fuel) :
    json.appendStringLoop false s 0 true = (utf8.runesLoop fuel s).flatMap specCharText := by
  induction fuel generalizing s with
  | zero =>
    have : s = [] := List.length_eq_zero.1 (Nat.le_zero.1 h)
    subst this
    simp [json.appendStringLoop, utf8.runesLoop]
  | succ fuel ih =>
    cases s with
    | nil => simp [json.appendStringLoop, utf8.runesLoop]
    | cons b s =>
      have hlen : s.length ≤ fuel := by simpa using h
      by_cases hb : b < 0x80
      · have hd : utf8.DecodeRuneInString (b :: s) = (b, 1) := by
          simp [utf8.DecodeRuneInString, hb]
        have hne : ¬ b = utf8.RuneError := by
          simp [utf8.RuneError]; omega
        simp only [json.appendStringLoop, if_pos hb, utf8.runesLoop, hd, hne, false_and, if_false,
          List.flatMap_cons, Nat.sub_self, List.drop_zero, ih s hlen]
        congr 1
        by_cases hs : json.safeSet b = true
        · have h1 : ¬ b = ch '"' := by simp [json.safeSet] at hs; exact hs.2.2.1
          have h2 : ¬ b = 92 := by simp [json.safeSet] at hs; exact hs.2.2.2
          have h3 : 0x20 ≤ b := by simp [json.safeSet] at hs; exact hs.1
          have h4 : ¬ b = 8 := by omega
          have h5 : ¬ b = 12 := by omega
          have h6 : ¬ b = 10 := by omega
          have h7 : ¬ b = 13 := by omega
          have h8 : ¬ b = 9 := by omega
          have h9 : ¬ b < 0x20 := by omega
          have h10 : ¬ b = 0x2028 := by omega
          have h11 : ¬ b = 0x2029 := by omega
          simp only [hs, Bool.not_false, Bool.true_and, Bool.or_true, if_true, specCharText,
            if_neg h1, if_neg h2, if_neg h4, if_neg h5, if_neg h6, if_neg h7, if_neg h8,
            if_neg h9, if_neg h10, if_neg h11, utf8EncodeRune, if_pos hb]
        · have hs : json.safeSet b = false := by simpa using hs
          have hh : json.htmlSafeSet b = false := by simp [json.htmlSafeSet, hs]
          simp only [hs, hh, Bool.or_false, Bool.and_false, Bool.false_eq_true, if_false]
          exact escapeByte_spec b hb hs
      · have hw := DecodeRuneInString_width b s
        have hdrop : (s.drop ((utf8.DecodeRuneInString (b :: s)).2 - 1)).length ≤ fuel := by
          simp only [List.length_drop]; omega
        simp only [json.appendStringLoop, if_neg hb, DecodeRuneInString_take, utf8.runesLoop,
          List.flatMap_cons]
        by_cases hv : (utf8.DecodeRuneInString (b :: s)).1 = utf8.RuneError ∧
            (utf8.DecodeRuneInString (b :: s)).2 = 1
        · simp only [hv, and_self, if_true, Nat.sub_self, List.drop_zero, ih s hlen, specCharText]
          simp
        · obtain ⟨henc, hge⟩ := utf8EncodeRune_DecodeRuneInString b s hb hv
          simp only [if_neg hv]
          by_cases hls : (utf8.DecodeRuneInString (b :: s)).1 = 0x2028 ∨
              (utf8.DecodeRuneInString (b :: s)).1 = 0x2029
          · simp only [if_pos hls]
            rw [appendStringLoop_pending, ih _ hdrop]
            rcases hls with e | e <;> simp only [e, specCharText] <;> simp <;> rfl
          · simp only [if_neg hls]
            rw [appendStringLoop_pending, ih _ hdrop]
            have hspec : specCharText (some (utf8.DecodeRuneInString (b :: s)).1)
                = utf8EncodeRune (utf8.DecodeRuneInString (b :: s)).1 := by
              push_neg at hls
              have h1 : ¬ (utf8.DecodeRuneInString (b :: s)).1 = ch '"' := by
                intro e; rw [e] at hge; exact absurd hge (by decide)
              have h2 : ¬ (utf8.DecodeRuneInString (b :: s)).1 = 92 := by omega
              have h4 : ¬ (utf8.DecodeRuneInString (b :: s)).1 = 8 := by omega
              have h5 : ¬ (utf8.DecodeRuneInString (b :: s)).1 = 12 := by omega
              have h6 : ¬ (utf8.DecodeRuneInString (b :: s)).1 = 10 := by omega
              have h7 : ¬ (utf8.DecodeRuneInString (b :: s)).1 = 13 := by omega
              have h8 : ¬ (utf8.DecodeRuneInString (b :: s)).1 = 9 := by omega
              have h9 : ¬ (utf8.DecodeRuneInString (b :: s)).1 < 0x20 := by omega
              simp only [specCharText, if_neg h1, if_neg h2, if_neg h4, if_neg h5, if_neg h6,
                if_neg h7, if_neg h8, if_neg h9, if_neg hls.1, if_neg hls.2]
            rw [hspec, henc]
            have hpos : (utf8.DecodeRuneInString (b :: s)).2
                = ((utf8.DecodeRuneInString (b :: s)).2 - 1) + 1 := by omega
            rw [hpos, List.take_succ_cons]
            simp

/-- Refinement: `appendString` with HTML escaping off writes the JSON string
of the specification. -/
theorem appendString_spec (s : GoString) : json.appendString s false = specJSONString s := by
  simp [json.appendString, specJSONString, specJSONChars, utf8.runes,
    appendStringLoop_spec s.length s (le_refl _)]

theorem digitChar_toNat (m : Nat) (h : m < 10) : (Nat.digitChar m).toNat = ch '0' + m := by
  interval_cases m <;> rfl

theorem toDigitsCore_spec (fuel n : Nat) (ds : List Char) (h : n < fuel) :
    (Nat.toDigitsCore 10 fuel n ds).map Char.toNat = specDigits fuel n ++ ds.map Char.toNat := by
  induction fuel generalizing n ds with
  | zero => omega
  | succ fuel ih =>
    have hm := digitChar_toNat (n % 10) (Nat.mod_lt _ (by decide))
    by_cases hn : n < 10
    · have h0 : n / 10 = 0 := by omega
      simp [Nat.toDigitsCore, specDigits, h0, hn, hm]
    · have h0 : ¬ n / 10 = 0 := by omega
      have hlt : n / 10 < fuel := by omega
      simp [Nat.toDigitsCore, specDigits, h0, hn, ih (n / 10) _ hlt, hm]

/-- Refinement: `formatInt` writes the decimal number of the specification. -/
theorem formatInt_spec (i : Int) : json.formatInt i = specDecimal i := by
  simp [json.formatInt, specDecimal, Nat.toDigits, toDigitsCore_spec]

theorem specCommaSeparated_cons (t : GoString) (ts : List GoString) :
    specCommaSeparated (t :: ts) = t ++ (if ts.isEmpty then [] else [ch ',']) ++ specCommaSeparated ts := by
  cases ts <;> simp [specCommaSeparated]

theorem toOption_ok {ε α : Type} (x : Except ε α) (o : Option α) (a : α)
    (h : x.toOption = o) (hx : x = .ok a) : o = some a := by
  subst hx; exact h.symm

theorem toOption_error {ε α : Type} (x : Except ε α) (o : Option α) (e : ε)
    (h : x.toOption = o) (hx : x = .error e) : o = none := by
  subst hx; exact h.symm

mutual
/-- Refinement: `encode` with HTML escaping off writes the JSON text of the
specification, and fails exactly when there is none. -/
theorem encode_spec : ∀ v : GoValue, (json.encode false v).toOption = specJSONText v
  | .null => rfl
  | .bool true => rfl
  | .bool false => rfl
  | .int i => by simp [json.encode, specJSONText, formatInt_spec, Except.toOption]
  | .string s => by simp [json.encode, specJSONText, appendString_spec, Except.toOption]
  | .slice vs => by
    have h := encodeElems_spec vs
    simp only [json.encode, specJSONText]
    cases he : json.encode.encodeElems false vs with
    | error e =>
      have h2 := toOption_error _ _ e h he
      cases hs : specJSONElements vs with
      | none => rfl
      | some ts => rw [hs] at h2; simp at h2
    | ok es =>
      have h2 := toOption_ok _ _ es h he
      cases hs : specJSONElements vs with
      | none => rw [hs] at h2; simp at h2
      | some ts =>
        rw [hs] at h2
        simp only [Option.map_some', Option.some.injEq] at h2
        simp [Except.toOption, h2]
  | .struct fields => by
    have h := encodeFields_spec fields
    simp only [json.encode, specJSONText]
    cases he : json.encode.encodeFields false fields with
    | error e =>
      have h2 := toOption_error _ _ e h he
      cases hs : specJSONMembers fields with
      | none => rfl
      | some ts => rw [hs] at h2; simp at h2
    | ok es =>
      have h2 := toOption_ok _ _ es h he
      cases hs : specJSONMembers fields with
      | none => rw [hs] at h2; simp at h2
      | some ts =>
        rw [hs] at h2
        simp only [Option.map_some', Option.some.injEq] at h2
        simp [Except.toOption, h2]
  | .unsupported _ => rfl
theorem encodeElems_spec : ∀ vs : List GoValue,
    (json.encode.encodeElems false vs).toOption = (specJSONElements vs).map specCommaSeparated
  | [] => rfl
  | v :: vs => by
    have h1 := encode_spec v
    have h2 := encodeElems_spec vs
    simp only [json.encode.encodeElems, specJSONElements]
    cases hv : json.encode false v with
    | error e =>
      have h1 := toOption_error _ _ e h1 hv
      rw [h1]
      cases json.encode.encodeElems false vs <;> cases specJSONElements vs <;> rfl
    | ok t =>
      have h1 := toOption_ok _ _ t h1 hv
      rw [h1]
      cases hvs : json.encode.encodeElems false vs with
      | error e =>
        have h2 := toOption_error _ _ e h2 hvs
        cases hs : specJSONElements vs with
        | none => rfl
        | some ts => rw [hs] at h2; simp at h2
      | ok es =>
        have h2 := toOption_ok _ _ es h2 hvs
        cases hs : specJSONElements vs with
        | none => rw [hs] at h2; simp at h2
        | some ts =>
          rw [hs] at h2
          simp only [Option.map_some', Option.some.injEq] at h2
          have hemp : vs.isEmpty = ts.isEmpty := by
            cases vs with
            | nil => simp [specJSONElements] at hs; subst hs; rfl
            | cons a as =>
              cases ts with
              | nil =>
                simp only [specJSONElements] at hs
                split at hs <;> simp at hs
              | cons b bs => rfl
          simp [Except.toOption, specCommaSeparated_cons, h2, hemp]
theorem encodeFields_spec : ∀ fields : List (GoString × GoValue),
    (json.encode.encodeFields false fields).toOption
      = (specJSONMembers fields).map specCommaSeparated
  | [] => rfl
  | (name, v) :: fields => by
    have h1 := encode_spec v
    have h2 := encodeFields_spec fields
    simp only [json.encode.encodeFields, specJSONMembers]
    cases hv : json.encode false v with
    | error e =>
      have h1 := toOption_error _ _ e h1 hv
      rw [h1]
      cases json.encode.encodeFields false fields <;> cases specJSONMembers fields <;> rfl
    | ok t =>
      have h1 := toOption_ok _ _ t h1 hv
      rw [h1]
      cases hvs : json.encode.encodeFields false fields with
      | error e =>
        have h2 := toOption_error _ _ e h2 hvs
        cases hs : specJSONMembers fields with
        | none => rfl
        | some ts => rw [hs] at h2; simp at h2
      | ok es =>
        have h2 := toOption_ok _ _ es h2 hvs
        cases hs : specJSONMembers fields with
        | none => rw [hs] at h2; simp at h2
        | some ts =>
          rw [hs] at h2
          simp only [Option.map_some', Option.some.injEq] at h2
          have hemp : fields.isEmpty = ts.isEmpty := by
            cases fields with
            | nil => simp [specJSONMembers] at hs; subst hs; rfl
            | cons a as =>
              cases ts with
              | nil =>
                obtain ⟨an, av⟩ := a
                simp only [specJSONMembers] at hs
                split at hs <;> simp at hs
              | cons b bs => rfl
          simp [Except.toOption, specCommaSeparated_cons, h2, hemp, appendString_spec]
end

theorem inRange_ascii (lo hi c : Nat) (hc : c < 0x80) (hlo : 0x80 ≤ lo) :
    utf8.inRange lo hi c = false := by
  simp [utf8.inRange]; omega

/-- An ASCII byte after a text ends every encoding that began in the text. -/
theorem DecodeRuneInString_append_ascii (b0 : Nat) (x b : GoString) (c : Nat) (hc : c < 0x80) :
    utf8.DecodeRuneInString (b0 :: (x ++ c :: b)) = utf8.DecodeRuneInString (b0 :: x) := by
  have r1 : ∀ hi, utf8.inRange 0x80 hi c = false := fun hi => inRange_ascii _ _ _ hc (le_refl _)
  have r2 : ∀ hi, utf8.inRange (if b0 = 0xE0 then 0xA0 else 0x80) hi c = false := fun hi =>
    inRange_ascii _ _ _ hc (by split <;> omega)
  have r3 : ∀ hi, utf8.inRange (if b0 = 0xF0 then 0x90 else 0x80) hi c = false := fun hi =>
    inRange_ascii _ _ _ hc (by split <;> omega)
  rcases x with _ | ⟨b1, _ | ⟨b2, _ | ⟨b3, x⟩⟩⟩ <;>
    rcases b with _ | ⟨c1, _ | ⟨c2, _ | ⟨c3, b⟩⟩⟩ <;>
    simp [utf8.DecodeRuneInString, r1, r2, r3]

theorem runesLoop_fuel_eq (fuel1 : Nat) :
    ∀ (fuel2 : Nat) (s : GoString), s.length ≤ fuel1 → s.length ≤ fuel2 →
      utf8.runesLoop fuel1 s = utf8.runesLoop fuel2 s := by
  induction fuel1 with
  | zero =>
    intro fuel2 s h _
    have : s = [] := List.length_eq_zero.1 (Nat.le_zero.1 h)
    subst this
    cases fuel2 <;> rfl
  | succ fuel1 ih =>
    intro fuel2 s h1 h2
    cases s with
    | nil => cases fuel2 <;> rfl
    | cons b s =>
      cases fuel2 with
      | zero => simp at h2
      | succ fuel2 =>
        have hw := DecodeRuneInString_width b s
        have hl1 : s.length ≤ fuel1 := by simpa using h1
        have hl2 : s.length ≤ fuel2 := by simpa using h2
        have hd1 : (s.drop ((utf8.DecodeRuneInString (b :: s)).2 - 1)).length ≤ fuel1 := by
          simp only [List.length_drop]; omega
        have hd2 : (s.drop ((utf8.DecodeRuneInString (b :: s)).2 - 1)).length ≤ fuel2 := by
          simp only [List.length_drop]; omega
        simp only [utf8.runesLoop]
        rw [ih fuel2 _ hd1 hd2]

theorem runesLoop_fuel (fuel : Nat) (s : GoString) (h : s.length ≤ fuel) :
    utf8.runesLoop fuel s = utf8.runes s :=
  runesLoop_fuel_eq fuel s.length s h (le_refl _)

theorem runes_cons (b : Nat) (s : GoString) :
    utf8.runes (b :: s)
      = (if (utf8.DecodeRuneInString (b :: s)).1 = utf8.RuneError ∧
            (utf8.DecodeRuneInString (b :: s)).2 = 1 then none
         else some (utf8.DecodeRuneInString (b :: s)).1)
        :: utf8.runes (s.drop ((utf8.DecodeRuneInString (b :: s)).2 - 1)) := by
  have hw := DecodeRuneInString_width b s
  have h2 : (s.drop ((utf8.DecodeRuneInString (b :: s)).2 - 1)).length ≤ s.length := by
    simp only [List.length_drop]; omega
  conv_lhs => unfold utf8.runes
  simp only [List.length_cons, utf8.runesLoop]
  rw [runesLoop_fuel _ _ h2]

/-- An ASCII byte is an item of its own, whatever stands before and after it. -/
theorem runes_append_ascii (c : Nat) (hc : c < 0x80) (b : GoString) :
    ∀ (n : Nat) (x : GoString), x.length ≤ n →
      utf8.runes (x ++ c :: b) = utf8.runes x ++ some c :: utf8.runes b := by
  intro n
  induction n with
  | zero =>
    intro x hx
    have : x = [] := List.length_eq_zero.1 (Nat.le_zero.1 hx)
    subst this
    have hd : utf8.DecodeRuneInString (c :: b) = (c, 1) := by
      simp [utf8.DecodeRuneInString, hc]
    have hne : ¬ c = utf8.RuneError := by simp [utf8.RuneError]; omega
    rw [List.nil_append, runes_cons, hd]
    simp [hne, utf8.runes, utf8.runesLoop]
  | succ n ih =>
    intro x hx
    cases x with
    | nil => exact ih [] (Nat.zero_le _)
    | cons b0 x =>
      have hw := DecodeRuneInString_width b0 x
      have hlen : x.length ≤ n := by simpa using hx
      have hdrop : (x.drop ((utf8.DecodeRuneInString (b0 :: x)).2 - 1)).length ≤ n := by
        simp only [List.length_drop]; omega
      have hle : (utf8.DecodeRuneInString (b0 :: x)).2 - 1 ≤ x.length := by
        simp only [List.length_cons] at hw; omega
      rw [List.cons_append, runes_cons, runes_cons b0 x, DecodeRuneInString_append_ascii _ _ _ _ hc,
        List.drop_append_of_le_length hle, ih _ hdrop]
      rfl

/-- The characters "&", "<" and ">", as any ASCII character the
specification writes as it is, stand in the JSON string as they are. -/
theorem specJSONChars_literal (a b : GoString) (c : Nat) (hc : c = ch '&' ∨ c = ch '<' ∨ c = ch '>') :
    specJSONChars (a ++ c :: b) = specJSONChars a ++ c :: specJSONChars b := by
  have hlt : c < 0x80 := by rcases hc with h | h | h <;> subst h <;> decide
  have hs : specCharText (some c) = [c] := by rcases hc with h | h | h <;> subst h <;> rfl
  simp [specJSONChars, runes_append_ascii c hlt b a.length a (le_refl _), hs]

/-- The encoder succeeds exactly on the values that have a JSON text, and
writes that text. -/
theorem encode_eq_ok_iff (v : GoValue) (t : GoString) :
    json.encode false v = .ok t ↔ specJSONText v = some t := by
  have h := encode_spec v
  constructor
  · intro he
    exact toOption_ok _ _ t h he
  · intro hs
    cases he : json.encode false v with
    | error e =>
      have := toOption_error _ _ e h he
      rw [hs] at this
      simp at this
    | ok b =>
      have := toOption_ok _ _ b h he
      rw [hs] at this
      simp at this
      rw [this]

/-- A body that the encoder accepts does not make `NewRequest` fail. -/
theorem Client_NewRequest_body_built (c : Client) (method urlStr : GoString) (v : GoValue)
    (b : GoString) (req0 : http.Request) (hv : json.encode false v = .ok b)
    (h : c.NewRequest method urlStr none = .ok req0) :
    ∃ req, c.NewRequest method urlStr (some v) = .ok req := by
  obtain ⟨hs, u, buf, r, hu, hbuf, hr, _⟩ := Client_NewRequest_ok c method urlStr none req0 h
  simp only at hbuf
  subst hbuf
  have hm : http.validMethod (if method = [] then str "GET" else method) = true := by
    by_contra hm
    simp [http.NewRequest, hm] at hr
  obtain ⟨u2, hu2, _⟩ := http_NewRequest_ok method u.String none r hr
  unfold Client.NewRequest
  simp only [hs, Bool.not_true, Bool.false_eq_true, if_false, hu, json.Encoder.Encode, hv]
  rw [http_NewRequest_eq method _ _ _ hm hu2]
  exact ⟨_, rfl⟩

/-- C3: when `NewRequest` returns a request for a non-nil body, the body has
a JSON text and the payload of the request is exactly that text followed by
one newline, where the JSON text is the one of the specification (RFC 8259
without insignificant white space, HTML escaping off); a body that has a
JSON text never makes `NewRequest` fail: a request is returned for it
whenever one is returned for a nil body; and for a string body the characters
"&", "<" and ">" stand in the payload as they are, whatever the text before
and after them. -/
theorem NewRequest_body_json (c : Client) (method urlStr : GoString) :
    (∀ v req, c.NewRequest method urlStr (some v) = .ok req →
      ∃ t, specJSONText v = some t ∧ req.Body = some (t ++ [10])) ∧
    (∀ v t req0, specJSONText v = some t → c.NewRequest method urlStr none = .ok req0 →
      ∃ req, c.NewRequest method urlStr (some v) = .ok req) ∧
    (∀ a b x req, x = ch '&' ∨ x = ch '<' ∨ x = ch '>' →
      c.NewRequest method urlStr (some (.string (a ++ x :: b))) = .ok req →
      req.Body = some (ch '"' :: specJSONChars a ++ x :: specJSONChars b ++ [ch '"', 10])) := by
  have main : ∀ v req, c.NewRequest method urlStr (some v) = .ok req →
      ∃ t, specJSONText v = some t ∧ req.Body = some (t ++ [10]) := by
    intro v req h
    obtain ⟨_, u, buf, r, _, ⟨b, hb, hbuf⟩, hr, hreq⟩ := Client_NewRequest_ok c method urlStr _ req h
    obtain ⟨u2, _, hr2⟩ := http_NewRequest_ok method u.String buf r hr
    refine ⟨b, (encode_eq_ok_iff v b).1 hb, ?_⟩
    rw [hreq, hr2, hbuf]
    rfl
  refine ⟨main, ?_, ?_⟩
  · intro v t req0 ht h0
    exact Client_NewRequest_body_built c method urlStr v t req0 ((encode_eq_ok_iff v t).2 ht) h0
  · intro a b x req hx h
    obtain ⟨t, ht, hbody⟩ := main _ req h
    simp only [specJSONText, specJSONString, Option.some.injEq] at ht
    rw [hbody, ← ht, specJSONChars_literal a b x hx]
    simp

/-- Witness of C3: the string "Fish & <chips>" posted by the test client. -/
theorem NewRequest_body_json_witness :
    testClient.NewRequest (str "POST") (str "reply") (some (.string (str "Fish & <chips>")))
      = .ok ampersandRequest ∧
    (∃ t, specJSONText (.string (str "Fish & <chips>")) = some t ∧
        ampersandRequest.Body = some (t ++ [10])) ∧
    ampersandRequest.Body
      = some (ch '"' :: specJSONChars (str "Fish ") ++ ch '&' :: specJSONChars (str " <chips>")
          ++ [ch '"', 10]) ∧
    ampersandRequest.Body = some (str "\"Fish & <chips>\"\n") :=
  ⟨by decide,
   (NewRequest_body_json testClient (str "POST") (str "reply")).1
      (.string (str "Fish & <chips>")) ampersandRequest (by decide),
   (NewRequest_body_json testClient (str "POST") (str "reply")).2.2
      (str "Fish ") (str " <chips>") (ch '&') ampersandRequest (Or.inl rfl) (by decide),
   rfl⟩

/-! ## The token exchange request -/

/-- The header, the method and the payload of a request `NewRequest` returns
for a non-nil body. -/
theorem Client_NewRequest_some (c : Client) (method urlStr : GoString) (v : GoValue)
    (req : http.Request) (h : c.NewRequest method urlStr (some v) = .ok req) :
    req.Header = ⟨[(str "Content-Type", [str "application/json"])]⟩ ∧
    req.Method = (if method = [] then str "GET" else method) ∧
    ∃ b, json.encode false v = .ok b ∧ req.Body = some (b ++ [10]) := by
  obtain ⟨_, u, buf, r, _, ⟨b, hb, hbuf⟩, hr, hreq⟩ := Client_NewRequest_ok c method urlStr _ req h
  obtain ⟨u2, _, hr2⟩ := http_NewRequest_ok method u.String buf r hr
  have hset : ({} : http.Header).Set (str "Content-Type") (str "application/json")
      = ⟨[(str "Content-Type", [str "application/json"])]⟩ := by decide
  subst hr2
  subst hreq
  exact ⟨hset, rfl, b, hb, by rw [hbuf]; rfl⟩

/-- The JSON encoding of the struct `reqBody`. -/
theorem reqBody_encoding (code redirectURL : GoString) :
    json.encode false (AuthorizationsService.reqBody code redirectURL)
      = .ok (str "\x7b\"grant_type\":\"authorization_code\",\"code\":"
          ++ json.appendString code false ++ str ",\"redirect_uri\":"
          ++ json.appendString redirectURL false ++ str "\x7d") := by
  simp only [AuthorizationsService.reqBody, json.encode, json.encode.encodeFields,
    json.appendString, List.append_assoc, List.isEmpty_cons, List.isEmpty_nil]
  rfl

/-- A reference with a scheme is resolved without the base. -/
theorem ResolveReference_absolute (base ref : url.URL) (h : ref.Scheme ≠ []) :
    base.ResolveReference ref = ref.setPathIgnoringError (url.resolvePath ref.EscapedPath []) := by
  simp [url.URL.ResolveReference, h]

/-- The access-token URL outside test mode is absolute: every base URL
resolves it to itself. -/
theorem accessTokenURL_resolved (base : url.URL) :
    base.Parse (AuthorizationsService.accessTokenURL false) = .ok fakeAccessTokenURL := by
  have hp : url.Parse (AuthorizationsService.accessTokenURL false) = .ok fakeAccessTokenURL := by
    decide
  unfold url.URL.Parse
  rw [hp]
  simp only []
  rw [ResolveReference_absolute _ _ (by decide)]
  decide

/-- Outside test mode `RetrieveAccessToken` builds its request on every
client whose base path ends in "/". -/
theorem retrieveAccessTokenRequest_built (c : Client) (code redirectURL : GoString)
    (h : strings.HasSuffix c.BaseURL.Path (str "/") = true) :
    ∃ req, AuthorizationsService.retrieveAccessTokenRequest false c code redirectURL = .ok req := by
  have hu : url.Parse fakeAccessTokenURL.String = .ok fakeAccessTokenURL := by decide
  have hr := fun body => http_NewRequest_eq (str "POST") _ body _ (by decide) hu
  simp [AuthorizationsService.retrieveAccessTokenRequest, Client.NewRequest, h,
    accessTokenURL_resolved, json.Encoder.Encode, AuthorizationsService.reqBody, json.encode,
    json.encode.encodeFields, hr]

/-- The request of `RetrieveAccessToken` is the request of `NewRequest` with
the two headers added. -/
theorem retrieveAccessTokenRequest_ok (isTEST : Bool) (c : Client) (code redirectURL : GoString)
    (req : http.Request)
    (h : AuthorizationsService.retrieveAccessTokenRequest isTEST c code redirectURL = .ok req) :
    ∃ r, c.NewRequest (str "POST") (AuthorizationsService.accessTokenURL isTEST)
        (some (AuthorizationsService.reqBody code redirectURL)) = .ok r ∧
      req = { r with
        Header := (r.Header.Add (str "Content-Type")
                    (str "application/x-www-form-urlencoded")).Add (str "Authorization")
                    (str "Basic " ++ base64Encode (c.ClientID ++ str ":" ++ c.ClientSecret)) } := by
  unfold AuthorizationsService.retrieveAccessTokenRequest at h
  cases hr : c.NewRequest (str "POST") (AuthorizationsService.accessTokenURL isTEST)
      (some (AuthorizationsService.reqBody code redirectURL)) with
  | error e => simp [hr] at h
  | ok r =>
    refine ⟨r, rfl, ?_⟩
    simpa [hr] using h.symm

/-- A valid encoding is read from its own bytes alone: a text that begins
with the same bytes begins with the same code point. -/
theorem DecodeRuneInString_prefix (b : Nat) (s t : GoString)
    (hv : ¬ ((utf8.DecodeRuneInString (b :: s)).1 = utf8.RuneError ∧
             (utf8.DecodeRuneInString (b :: s)).2 = 1))
    (ht : t.take ((utf8.DecodeRuneInString (b :: s)).2 - 1)
            = s.take ((utf8.DecodeRuneInString (b :: s)).2 - 1)) :
    utf8.DecodeRuneInString (b :: t) = utf8.DecodeRuneInString (b :: s) := by
  simp only [utf8.DecodeRuneInString] at hv ht ⊢
  by_cases hb : b < 0x80
  · simp only [if_pos hb]
  · simp only [if_neg hb] at hv ht ⊢
    by_cases h2 : utf8.inRange 0xC2 0xDF b = true
    · simp only [if_pos h2] at hv ht ⊢
      rcases s with _ | ⟨b1, s⟩
      · simp at hv
      · by_cases h21 : utf8.inRange 0x80 0xBF b1 = true
        · simp only [h21, if_true] at ht ⊢
          rcases t with _ | ⟨c1, t⟩
          · simp at ht
          · simp at ht
            subst ht
            simp [h21]
        · simp [h21] at hv
    · simp only [if_neg h2] at hv ht ⊢
      by_cases h3 : utf8.inRange 0xE0 0xEF b = true
      · simp only [if_pos h3] at hv ht ⊢
        rcases s with _ | ⟨b1, _ | ⟨b2, s⟩⟩
        · simp at hv
        · simp at hv
        · by_cases h31 : (utf8.inRange (if b = 0xE0 then 0xA0 else 0x80)
              (if b = 0xED then 0x9F else 0xBF) b1 = true ∧ utf8.inRange 0x80 0xBF b2 = true)
          · simp only [h31, and_self, if_true] at ht ⊢
            rcases t with _ | ⟨c1, _ | ⟨c2, t⟩⟩
            · simp at ht
            · simp at ht
            · simp at ht
              obtain ⟨e1, e2⟩ := ht
              subst e1 e2
              simp [h31]
          · simp [h31] at hv
      · simp only [if_neg h3] at hv ht ⊢
        by_cases h4 : utf8.inRange 0xF0 0xF4 b = true
        · simp only [if_pos h4] at hv ht ⊢
          rcases s with _ | ⟨b1, _ | ⟨b2, _ | ⟨b3, s⟩⟩⟩
          · simp at hv
          · simp at hv
          · simp at hv
          · by_cases h41 : (utf8.inRange (if b = 0xF0 then 0x90 else 0x80)
                (if b = 0xF4 then 0x8F else 0xBF) b1 = true ∧ utf8.inRange 0x80 0xBF b2 = true ∧
                utf8.inRange 0x80 0xBF b3 = true)
            · simp only [h41, and_self, if_true] at ht ⊢
              rcases t with _ | ⟨c1, _ | ⟨c2, _ | ⟨c3, t⟩⟩⟩
              · simp at ht
              · simp at ht
              · simp at ht
              · simp at ht
                obtain ⟨e1, e2, e3⟩ := ht
                subst e1 e2 e3
                simp [h41]
            · simp [h41] at hv
        · simp [if_neg h4] at hv

theorem specJSONChars_nil : specJSONChars [] = [] := rfl

theorem specJSONChars_cons (b : Nat) (s : GoString) :
    specJSONChars (b :: s)
      = specCharText (if (utf8.DecodeRuneInString (b :: s)).1 = utf8.RuneError ∧
            (utf8.DecodeRuneInString (b :: s)).2 = 1 then none
          else some (utf8.DecodeRuneInString (b :: s)).1)
        ++ specJSONChars (s.drop ((utf8.DecodeRuneInString (b :: s)).2 - 1)) := by
  simp [specJSONChars, runes_cons]

theorem ValidString_cons (b : Nat) (s : GoString) (h : utf8.ValidString (b :: s) = true) :
    ¬ ((utf8.DecodeRuneInString (b :: s)).1 = utf8.RuneError ∧
       (utf8.DecodeRuneInString (b :: s)).2 = 1) ∧
    utf8.ValidString (s.drop ((utf8.DecodeRuneInString (b :: s)).2 - 1)) = true := by
  unfold utf8.ValidString at h ⊢
  rw [runes_cons] at h
  simp only [List.all_cons, Bool.and_eq_true] at h
  refine ⟨?_, h.2⟩
  intro hc
  rw [if_pos hc] at h
  simp at h

/-- The scanner copies a character that stands for itself. -/
theorem scanString_literal (f c : Nat) (y : GoString) (h1 : ¬ c < 0x20) (h2 : c < 0x80)
    (h3 : ¬ c = ch '"') (h4 : ¬ c = 92) :
    json.scanString (f + 1) (c :: y) = (json.scanString f y).map (fun r => (c :: r.1, r.2)) := by
  simp only [json.scanString, if_neg h3, if_neg h4, if_neg h1, if_pos h2]

/-- The scanner reads a two-character escape. -/
theorem scanString_escape (f e b : Nat) (y : GoString) (he : ¬ e = ch 'u')
    (hs : json.simpleEscape e = some b) :
    json.scanString (f + 1) (92 :: e :: y) = (json.scanString f y).map (fun r => (b :: r.1, r.2)) := by
  have h3 : ¬ (92 : Nat) = ch '"' := by decide
  simp only [json.scanString, if_neg h3, if_true, if_neg he, hs]

/-- The scanner reads an escape of four hexadecimal digits outside the
surrogate range. -/
theorem scanString_hex (f a b c d rr : Nat) (y : GoString)
    (hh : json.hex4 [a, b, c, d] = some rr) (hr : ¬ (0xD800 ≤ rr ∧ rr < 0xE000)) :
    json.scanString (f + 1) (92 :: ch 'u' :: a :: b :: c :: d :: y)
      = (json.scanString f y).map (fun r => (utf8EncodeRune rr ++ r.1, r.2)) := by
  have h3 : ¬ (92 : Nat) = ch '"' := by decide
  have hh2 : json.hex4 (a :: b :: c :: d :: y) = some rr := by
    simpa [json.hex4] using hh
  simp only [json.scanString, if_neg h3, if_true, hh2, if_neg hr, List.drop_succ_cons,
    List.drop_zero]

/-- The scanner copies a valid encoding of more than one byte. -/
theorem scanString_rune (f b : Nat) (t : GoString) (hb : ¬ b < 0x80) :
    json.scanString (f + 1) (b :: t)
      = (json.scanString f (t.drop ((utf8.DecodeRuneInString (b :: t)).2 - 1))).map
          (fun r => (utf8EncodeRune (utf8.DecodeRuneInString (b :: t)).1 ++ r.1, r.2)) := by
  have h3 : ¬ b = ch '"' := by intro e; rw [e] at hb; exact hb (by decide)
  have h4 : ¬ b = 92 := by omega
  have h1 : ¬ b < 0x20 := by omega
  simp only [json.scanString, if_neg h3, if_neg h4, if_neg h1, if_neg hb, DecodeRuneInString_take]

theorem hex4_control (b : Nat) (hb : b < 0x20) :
    json.hex4 [ch '0', ch '0', specHexDigit (b / 16), specHexDigit (b % 16)] = some b := by
  interval_cases b <;> decide

/-- Round trip: the scanner reads the characters of the JSON string of a
valid UTF-8 text back as the text. -/
theorem scanString_specJSONChars (rest : GoString) :
    ∀ (n : Nat) (s : GoString), s.length ≤ n → utf8.ValidString s = true →
      ∀ fuel, (specJSONChars s).length < fuel →
        json.scanString fuel (specJSONChars s ++ ch '"' :: rest) = some (s, rest) := by
  intro n
  induction n with
  | zero =>
    intro s hs _ fuel hf
    have : s = [] := List.length_eq_zero.1 (Nat.le_zero.1 hs)
    subst this
    obtain ⟨f, rfl⟩ : ∃ f, fuel = f + 1 := ⟨fuel - 1, by omega⟩
    simp [specJSONChars_nil, json.scanString]
  | succ n ih =>
    intro s hs hvalid fuel hf
    cases s with
    | nil => exact ih [] (Nat.zero_le _) hvalid fuel hf
    | cons b s =>
      obtain ⟨hv, hvalid2⟩ := ValidString_cons b s hvalid
      have hw := DecodeRuneInString_width b s
      have hlen : (s.drop ((utf8.DecodeRuneInString (b :: s)).2 - 1)).length ≤ n := by
        simp only [List.length_drop]; simp only [List.length_cons] at hs; omega
      rw [specJSONChars_cons, if_neg hv] at hf ⊢
      rw [List.append_assoc]
      simp only [List.length_append] at hf
      obtain ⟨f, rfl⟩ : ∃ f, fuel = f + 1 := ⟨fuel - 1, by omega⟩
      by_cases hb : b < 0x80
      · have hd : utf8.DecodeRuneInString (b :: s) = (b, 1) := by
          simp [utf8.DecodeRuneInString, hb]
        rw [hd] at hf ⊢
        simp only [Nat.sub_self, List.drop_zero] at hf ⊢
        rw [hd] at hlen
        simp only [Nat.sub_self, List.drop_zero] at hlen
        rw [hd] at hvalid2
        simp only [Nat.sub_self, List.drop_zero] at hvalid2
        have key : ∀ e x, specCharText (some b) = [92, e] → ¬ e = ch 'u' →
            json.simpleEscape e = some x → x = b →
            json.scanString (f + 1) (specCharText (some b) ++ (specJSONChars s ++ ch '"' :: rest))
              = some (b :: s, rest) := by
          intro e x hspec he hse hx
          rw [hspec] at hf ⊢
          simp only [List.length_cons, List.length_nil] at hf
          rw [List.cons_append, List.cons_append, List.nil_append, scanString_escape f e x _ he hse,
            ih s hlen hvalid2 f (by omega), hx]
          rfl
        by_cases c1 : b = ch '"'
        · exact key (ch '"') b (by subst c1; rfl) (by decide) (by subst c1; rfl) rfl
        by_cases c2 : b = 92
        · exact key 92 b (by subst c2; rfl) (by decide) (by subst c2; rfl) rfl
        by_cases c3 : b = 8
        · exact key (ch 'b') b (by subst c3; rfl) (by decide) (by subst c3; rfl) rfl
        by_cases c4 : b = 12
        · exact key (ch 'f') b (by subst c4; rfl) (by decide) (by subst c4; rfl) rfl
        by_cases c5 : b = 10
        · exact key (ch 'n') b (by subst c5; rfl) (by decide) (by subst c5; rfl) rfl
        by_cases c6 : b = 13
        · exact key (ch 'r') b (by subst c6; rfl) (by decide) (by subst c6; rfl) rfl
        by_cases c7 : b = 9
        · exact key (ch 't') b (by subst c7; rfl) (by decide) (by subst c7; rfl) rfl
        by_cases c8 : b < 0x20
        · have hspec : specCharText (some b)
              = 92 :: ch 'u' :: ch '0' :: ch '0' :: specHexDigit (b / 16)
                  :: specHexDigit (b % 16) :: [] := by
            simp only [specCharText, if_neg c1, if_neg c2, if_neg c3, if_neg c4, if_neg c5,
              if_neg c6, if_neg c7, if_pos c8]
            rfl
          rw [hspec] at hf ⊢
          simp only [List.length_cons, List.length_nil] at hf
          simp only [List.cons_append, List.nil_append]
          rw [scanString_hex f _ _ _ _ b _ (hex4_control b c8) (by omega),
            ih s hlen hvalid2 f (by omega)]
          simp [utf8EncodeRune, hb]
        · have c9 : ¬ b = 0x2028 := by omega
          have c10 : ¬ b = 0x2029 := by omega
          have hspec : specCharText (some b) = [b] := by
            simp only [specCharText, if_neg c1, if_neg c2, if_neg c3, if_neg c4, if_neg c5,
              if_neg c6, if_neg c7, if_neg c8, if_neg c9, if_neg c10, utf8EncodeRune, if_pos hb]
          rw [hspec] at hf ⊢
          simp only [List.length_cons, List.length_nil] at hf
          rw [List.cons_append, List.nil_append, scanString_literal f b _ c8 hb c1 c2,
            ih s hlen hvalid2 f (by omega)]
          rfl
      · obtain ⟨henc, hge⟩ := utf8EncodeRune_DecodeRuneInString b s hb hv
        have hsplit : b :: s = utf8EncodeRune (utf8.DecodeRuneInString (b :: s)).1
            ++ s.drop ((utf8.DecodeRuneInString (b :: s)).2 - 1) := by
          rw [henc]
          have hpos : (utf8.DecodeRuneInString (b :: s)).2
              = ((utf8.DecodeRuneInString (b :: s)).2 - 1) + 1 := by omega
          conv_rhs => rw [hpos, List.take_succ_cons]
          simp
        by_cases hls : (utf8.DecodeRuneInString (b :: s)).1 = 0x2028 ∨
            (utf8.DecodeRuneInString (b :: s)).1 = 0x2029
        · have hspec : specCharText (some (utf8.DecodeRuneInString (b :: s)).1)
              = 92 :: ch 'u' :: ch '2' :: ch '0' :: ch '2'
                  :: (if (utf8.DecodeRuneInString (b :: s)).1 = 0x2028 then ch '8' else ch '9')
                  :: [] := by
            rcases hls with e | e <;> rw [e] <;> rfl
          have hhex : json.hex4 [ch '2', ch '0', ch '2',
              (if (utf8.DecodeRuneInString (b :: s)).1 = 0x2028 then ch '8' else ch '9')]
              = some (utf8.DecodeRuneInString (b :: s)).1 := by
            rcases hls with e | e <;> rw [e] <;> decide
          rw [hspec] at hf ⊢
          simp only [List.length_cons, List.length_nil] at hf
          simp only [List.cons_append, List.nil_append]
          rw [scanString_hex f _ _ _ _ _ _ hhex (by rcases hls with e | e <;> rw [e] <;> decide),
            ih _ hlen hvalid2 f (by omega)]
          simp only [Option.map_some']
          rw [← hsplit]
        · have hspec : specCharText (some (utf8.DecodeRuneInString (b :: s)).1)
              = utf8EncodeRune (utf8.DecodeRuneInString (b :: s)).1 := by
            push_neg at hls
            have h1 : ¬ (utf8.DecodeRuneInString (b :: s)).1 = ch '"' := by
              intro e; rw [e] at hge; exact absurd hge (by decide)
            have h2 : ¬ (utf8.DecodeRuneInString (b :: s)).1 = 92 := by omega
            have h4 : ¬ (utf8.DecodeRuneInString (b :: s)).1 = 8 := by omega
            have h5 : ¬ (utf8.DecodeRuneInString (b :: s)).1 = 12 := by omega
            have h6 : ¬ (utf8.DecodeRuneInString (b :: s)).1 = 10 := by omega
            have h7 : ¬ (utf8.DecodeRuneInString (b :: s)).1 = 13 := by omega
            have h8 : ¬ (utf8.DecodeRuneInString (b :: s)).1 = 9 := by omega
            have h9 : ¬ (utf8.DecodeRuneInString (b :: s)).1 < 0x20 := by omega
            simp only [specCharText, if_neg h1, if_neg h2, if_neg h4, if_neg h5, if_neg h6,
              if_neg h7, if_neg h8, if_neg h9, if_neg hls.1, if_neg hls.2]
          rw [hspec, henc] at hf ⊢
          have hpos : (utf8.DecodeRuneInString (b :: s)).2
              = ((utf8.DecodeRuneInString (b :: s)).2 - 1) + 1 := by omega
          have htake : (b :: s).take (utf8.DecodeRuneInString (b :: s)).2
              = b :: s.take ((utf8.DecodeRuneInString (b :: s)).2 - 1) := by
            conv_lhs => rw [hpos, List.take_succ_cons]
          have hle : (utf8.DecodeRuneInString (b :: s)).2 - 1 ≤ s.length := by
            simp only [List.length_cons] at hw; omega
          rw [htake] at hf ⊢
          simp only [List.length_cons, List.length_take, Nat.min_eq_left hle] at hf
          have hdec : utf8.DecodeRuneInString (b :: (s.take ((utf8.DecodeRuneInString (b :: s)).2 - 1)
              ++ (specJSONChars (s.drop ((utf8.DecodeRuneInString (b :: s)).2 - 1))
                    ++ ch '"' :: rest)))
              = utf8.DecodeRuneInString (b :: s) := by
            apply DecodeRuneInString_prefix b s _ hv
            rw [List.take_append_of_le_length (by simp [List.length_take, Nat.min_eq_left hle])]
            simp
          rw [List.cons_append, scanString_rune f b _ hb, hdec,
            List.drop_append_of_le_length (by simp [List.length_take, Nat.min_eq_left hle])]
          have hd0 : (s.take ((utf8.DecodeRuneInString (b :: s)).2 - 1)).drop
              ((utf8.DecodeRuneInString (b :: s)).2 - 1) = [] := by
            apply List.drop_eq_nil_of_le
            simp [List.length_take]
          rw [hd0, List.nil_append, ih _ hlen hvalid2 f (by omega)]
          simp only [Option.map_some']
          rw [← hsplit]

theorem skipSpace_cons (c : Nat) (t : GoString) (h : json.isSpace c = false) :
    json.skipSpace (c :: t) = c :: t := by
  simp [json.skipSpace, List.dropWhile, h]

/-- Round trip: the scanner reads the JSON string of a valid UTF-8 text,
after its opening quotation mark, back as the text. -/
theorem scanString_specJSONString (s rest : GoString) (hs : utf8.ValidString s = true) :
    json.scanString ((specJSONChars s ++ ch '"' :: rest).length + 1)
      (specJSONChars s ++ ch '"' :: rest) = some (s, rest) :=
  scanString_specJSONChars rest s.length s (le_refl _) hs _ (by simp; omega)

/-- The decoder reads the JSON string of a valid UTF-8 text as that text. -/
theorem parseValue_specJSONString (f d : Nat) (s rest : GoString)
    (hs : utf8.ValidString s = true) :
    json.parseValue (f + 1) d (specJSONString s ++ rest) = some (.string s, rest) := by
  have h1 : ¬ ch '"' = ch '{' := by decide
  have h2 : ¬ ch '"' = ch '[' := by decide
  simp only [specJSONString, List.cons_append, List.nil_append, List.append_assoc,
    json.parseValue, skipSpace_cons (ch '"') _ (by decide), if_neg h1, if_neg h2, if_true,
    scanString_specJSONString s rest hs, Option.map_some']

/-- The decoder reads a member with a string value that another member follows. -/
theorem parseMembers_string_more (f d : Nat) (k v rest : GoString)
    (hk : utf8.ValidString k = true) (hv : utf8.ValidString v = true) :
    json.parseMembers (f + 2) d
        (specJSONString k ++ ch ':' :: (specJSONString v ++ ch ',' :: rest))
      = (json.parseMembers (f + 1) d rest).map (fun m => ((k, .string v) :: m.1, m.2)) := by
  have h1 : ¬ ch '"' ≠ ch '"' := by decide
  have h2 : ¬ ch ':' ≠ ch ':' := by decide
  conv_lhs =>
    rw [specJSONString]
    simp only [List.cons_append, List.nil_append, List.append_assoc]
  rw [json.parseMembers]
  simp only [skipSpace_cons (ch '"') _ (by decide), if_neg h1,
    scanString_specJSONString k _ hk, skipSpace_cons (ch ':') _ (by decide), if_neg h2,
    parseValue_specJSONString f d v _ hv, skipSpace_cons (ch ',') _ (by decide), if_true]

/-- The decoder reads the last member of an object, with a string value. -/
theorem parseMembers_string_last (f d : Nat) (k v rest : GoString)
    (hk : utf8.ValidString k = true) (hv : utf8.ValidString v = true) :
    json.parseMembers (f + 2) d
        (specJSONString k ++ ch ':' :: (specJSONString v ++ ch '}' :: rest))
      = some ([(k, .string v)], rest) := by
  have h1 : ¬ ch '"' ≠ ch '"' := by decide
  have h2 : ¬ ch ':' ≠ ch ':' := by decide
  have h3 : ¬ ch '}' = ch ',' := by decide
  conv_lhs =>
    rw [specJSONString]
    simp only [List.cons_append, List.nil_append, List.append_assoc]
  rw [json.parseMembers]
  simp only [skipSpace_cons (ch '"') _ (by decide), if_neg h1,
    scanString_specJSONString k _ hk, skipSpace_cons (ch ':') _ (by decide), if_neg h2,
    parseValue_specJSONString f d v _ hv, skipSpace_cons (ch '}') _ (by decide), if_neg h3,
    if_true]

/-- The decoder enters an object whose first member begins with a string. -/
theorem parseValue_object (f d : Nat) (k rest : GoString)
    (hd : ¬ d + 1 > json.maxNestingDepth) :
    json.parseValue (f + 1) d (ch '{' :: (specJSONString k ++ rest))
      = (json.parseMembers f (d + 1) (specJSONString k ++ rest)).map
          (fun r => (.object r.1, r.2)) := by
  have h1 : ¬ ch '"' = ch '}' := by decide
  rw [json.parseValue]
  simp only [specJSONString, List.cons_append, List.nil_append, List.append_assoc,
    skipSpace_cons (ch '{') _ (by decide), if_true, if_neg hd,
    skipSpace_cons (ch '"') _ (by decide), if_neg h1]

/-- Round trip: the decoder reads the JSON text of an object of three string
members, white space after it, back as these members, in their order. -/
theorem parse_three_members (k1 v1 k2 v2 k3 v3 rest : GoString)
    (hk1 : utf8.ValidString k1 = true) (hv1 : utf8.ValidString v1 = true)
    (hk2 : utf8.ValidString k2 = true) (hv2 : utf8.ValidString v2 = true)
    (hk3 : utf8.ValidString k3 = true) (hv3 : utf8.ValidString v3 = true)
    (hrest : json.skipSpace rest = []) :
    json.parse (ch '{' :: (specJSONString k1 ++ ch ':' :: (specJSONString v1 ++ ch ',' ::
        (specJSONString k2 ++ ch ':' :: (specJSONString v2 ++ ch ',' ::
        (specJSONString k3 ++ ch ':' :: (specJSONString v3 ++ ch '}' :: rest)))))))
      = some (.object [(k1, .string v1), (k2, .string v2), (k3, .string v3)]) := by
  unfold json.parse
  generalize hlen : (ch '{' :: (specJSONString k1 ++ ch ':' :: (specJSONString v1 ++ ch ',' ::
        (specJSONString k2 ++ ch ':' :: (specJSONString v2 ++ ch ',' ::
        (specJSONString k3 ++ ch ':' :: (specJSONString v3 ++ ch '}' :: rest))))))).length = n
  have hn : 4 ≤ n := by
    rw [← hlen]
    simp [specJSONString]
    omega
  obtain ⟨f, rfl⟩ : ∃ f, n = f + 4 := ⟨n - 4, by omega⟩
  rw [parseValue_object (f + 4) 0 k1 _ (by decide),
    parseMembers_string_more (f + 2) 1 k1 v1 _ hk1 hv1,
    parseMembers_string_more (f + 1) 1 k2 v2 _ hk2 hv2,
    parseMembers_string_last f 1 k3 v3 _ hk3 hv3]
  simp [hrest]

/-- Round trip: the decoder reads the text of the token exchange, followed by
a newline, back as its three members when the code and the redirect URL are
valid UTF-8. -/
theorem parse_specTokenRequestText (code redirectURL : GoString)
    (hcode : utf8.ValidString code = true) (hurl : utf8.ValidString redirectURL = true) :
    json.parse (specTokenRequestText code redirectURL ++ [10])
      = some (.object (tokenRequestMembers code redirectURL)) := by
  have h := parse_three_members (str "grant_type") (str "authorization_code") (str "code") code
    (str "redirect_uri") redirectURL [10] (by decide) (by decide) (by decide) hcode (by decide)
    hurl (by decide)
  have e1 : specJSONString (str "grant_type") = str "\"grant_type\"" := by decide
  have e2 : specJSONString (str "authorization_code") = str "\"authorization_code\"" := by decide
  have e3 : specJSONString (str "code") = str "\"code\"" := by decide
  have e4 : specJSONString (str "redirect_uri") = str "\"redirect_uri\"" := by decide
  rw [e1, e2, e3, e4] at h
  unfold tokenRequestMembers
  rw [← h]
  simp only [specTokenRequestText, List.append_assoc]
  rfl

/-- A text of safe-set bytes is its own JSON string between quotation marks. -/
theorem specJSONString_safe (s : GoString) (h : ∀ b ∈ s, json.safeSet b = true) :
    specJSONString s = ch '"' :: s ++ [ch '"'] := by
  rw [← appendString_spec, appendString_safe s h]
  rfl

/-- C9, counterexample: for a code of the single byte 0xFF, which is not
valid UTF-8, the body of the request holds the escape of U+FFFD between the
quotation marks of `code`, and a decoder reads the member `code` as the three
bytes of U+FFFD, not as the code that was given. -/
theorem retrieveAccessTokenRequest_invalid_code_counterexample :
    AuthorizationsService.retrieveAccessTokenRequest true testClient [255] (str "blah/ohai")
      = .ok invalidCodeRequest ∧
    json.parse (invalidCodeRequest.Body.getD [])
      = some (.object (tokenRequestMembers [0xEF, 0xBF, 0xBD] (str "blah/ohai"))) ∧
    ([0xEF, 0xBF, 0xBD] : GoString) ≠ [255] :=
  ⟨by decide!, by rfl, by decide⟩

/-- C9, amended: the request `RetrieveAccessToken` builds is a POST whose
body is exactly the JSON object of the specification, with the keys
`grant_type`, `code` and `redirect_uri` in that order, followed by one
newline; when the code and the redirect URL are valid UTF-8, a decoder reads
this body back as the three members with `grant_type` equal to
"authorization_code", `code` equal to the code argument and `redirect_uri`
equal to the redirect URL argument; when the two are of safe-set bytes
(printable ASCII other than the quotation mark and the reverse solidus) they
stand in the body between quotation marks as they are. Outside test mode the
request is built for every client whose base path ends in "/". -/
theorem retrieveAccessTokenRequest_body (isTEST : Bool) (c : Client)
    (code redirectURL : GoString) (hcode : utf8.ValidString code = true)
    (hurl : utf8.ValidString redirectURL = true) :
    (∀ req, AuthorizationsService.retrieveAccessTokenRequest isTEST c code redirectURL = .ok req →
      req.Method = str "POST" ∧
      req.Body = some (specTokenRequestText code redirectURL ++ [10]) ∧
      json.parse (req.Body.getD []) = some (.object (tokenRequestMembers code redirectURL)) ∧
      ((∀ b ∈ code, json.safeSet b = true) → (∀ b ∈ redirectURL, json.safeSet b = true) →
        req.Body = some (str "\x7b\"grant_type\":\"authorization_code\",\"code\":\""
          ++ code ++ str "\",\"redirect_uri\":\"" ++ redirectURL ++ str "\"\x7d" ++ [10]))) ∧
    (isTEST = false → strings.HasSuffix c.BaseURL.Path (str "/") = true →
      ∃ req, AuthorizationsService.retrieveAccessTokenRequest isTEST c code redirectURL
        = .ok req) := by
  constructor
  · intro req h
    obtain ⟨r, hr, hreq⟩ := retrieveAccessTokenRequest_ok isTEST c code redirectURL req h
    obtain ⟨_, hm, b, hb, hbody⟩ := Client_NewRequest_some c _ _ _ r hr
    rw [reqBody_encoding, appendString_spec, appendString_spec] at hb
    have hb := (Except.ok.inj hb).symm
    have hbody2 : req.Body = some (specTokenRequestText code redirectURL ++ [10]) := by
      rw [hreq]
      simp only [hbody, hb, specTokenRequestText]
    refine ⟨by rw [hreq]; exact hm, hbody2, ?_, ?_⟩
    · rw [hbody2]
      exact parse_specTokenRequestText code redirectURL hcode hurl
    · intro hc hu
      rw [hbody2, specTokenRequestText, specJSONString_safe code hc,
        specJSONString_safe redirectURL hu]
      simp only [List.append_assoc, List.cons_append]
      rfl
  · intro ht hs
    subst ht
    exact retrieveAccessTokenRequest_built c code redirectURL hs

/-- Witness of C9 (amended): the test client in test mode with the code and
the redirect URL of the tests. -/
theorem retrieveAccessTokenRequest_body_witness :
    utf8.ValidString (str "612576sadxas") = true ∧ utf8.ValidString (str "blah/ohai") = true ∧
    AuthorizationsService.retrieveAccessTokenRequest true testClient (str "612576sadxas")
      (str "blah/ohai") = .ok tokenRequest ∧
    tokenRequest.Method = str "POST" ∧
    tokenRequest.Body = some (specTokenRequestText (str "612576sadxas") (str "blah/ohai") ++ [10]) ∧
    json.parse (tokenRequest.Body.getD [])
      = some (.object (tokenRequestMembers (str "612576sadxas") (str "blah/ohai"))) :=
  ⟨by decide, by decide, by decide,
   ((retrieveAccessTokenRequest_body true testClient (str "612576sadxas") (str "blah/ohai")
      (by decide) (by decide)).1 tokenRequest (by decide)).1,
   ((retrieveAccessTokenRequest_body true testClient (str "612576sadxas") (str "blah/ohai")
      (by decide) (by decide)).1 tokenRequest (by decide)).2.1,
   ((retrieveAccessTokenRequest_body true testClient (str "612576sadxas") (str "blah/ohai")
      (by decide) (by decide)).1 tokenRequest (by decide)).2.2.1⟩

/-- `Do` with a non-nil context hands exactly the request to the underlying
HTTP client. -/
theorem Do_sent (c : Client) (now : Int) (ctx : Context) (req : http.Request) :
    (c.Do now (some ctx) req).sent = [req] := by
  cases h1 : c.client req with
  | error e => cases h2 : ctx.Err <;> simp [Client.Do, h1, h2]
  | ok resp => cases h3 : CheckResponse now resp <;> simp [Client.Do, h1, h3]

/-- C10: the request `RetrieveAccessToken` dispatches carries an
`Authorization` header equal to "Basic " followed by the base64 encoding of
`ClientID`, a colon and `ClientSecret`; for `ClientID` and `ClientSecret`
both "xxxxxxx" the header is "Basic eHh4eHh4eDp4eHh4eHh4"; and with a non-nil
`CTX` this request is the one handed to the underlying HTTP client. -/
theorem retrieveAccessTokenRequest_authorization (isTEST : Bool)
    (unmarshal : Unmarshal (Option Authorization)) (c : Client) (now : Int)
    (code redirectURL : GoString) (req : http.Request)
    (h : AuthorizationsService.retrieveAccessTokenRequest isTEST c code redirectURL = .ok req) :
    req.Header.Get (str "Authorization")
      = str "Basic " ++ base64Encode (c.ClientID ++ str ":" ++ c.ClientSecret) ∧
    (c.ClientID = str "xxxxxxx" → c.ClientSecret = str "xxxxxxx" →
      req.Header.Get (str "Authorization") = str "Basic eHh4eHh4eDp4eHh4eHh4") ∧
    (∀ ctx, c.CTX = some ctx →
      (AuthorizationsService.RetrieveAccessToken isTEST unmarshal c now code redirectURL).sent
        = [req]) := by
  obtain ⟨r, hr, hreq⟩ := retrieveAccessTokenRequest_ok isTEST c code redirectURL req h
  obtain ⟨hh, _, _⟩ := Client_NewRequest_some c _ _ _ r hr
  have hk1 : http.CanonicalMIMEHeaderKey (str "Content-Type") = str "Content-Type" := by decide
  have hk2 : http.CanonicalMIMEHeaderKey (str "Authorization") = str "Authorization" := by decide
  have hne : (str "Authorization" == str "Content-Type") = false := by decide
  have hget : req.Header.Get (str "Authorization")
      = str "Basic " ++ base64Encode (c.ClientID ++ str ":" ++ c.ClientSecret) := by
    rw [hreq]
    simp [hh, http.Header.Add, http.Header.Get, hk1, hk2, List.lookup, hne]
  refine ⟨hget, ?_, ?_⟩
  · intro hid hsec
    rw [hget, hid, hsec]
    decide
  · intro ctx hctx
    unfold AuthorizationsService.RetrieveAccessToken
    simp only [h, hctx]
    have hs := Do_sent c now ctx req
    cases hd : (c.Do now (some ctx) req).err with
    | none =>
      cases hu : (unmarshal ((c.Do now (some ctx) req).bytes.getD []) (some {})).2 <;>
        simpa [hd, hu] using hs
    | some e => simpa [hd] using hs

/-- Witness of C10: the test client in test mode, whose `ClientID` and
`ClientSecret` are both "xxxxxxx". -/
theorem retrieveAccessTokenRequest_authorization_witness :
    AuthorizationsService.retrieveAccessTokenRequest true testClient (str "612576sadxas")
      (str "blah/ohai") = .ok tokenRequest ∧
    testClient.ClientID = str "xxxxxxx" ∧ testClient.ClientSecret = str "xxxxxxx" ∧
    testClient.CTX = some {} ∧
    tokenRequest.Header.Get (str "Authorization") = str "Basic eHh4eHh4eDp4eHh4eHh4" ∧
    (AuthorizationsService.RetrieveAccessToken true keepDestination testClient 0
      (str "612576sadxas") (str "blah/ohai")).sent = [tokenRequest] :=
  ⟨by decide, rfl, rfl, rfl,
   (retrieveAccessTokenRequest_authorization true keepDestination testClient 0
      (str "612576sadxas") (str "blah/ohai") tokenRequest (by decide)).2.1 rfl rfl,
   (retrieveAccessTokenRequest_authorization true keepDestination testClient 0
      (str "612576sadxas") (str "blah/ohai") tokenRequest (by decide)).2.2 {} rfl⟩

/-! ## Resolution of plain relative paths -/

/-- Cutting at a byte that does not occur leaves the text whole. -/
theorem Cut_absent (s : GoString) (c : Nat) (h : c ∉ s) : strings.Cut s c = (s, [], false) := by
  induction s with
  | nil => rfl
  | cons b s ih =>
    have hb : b ≠ c := fun e => h (e ▸ List.mem_cons_self _ _)
    have hs : c ∉ s := fun m => h (List.mem_cons_of_mem _ m)
    simp [strings.Cut, hb, ih hs]

/-- Cutting at the first occurrence of a byte. -/
theorem Cut_first (a b : GoString) (c : Nat) (h : c ∉ a) :
    strings.Cut (a ++ c :: b) c = (a, b, true) := by
  induction a with
  | nil => simp [strings.Cut]
  | cons x a ih =>
    have hx : x ≠ c := fun e => h (e ▸ List.mem_cons_self _ _)
    have ha : c ∉ a := fun m => h (List.mem_cons_of_mem _ m)
    simp [strings.Cut, hx, ih ha]

/-- The text is its two parts around the separator `Cut` found, and the
separator does not occur in the first part. -/
theorem Cut_spec (s : GoString) (c : Nat) :
    c ∉ (strings.Cut s c).1 ∧
    s = (strings.Cut s c).1 ++ (if (strings.Cut s c).2.2 then c :: (strings.Cut s c).2.1 else []) ∧
    ((strings.Cut s c).2.2 = false → (strings.Cut s c).2.1 = []) := by
  induction s with
  | nil => simp [strings.Cut]
  | cons b s ih =>
    by_cases hb : b = c
    · simp [strings.Cut, hb]
    · obtain ⟨h1, h2, h3⟩ := ih
      refine ⟨?_, ?_, ?_⟩
      · simp only [strings.Cut, hb, if_false]
        intro hm
        rcases List.mem_cons.1 hm with e | m
        · exact hb e.symm
        · exact h1 m
      · simp only [strings.Cut, hb, if_false]
        rw [List.cons_append, ← h2]
      · simpa [strings.Cut, hb] using h3

/-- The first index of a byte that occurs after a text without it. -/
theorem IndexByte_first (a b : GoString) (c : Nat) (h : c ∉ a) :
    strings.IndexByte (a ++ c :: b) c = some a.length := by
  induction a with
  | nil => simp [strings.IndexByte]
  | cons x a ih =>
    have hx : x ≠ c := fun e => h (e ▸ List.mem_cons_self _ _)
    have ha : c ∉ a := fun m => h (List.mem_cons_of_mem _ m)
    simp [strings.IndexByte, hx, ih ha]

/-- A byte that does not occur has no last index. -/
theorem LastIndexByte_absent (s : GoString) (c : Nat) (h : c ∉ s) :
    strings.LastIndexByte s c = none := by
  induction s with
  | nil => rfl
  | cons b s ih =>
    have hb : b ≠ c := fun e => h (e ▸ List.mem_cons_self _ _)
    have hs : c ∉ s := fun m => h (List.mem_cons_of_mem _ m)
    simp [strings.LastIndexByte, hb, ih hs]

/-- The last index of a byte followed by a text without it. -/
theorem LastIndexByte_last (a b : GoString) (c : Nat) (h : c ∉ b) :
    strings.LastIndexByte (a ++ c :: b) c = some a.length := by
  induction a with
  | nil => simp [strings.LastIndexByte, LastIndexByte_absent b c h]
  | cons x a ih => simp [strings.LastIndexByte, ih]

/-- A text that ends with a byte is a text followed by that byte. -/
theorem HasSuffix_byte (s : GoString) (c : Nat) (h : strings.HasSuffix s [c] = true) :
    ∃ q, s = q ++ [c] := by
  have := List.isSuffixOf_iff_suffix.1 h
  obtain ⟨q, hq⟩ := this
  exact ⟨q, hq.symm⟩

/-- A text that begins with a byte is that byte followed by a text. -/
theorem HasPrefix_byte (s : GoString) (c : Nat) (h : strings.HasPrefix s [c] = true) :
    ∃ q, s = c :: q := by
  have := List.isPrefixOf_iff_prefix.1 h
  obtain ⟨q, hq⟩ := this
  exact ⟨q, hq.symm⟩

/-- A text without a byte does not end with it. -/
theorem HasSuffix_absent (s : GoString) (c : Nat) (h : c ∉ s) :
    strings.HasSuffix s [c] = false := by
  cases hs : strings.HasSuffix s [c] with
  | false => rfl
  | true =>
    obtain ⟨q, hq⟩ := HasSuffix_byte s c hs
    exact absurd (hq ▸ List.mem_append_right q (List.mem_singleton_self c)) h

/-- The plain path bytes, listed. -/
theorem plainPathByte_iff (c : Nat) :
    plainPathByte c = true ↔
      ((97 ≤ c ∧ c ≤ 122) ∨ (65 ≤ c ∧ c ≤ 90) ∨ (48 ≤ c ∧ c ≤ 57) ∨
       c ∈ [45, 95, 46, 126, 36, 38, 43, 44, 47, 59, 61, 64]) := by
  simp only [plainPathByte, url.shouldEscape, ch, Char.reduceToNat]
  by_cases h1 : (97 ≤ c ∧ c ≤ 122) ∨ (65 ≤ c ∧ c ≤ 90) ∨ (48 ≤ c ∧ c ≤ 57)
  · simp [h1]; omega
  · simp [h1]; omega

/-- The host-name bytes, listed. -/
theorem hostNameByte_iff (c : Nat) :
    hostNameByte c = true ↔
      ((97 ≤ c ∧ c ≤ 122) ∨ (65 ≤ c ∧ c ≤ 90) ∨ (48 ≤ c ∧ c ≤ 57) ∨
       c ∈ [33, 36, 38, 39, 40, 41, 42, 43, 44, 59, 61, 60, 62, 34, 45, 95, 46, 126]) := by
  simp only [hostNameByte, url.shouldEscape, ch, Char.reduceToNat]
  by_cases h1 : (97 ≤ c ∧ c ≤ 122) ∨ (65 ≤ c ∧ c ≤ 90) ∨ (48 ≤ c ∧ c ≤ 57)
  · simp [h1]; omega
  · simp [h1]; omega

/-- A plain path byte is not escaped in a path. -/
theorem plainPathByte_shouldEscape (c : Nat) (h : plainPathByte c = true) :
    url.shouldEscape c .encodePath = false := by
  simp only [plainPathByte, Bool.and_eq_true, Bool.not_eq_true'] at h
  exact h.1

/-- A host-name byte is not escaped in a host. -/
theorem hostNameByte_shouldEscape (c : Nat) (h : hostNameByte c = true) :
    url.shouldEscape c .encodeHost = false := by
  simp only [hostNameByte, Bool.and_eq_true, Bool.not_eq_true'] at h
  exact h.1.1.1

/-- A digit or a colon is not escaped in a host. -/
theorem port_shouldEscape (c : Nat) (h : (48 ≤ c ∧ c ≤ 57) ∨ c = 58) :
    url.shouldEscape c .encodeHost = false := by
  simp only [url.shouldEscape, ch, Char.reduceToNat]
  by_cases h1 : (97 ≤ c ∧ c ≤ 122) ∨ (65 ≤ c ∧ c ≤ 90) ∨ (48 ≤ c ∧ c ≤ 57)
  · simp [h1]
  · simp [h1]; omega

/-- Escaping leaves a text of unescaped bytes as it is. -/
theorem escape_id (s : GoString) (mode : url.encoding)
    (h : ∀ c ∈ s, url.shouldEscape c mode = false) : url.escape s mode = s := by
  induction s with
  | nil => rfl
  | cons c s ih =>
    have hc := h c (List.mem_cons_self _ _)
    have hs := ih (fun x hx => h x (List.mem_cons_of_mem _ hx))
    simp only [url.escape] at hs ⊢
    simp [List.flatMap_cons, hc, hs]

/-- Unescaping a path without a percent sign leaves it as it is. -/
theorem unescape_path_id (s : GoString) (h : ch '%' ∉ s) :
    url.unescape s .encodePath = .ok s := by
  induction s with
  | nil => rfl
  | cons c s ih =>
    have hc : c ≠ ch '%' := fun e => h (e ▸ List.mem_cons_self _ _)
    have hs := ih (fun m => h (List.mem_cons_of_mem _ m))
    unfold url.unescape
    rw [if_neg hc]
    by_cases hp : c = ch '+'
    · simp [hp, hs]
    · simp [hp, hs]

/-- Unescaping a host of bytes that need no escape leaves it as it is. -/
theorem unescape_host_id (s : GoString)
    (h : ∀ c ∈ s, url.shouldEscape c .encodeHost = false) :
    url.unescape s .encodeHost = .ok s := by
  induction s with
  | nil => rfl
  | cons c s ih =>
    have hc := h c (List.mem_cons_self _ _)
    have hs := ih (fun x hx => h x (List.mem_cons_of_mem _ hx))
    have hpc : c ≠ ch '%' := by
      intro e
      subst e
      revert hc
      decide
    unfold url.unescape
    rw [if_neg hpc]
    by_cases hp : c = ch '+'
    · simp [hp, hs]
    · simp [hp, hs, hc]

/-- Without a colon in the text there is no scheme. -/
theorem getSchemeLoop_no_colon (raw s : GoString) (i : Nat) (h : ch ':' ∉ s) :
    url.getSchemeLoop raw s i = .ok ([], raw) := by
  induction s generalizing i with
  | nil => rfl
  | cons c s ih =>
    have hc : c ≠ ch ':' := fun e => h (e ▸ List.mem_cons_self _ _)
    have hs := fun j => ih j (fun m => h (List.mem_cons_of_mem _ m))
    unfold url.getSchemeLoop
    by_cases hl : (ch 'a' ≤ c ∧ c ≤ ch 'z') ∨ (ch 'A' ≤ c ∧ c ≤ ch 'Z')
    · rw [if_pos hl]; exact hs _
    · rw [if_neg hl]
      by_cases hd : (ch '0' ≤ c ∧ c ≤ ch '9') ∨ c = ch '+' ∨ c = ch '-' ∨ c = ch '.'
      · rw [if_pos hd]
        by_cases hi : i = 0
        · rw [if_pos hi]
        · rw [if_neg hi]; exact hs _
      · rw [if_neg hd, if_neg hc]

/-- The scheme loop reads scheme bytes up to the colon. -/
theorem getSchemeLoop_scheme (raw s rest : GoString) (i : Nat)
    (hb : ∀ b ∈ s, schemeByte b)
    (h0 : i = 0 → ∃ c t, s = c :: t ∧ ch 'a' ≤ c ∧ c ≤ ch 'z') :
    url.getSchemeLoop raw (s ++ ch ':' :: rest) i = .ok (raw.take (i + s.length), rest) := by
  induction s generalizing i with
  | nil =>
    have hi : i ≠ 0 := by
      intro e
      obtain ⟨c, t, ht, _⟩ := h0 e
      exact absurd ht (by simp)
    simp only [List.nil_append, List.length_nil, Nat.add_zero]
    unfold url.getSchemeLoop
    rw [if_neg (by decide), if_neg (by decide), if_pos rfl, if_neg hi]
  | cons c s ih =>
    have hc := hb c (List.mem_cons_self _ _)
    have hs := ih (i + 1) (fun x hx => hb x (List.mem_cons_of_mem _ hx)) (by omega)
    have hlen : i + 1 + s.length = i + (c :: s).length := by simp; omega
    rw [hlen] at hs
    simp only [List.cons_append]
    unfold url.getSchemeLoop
    by_cases hl : (ch 'a' ≤ c ∧ c ≤ ch 'z') ∨ (ch 'A' ≤ c ∧ c ≤ ch 'Z')
    · rw [if_pos hl]; exact hs
    · rw [if_neg hl]
      have hd : (ch '0' ≤ c ∧ c ≤ ch '9') ∨ c = ch '+' ∨ c = ch '-' ∨ c = ch '.' := by
        rcases hc with h | h
        · exact absurd (Or.inl h) hl
        · exact h
      rw [if_pos hd]
      have hi : i ≠ 0 := by
        intro e
        obtain ⟨c', t, ht, hlo⟩ := h0 e
        have : c = c' := by simpa using (List.cons.inj ht).1
        subst this
        exact hl (Or.inl hlo)
      rw [if_neg hi]
      exact hs

/-- Lower-casing leaves a lower-case scheme as it is. -/
theorem ToLower_scheme (s : GoString) (h : ∀ b ∈ s, schemeByte b) : strings.ToLower s = s := by
  induction s with
  | nil => rfl
  | cons c s ih =>
    have hc := h c (List.mem_cons_self _ _)
    have hs := ih (fun x hx => h x (List.mem_cons_of_mem _ hx))
    simp only [strings.ToLower] at hs ⊢
    simp only [List.map_cons, hs]
    have : ¬ (ch 'A' ≤ c ∧ c ≤ ch 'Z') := by
      simp only [schemeByte, ch, Char.reduceToNat] at hc ⊢
      omega
    rw [if_neg this]

/-- A lower-case scheme is a lower-case letter followed by scheme bytes. -/
theorem isLowerScheme_spec (s : GoString) (h : isLowerScheme s = true) :
    (∃ c t, s = c :: t ∧ ch 'a' ≤ c ∧ c ≤ ch 'z') ∧ ∀ b ∈ s, schemeByte b := by
  cases s with
  | nil => simp [isLowerScheme] at h
  | cons c t =>
    simp only [isLowerScheme, Bool.and_eq_true, decide_eq_true_eq, List.all_eq_true] at h
    refine ⟨⟨c, t, rfl, h.1.1, h.1.2⟩, ?_⟩
    intro b hb
    rcases List.mem_cons.1 hb with e | m
    · subst e; exact Or.inl h.1
    · exact h.2 b m

/-- Splitting never yields the empty list. -/
theorem splitByte_ne_nil (s : GoString) (sep : Nat) : url.splitByte s sep ≠ [] := by
  induction s with
  | nil => simp [url.splitByte]
  | cons b s ih =>
    unfold url.splitByte
    split
    · simp
    · split <;> simp

/-- The elements of a text joined by the separator give the text back. -/
theorem joinElems_splitByte (s : GoString) (sep : Nat) :
    joinElems sep (url.splitByte s sep) = s := by
  induction s with
  | nil => rfl
  | cons b s ih =>
    unfold url.splitByte
    by_cases hb : b = sep
    · rw [if_pos hb]
      cases hs : url.splitByte s sep with
      | nil => exact absurd hs (splitByte_ne_nil s sep)
      | cons e es =>
        rw [hs] at ih
        simp only [joinElems, List.nil_append, List.flatMap_cons] at ih ⊢
        rw [List.cons_append, ih, hb]
    · rw [if_neg hb]
      cases hs : url.splitByte s sep with
      | nil => exact absurd hs (splitByte_ne_nil s sep)
      | cons e es =>
        rw [hs] at ih
        simp only [joinElems] at ih ⊢
        rw [List.cons_append, ih]

/-- Splitting a text that begins with the separator. -/
theorem splitByte_cons_sep (s : GoString) (sep : Nat) :
    url.splitByte (sep :: s) sep = [] :: url.splitByte s sep := by
  rw [url.splitByte, if_pos rfl]

/-- Splitting a text that begins with another byte. -/
theorem splitByte_cons_ne (b : Nat) (s : GoString) (sep : Nat) (e : GoString)
    (es : List GoString) (hb : b ≠ sep) (hs : url.splitByte s sep = e :: es) :
    url.splitByte (b :: s) sep = (b :: e) :: es := by
  rw [url.splitByte, if_neg hb, hs]

/-- Splitting a text around a separator splits its two sides. -/
theorem splitByte_append (a b : GoString) (sep : Nat) :
    url.splitByte (a ++ sep :: b) sep = url.splitByte a sep ++ url.splitByte b sep := by
  induction a with
  | nil =>
    rw [List.nil_append, splitByte_cons_sep]
    rfl
  | cons x a ih =>
    simp only [List.cons_append]
    by_cases hx : x = sep
    · subst hx
      rw [splitByte_cons_sep, splitByte_cons_sep, ih, List.cons_append]
    · cases hs : url.splitByte a sep with
      | nil => exact absurd hs (splitByte_ne_nil a sep)
      | cons e es =>
        rw [splitByte_cons_ne x a sep e es hx hs,
          splitByte_cons_ne x (a ++ sep :: b) sep e (es ++ url.splitByte b sep) hx
            (by rw [ih, hs, List.cons_append]), List.cons_append]

/-- One turn of the loop of `resolvePath` on an element that is no dot. -/
theorem resolveStep_plain (dst : GoString) (first : Bool) (e : GoString)
    (h : notDot e = true) :
    url.resolveStep (dst, first) e = ((if first then dst else dst ++ [ch '/']) ++ e, false) := by
  simp only [notDot, Bool.and_eq_true, bne_iff_ne, ne_eq] at h
  unfold url.resolveStep
  rw [if_neg h.1, if_neg h.2]
  cases first <;> simp

/-- The loop of `resolvePath` over elements none of which is a dot, past the first. -/
theorem resolve_fold_rest (l : List GoString) (dst : GoString)
    (h : ∀ e ∈ l, notDot e = true) :
    l.foldl url.resolveStep (dst, false) = (dst ++ l.flatMap (fun x => ch '/' :: x), false) := by
  induction l generalizing dst with
  | nil => simp
  | cons e es ih =>
    rw [List.foldl_cons, resolveStep_plain _ _ _ (h e (List.mem_cons_self _ _))]
    simp only [Bool.false_eq_true, if_false]
    rw [ih _ (fun x hx => h x (List.mem_cons_of_mem _ hx))]
    simp

/-- The loop of `resolvePath` over the elements of a text without dot
elements rebuilds the text after the leading slash. -/
theorem resolve_fold (s : GoString) (h : ∀ e ∈ url.splitByte s (ch '/'), notDot e = true) :
    (url.splitByte s (ch '/')).foldl url.resolveStep ([ch '/'], true) = (ch '/' :: s, false) := by
  have hj := joinElems_splitByte s (ch '/')
  cases hs : url.splitByte s (ch '/') with
  | nil => exact absurd hs (splitByte_ne_nil s _)
  | cons e es =>
    rw [hs] at h hj
    rw [List.foldl_cons, resolveStep_plain _ _ _ (h e (List.mem_cons_self _ _))]
    simp only [if_true]
    rw [resolve_fold_rest _ _ (fun x hx => h x (List.mem_cons_of_mem _ hx))]
    simp only [joinElems] at hj
    rw [List.append_assoc, hj]
    rfl

/-- Resolving a plain relative path against a plain base path appends it. -/
theorem resolvePath_plain (bp q r ref : GoString) (hbq : bp = q ++ [ch '/'])
    (hbr : bp = ch '/' :: r)
    (hq : ∀ e ∈ url.splitByte bp (ch '/'), notDot e = true)
    (hr : ∀ e ∈ url.splitByte ref (ch '/'), notDot e = true)
    (hne : ref ≠ []) (hhead : ref.head? ≠ some (ch '/')) :
    url.resolvePath bp ref = bp ++ ref := by
  have hlast : strings.LastIndexByte bp (ch '/') = some q.length := by
    rw [hbq]
    exact LastIndexByte_last q [] (ch '/') (by simp)
  have hfull : ∀ e ∈ url.splitByte (bp ++ ref) (ch '/'), notDot e = true := by
    have h1 : bp ++ ref = q ++ ch '/' :: ref := by rw [hbq]; simp
    have h2 : bp = q ++ ch '/' :: [] := hbq
    rw [h2, splitByte_append] at hq
    rw [h1, splitByte_append]
    intro e he
    rcases List.mem_append.1 he with m | m
    · exact hq e (List.mem_append_left _ m)
    · exact hr e m
  unfold url.resolvePath
  simp only [hne, if_false, hhead, ne_eq, not_false_eq_true, if_true, hlast]
  have htake : List.take (q.length + 1) bp = bp := by
    apply List.take_of_length_le
    rw [hbq]
    simp
  rw [htake]
  have hne2 : bp ++ ref ≠ [] := by rw [hbr]; simp
  rw [if_neg hne2]
  rw [resolve_fold _ hfull]
  have hl : ∀ x, (url.splitByte (bp ++ ref) (ch '/')).getLast? = some x →
      x ≠ str "." ∧ x ≠ str ".." := by
    intro x hx
    have hm : x ∈ url.splitByte (bp ++ ref) (ch '/') := List.mem_of_getLast?_eq_some hx
    have := hfull x hm
    simpa [notDot] using this
  have hnd : ¬ ((url.splitByte (bp ++ ref) (ch '/')).getLast? = some (str ".")
      ∨ (url.splitByte (bp ++ ref) (ch '/')).getLast? = some (str "..")) := by
    rintro (h | h)
    · exact (hl _ h).1 rfl
    · exact (hl _ h).2 rfl
  rw [if_neg hnd, hbr]
  simp

/-- What a plain path byte is not: a control byte, "#", "%", "*", ":" or "?". -/
theorem plainPathByte_not (c : Nat) (h : plainPathByte c = true) :
    ¬ c < 32 ∧ c ≠ 127 ∧ c ≠ 35 ∧ c ≠ 37 ∧ c ≠ 42 ∧ c ≠ 58 ∧ c ≠ 63 := by
  have := (plainPathByte_iff c).1 h
  simp only [List.mem_cons, List.mem_singleton, List.not_mem_nil, or_false] at this
  omega

/-- What a byte of a host with a port is not: a control byte, "#", "%",
"/", "?", "@", "[" or "]". -/
theorem hostByte_not (c : Nat) (h : hostNameByte c = true ∨ (48 ≤ c ∧ c ≤ 57) ∨ c = 58) :
    ¬ c < 32 ∧ c ≠ 127 ∧ c ≠ 35 ∧ c ≠ 37 ∧ c ≠ 47 ∧ c ≠ 63 ∧ c ≠ 64 ∧ c ≠ 91 ∧ c ≠ 93 := by
  rcases h with h | h
  · have := (hostNameByte_iff c).1 h
    simp only [List.mem_cons, List.mem_singleton, List.not_mem_nil, or_false] at this
    omega
  · omega

/-- What a scheme byte is not: a control byte, "#", "/" or "?". -/
theorem schemeByte_not (c : Nat) (h : schemeByte c) :
    ¬ c < 32 ∧ c ≠ 127 ∧ c ≠ 35 ∧ c ≠ 47 ∧ c ≠ 63 := by
  simp only [schemeByte, ch, Char.reduceToNat] at h
  omega

/-- The bytes and the elements of a plain path. -/
theorem isPlainPath_spec (p : GoString) (h : isPlainPath p = true) :
    (∀ c ∈ p, plainPathByte c = true) ∧ ∀ e ∈ url.splitByte p (ch '/'), notDot e = true := by
  simpa [isPlainPath, List.all_eq_true] using h

/-- The parts of a host with an optional port. -/
theorem isHostPort_spec (h : GoString) (hh : isHostPort h = true) :
    ∃ name port, (h = name ∨ (h = name ++ ch ':' :: port ∧ port ≠ [])) ∧
      (∀ c ∈ name, hostNameByte c = true) ∧ (∀ c ∈ port, 48 ≤ c ∧ c ≤ 57) := by
  obtain ⟨h1, h2, h3⟩ := Cut_spec h (ch ':')
  simp only [isHostPort, Bool.and_eq_true, List.all_eq_true, Bool.or_eq_true,
    Bool.not_eq_true', decide_eq_true_eq, ch, Char.reduceToNat] at hh
  simp only [ch, Char.reduceToNat] at h1 h2 h3
  rcases hh.2 with hf | ⟨hne, hd⟩
  · refine ⟨(strings.Cut h 58).1, [], Or.inl ?_, hh.1, by simp⟩
    rw [hf] at h2
    simpa using h2
  · cases hf : (strings.Cut h 58).2.2 with
    | false =>
      exact absurd (h3 hf) (by simpa using hne)
    | true =>
      refine ⟨(strings.Cut h 58).1, (strings.Cut h 58).2.1, Or.inr ⟨?_, by simpa using hne⟩,
        hh.1, hd⟩
      rw [hf] at h2
      simpa using h2

/-- The bytes of a host with an optional port. -/
theorem isHostPort_bytes (h : GoString) (hh : isHostPort h = true) :
    ∀ c ∈ h, hostNameByte c = true ∨ (48 ≤ c ∧ c ≤ 57) ∨ c = 58 := by
  obtain ⟨name, port, hsplit, hn, hp⟩ := isHostPort_spec h hh
  intro c hc
  rcases hsplit with e | ⟨e, _⟩
  · subst e; exact Or.inl (hn c hc)
  · subst e
    rcases List.mem_append.1 hc with m | m
    · exact Or.inl (hn c m)
    · rcases List.mem_cons.1 m with e | m
      · exact Or.inr (Or.inr e)
      · exact Or.inr (Or.inl (hp c m))

/-- A text without control bytes. -/
theorem stringContainsCTLByte_false (s : GoString) (h : ∀ c ∈ s, ¬ c < 32 ∧ c ≠ 127) :
    url.stringContainsCTLByte s = false := by
  simp only [url.stringContainsCTLByte, List.any_eq_false, ch, Char.reduceToNat,
    decide_eq_true_eq]
  intro c hc
  have := h c hc
  omega

/-- A text that does not begin with a slash does not begin with two. -/
theorem HasPrefix_two (s : GoString) (a b : Nat) (h : strings.HasPrefix s [a] = false) :
    strings.HasPrefix s [a, b] = false := by
  cases s with
  | nil => rfl
  | cons x s =>
    simp only [strings.HasPrefix, List.isPrefixOf] at h ⊢
    simp only [Bool.and_eq_false_imp, beq_iff_eq] at h ⊢
    intro e
    simp [e] at h

/-- Parsing a plain relative path gives a URL with that path alone. -/
theorem Parse_plain_relative (s : GoString) (h : isPlainRelative s = true) :
    url.Parse s = .ok { Path := s } := by
  simp only [isPlainRelative, Bool.and_eq_true, decide_eq_true_eq, Bool.not_eq_true',
    ne_eq] at h
  obtain ⟨⟨hne, hpre⟩, hplain⟩ := h
  obtain ⟨hb, _⟩ := isPlainPath_spec s hplain
  have hn := fun c hc => plainPathByte_not c (hb c hc)
  have h35 : (35 : Nat) ∉ s := fun m => (hn 35 m).2.2.1 rfl
  have h37 : (37 : Nat) ∉ s := fun m => (hn 37 m).2.2.2.1 rfl
  have h42 : (42 : Nat) ∉ s := fun m => (hn 42 m).2.2.2.2.1 rfl
  have h58 : (58 : Nat) ∉ s := fun m => (hn 58 m).2.2.2.2.2.1 rfl
  have h63 : (63 : Nat) ∉ s := fun m => (hn 63 m).2.2.2.2.2.2 rfl
  have hctl := stringContainsCTLByte_false s (fun c hc => ⟨(hn c hc).1, (hn c hc).2.1⟩)
  have hstar : s ≠ str "*" := by
    intro e
    exact h42 (e ▸ (by decide : (42 : Nat) ∈ str "*"))
  have hpre1 : strings.HasPrefix s [47] = false := hpre
  have hpre2 : strings.HasPrefix s (str "//") = false := HasPrefix_two s 47 47 hpre1
  have hpre3 : strings.HasPrefix s (str "/") = false := hpre
  have hsuf : strings.HasSuffix s (str "?") = false := HasSuffix_absent s 63 h63
  have hcut : strings.Cut s (ch '?') = (s, [], false) := Cut_absent s 63 h63
  have hcuth : strings.Cut s (ch '#') = (s, [], false) := Cut_absent s 35 h35
  have hseg : strings.ContainsByte (strings.Cut s (ch '/')).1 (ch ':') = false := by
    obtain ⟨_, h2, _⟩ := Cut_spec s (ch '/')
    simp only [strings.ContainsByte, List.contains_eq_any_beq, List.any_eq_false, beq_iff_eq]
    intro c hc e
    apply h58
    rw [h2]
    have e2 : c = 58 := e.symm
    exact List.mem_append_left _ (e2 ▸ hc)
  have hsch : url.getScheme s = .ok ([], s) := getSchemeLoop_no_colon s s 0 h58
  have hun : url.unescape s .encodePath = .ok s := unescape_path_id s h37
  have hesc : url.escape s .encodePath = s :=
    escape_id s _ (fun c hc => plainPathByte_shouldEscape c (hb c hc))
  have hparse : url.parse s = .ok { Path := s } := by
    unfold url.parse
    simp [hctl, hstar, hsch, hsuf, hcut, hpre2, hpre3, hseg, url.URL.setPath, hun, hesc,
      strings.ToLower]
  unfold url.Parse
  simp [hcuth, hparse]

/-- The parts of a plain base URL. -/
theorem isPlainBase_spec (u : url.URL) (h : isPlainBase u = true) :
    isLowerScheme u.Scheme = true ∧ isHostPort u.Host = true ∧ u.User = none ∧
    u.RawPath = [] ∧ isPlainPath u.Path = true ∧
    (∃ q, u.Path = q ++ [ch '/']) ∧ ∃ r, u.Path = ch '/' :: r := by
  simp only [isPlainBase, Bool.and_eq_true, decide_eq_true_eq, Option.isNone_iff_eq_none] at h
  obtain ⟨⟨⟨⟨⟨⟨h1, h2⟩, h3⟩, h4⟩, h5⟩, h6⟩, h7⟩ := h
  exact ⟨h1, h2, h3, h4, h7, HasSuffix_byte u.Path 47 h6, HasPrefix_byte u.Path 47 h5⟩

/-- The escaped path of a URL whose plain path is stored unescaped. -/
theorem EscapedPath_plain (u : url.URL) (hraw : u.RawPath = [])
    (hb : ∀ c ∈ u.Path, plainPathByte c = true) : u.EscapedPath = u.Path := by
  have hstar : u.Path ≠ str "*" := by
    intro e
    have : (42 : Nat) ∈ u.Path := e ▸ (by decide : (42 : Nat) ∈ str "*")
    exact (plainPathByte_not 42 (hb 42 this)).2.2.2.2.1 rfl
  unfold url.URL.EscapedPath
  simp [hraw, hstar, escape_id u.Path _ (fun c hc => plainPathByte_shouldEscape c (hb c hc))]

/-- Setting a plain path stores it unescaped. -/
theorem setPath_plain (u : url.URL) (p : GoString) (hb : ∀ c ∈ p, plainPathByte c = true) :
    u.setPath p = .ok { u with Path := p, RawPath := [] } := by
  have h37 : (37 : Nat) ∉ p := fun m => (plainPathByte_not 37 (hb 37 m)).2.2.2.1 rfl
  unfold url.URL.setPath
  simp [unescape_path_id p h37,
    escape_id p _ (fun c hc => plainPathByte_shouldEscape c (hb c hc))]

/-- Resolving a plain relative path against a plain base: the scheme and the
host of the base, the path of the base followed by the relative path. -/
theorem Parse_resolve_plain (base : url.URL) (s : GoString) (hbase : isPlainBase base = true)
    (hs : isPlainRelative s = true) :
    base.Parse s = .ok { Scheme := base.Scheme, Host := base.Host, Path := base.Path ++ s } := by
  obtain ⟨_, _, huser, hraw, hpath, ⟨q, hq⟩, ⟨r, hr⟩⟩ := isPlainBase_spec base hbase
  obtain ⟨hbb, hbe⟩ := isPlainPath_spec base.Path hpath
  have hrel := Parse_plain_relative s hs
  simp only [isPlainRelative, Bool.and_eq_true, decide_eq_true_eq, Bool.not_eq_true',
    ne_eq] at hs
  obtain ⟨⟨hne, hpre⟩, hplain⟩ := hs
  obtain ⟨hsb, hse⟩ := isPlainPath_spec s hplain
  have hhead : s.head? ≠ some (ch '/') := by
    cases s with
    | nil => simp
    | cons x t =>
      intro e
      have : x = 47 := by simpa using e
      subst this
      simp [strings.HasPrefix, str, utf8EncodeRune] at hpre
  have hesc1 : (⟨[], [], none, [], s, [], false, false, [], [], []⟩ : url.URL).EscapedPath = s :=
    EscapedPath_plain _ rfl hsb
  have hesc2 : base.EscapedPath = base.Path := EscapedPath_plain base hraw hbb
  have hres := resolvePath_plain base.Path q r s hq hr hbe hse hne hhead
  have hall : ∀ c ∈ base.Path ++ s, plainPathByte c = true := by
    intro c hc
    rcases List.mem_append.1 hc with m | m
    · exact hbb c m
    · exact hsb c m
  unfold url.URL.Parse
  rw [hrel]
  simp only [url.URL.ResolveReference, url.URL.setPathIgnoringError]
  simp [hne, hesc1, hesc2, hres, setPath_plain _ _ hall, huser]

/-- The text of a URL with a scheme, a host and a plain path. -/
theorem String_plain (sch h p r : GoString) (hsch : sch ≠ []) (hp : p = ch '/' :: r)
    (hh : ∀ c ∈ h, url.shouldEscape c .encodeHost = false)
    (hb : ∀ c ∈ p, plainPathByte c = true) :
    (⟨sch, [], none, h, p, [], false, false, [], [], []⟩ : url.URL).String
      = sch ++ ch ':' :: ch '/' :: ch '/' :: (h ++ p) := by
  have hesc : (⟨sch, [], none, h, p, [], false, false, [], [], []⟩ : url.URL).EscapedPath = p :=
    EscapedPath_plain _ rfl hb
  have hpne : p ≠ [] := by rw [hp]; simp
  have heh : url.escape h .encodeHost = h := escape_id h _ hh
  unfold url.URL.String
  simp only [hesc]
  subst hp
  by_cases hne : h = []
  · subst hne
    simp [hsch, str, utf8EncodeRune, strings.ContainsByte, ch]
  · simp [hsch, hne, heh, str, utf8EncodeRune, strings.ContainsByte, ch]

/-- The host after `parseHost` and `removeEmptyPort`: a host name with an
optional port is kept as it is. -/
theorem parseHost_plain (h : GoString) (hh : isHostPort h = true) :
    url.parseHost h = .ok h ∧ http.removeEmptyPort h = h := by
  have hbytes := isHostPort_bytes h hh
  have hn := fun c hc => hostByte_not c (hbytes c hc)
  have hesc : ∀ c ∈ h, url.shouldEscape c .encodeHost = false := by
    intro c hc
    rcases hbytes c hc with e | e
    · exact hostNameByte_shouldEscape c e
    · exact port_shouldEscape c e
  have hun := unescape_host_id h hesc
  have h91 : (91 : Nat) ∉ h := fun m => (hn 91 m).2.2.2.2.2.2.2.1 rfl
  have h93 : (93 : Nat) ∉ h := fun m => (hn 93 m).2.2.2.2.2.2.2.2 rfl
  have hpre : strings.HasPrefix h (str "[") = false := by
    cases hp : strings.HasPrefix h (str "[") with
    | false => rfl
    | true =>
      obtain ⟨q, hq⟩ := HasPrefix_byte h 91 hp
      exact absurd (hq ▸ List.mem_cons_self 91 q) h91
  have hbr : strings.LastIndexByte h (ch ']') = none := LastIndexByte_absent h 93 h93
  obtain ⟨name, port, hsplit, hname, hport⟩ := isHostPort_spec h hh
  have hcn : (58 : Nat) ∉ name := by
    intro m
    have := (hostNameByte_iff 58).1 (hname 58 m)
    simp at this
  have hcp : (58 : Nat) ∉ port := fun m => by have := hport 58 m; omega
  rcases hsplit with e | ⟨e, hpne⟩
  · have hc : strings.LastIndexByte h (ch ':') = none := by
      rw [e]; exact LastIndexByte_absent name 58 hcn
    constructor
    · unfold url.parseHost
      simp [hpre, hc, hun]
    · simp [http.removeEmptyPort, http.hasPort, hc, hbr, goIndex]
  · have hc : strings.LastIndexByte h (ch ':') = some name.length := by
      rw [e]; exact LastIndexByte_last name port 58 hcp
    have hdrop : h.drop name.length = ch ':' :: port := by
      rw [e]; simp
    have hvalid : url.validOptionalPort (ch ':' :: port) = true := by
      simp only [url.validOptionalPort, decide_True, Bool.true_and, List.all_eq_true,
        decide_eq_true_eq, ch, Char.reduceToNat]
      exact hport
    have hsuf : strings.HasSuffix h (str ":") = false := by
      cases hs : strings.HasSuffix h (str ":") with
      | false => rfl
      | true =>
        obtain ⟨q, hq⟩ := HasSuffix_byte h 58 hs
        have hl : h.getLast? = some 58 := by rw [hq]; simp
        have hl2 : h.getLast? = port.getLast? := by
          rw [e]
          have : name ++ ch ':' :: port = (name ++ [ch ':']) ++ port := by simp
          rw [this, List.getLast?_append_of_ne_nil _ hpne]
        rw [hl2] at hl
        exact absurd (List.mem_of_getLast?_eq_some hl) hcp
    constructor
    · unfold url.parseHost
      simp [hpre, hc, hdrop, hvalid, hun]
    · simp [http.removeEmptyPort, http.hasPort, hc, hbr, goIndex, strings.TrimSuffix, hsuf]

/-- Parsing the text of a plain absolute URL gives its scheme, host and path back. -/
theorem Parse_plain_absolute (sch h p r : GoString) (hsch : isLowerScheme sch = true)
    (hh : isHostPort h = true) (hp : p = ch '/' :: r)
    (hb : ∀ c ∈ p, plainPathByte c = true) :
    url.Parse (sch ++ ch ':' :: ch '/' :: ch '/' :: (h ++ p))
      = .ok ⟨sch, [], none, h, p, [], false, false, [], [], []⟩ := by
  obtain ⟨hfirst, hsb⟩ := isLowerScheme_spec sch hsch
  have hschne : sch ≠ [] := by
    obtain ⟨c, t, e, _⟩ := hfirst
    rw [e]; simp
  have hhb := isHostPort_bytes h hh
  have hhn := fun c hc => hostByte_not c (hhb c hc)
  have hpn := fun c hc => plainPathByte_not c (hb c hc)
  have hsn := fun c hc => schemeByte_not c (hsb c hc)
  -- the bytes of the text after the scheme
  have hrest : ∀ c ∈ ch '/' :: ch '/' :: (h ++ p),
      ¬ c < 32 ∧ c ≠ 127 ∧ c ≠ 35 ∧ c ≠ 63 := by
    intro c hc
    simp only [List.mem_cons, List.mem_append, ch, Char.reduceToNat] at hc
    rcases hc with e | e | m | m
    · omega
    · omega
    · have := hhn c m; omega
    · have := hpn c m; omega
  have hall : ∀ c ∈ sch ++ ch ':' :: ch '/' :: ch '/' :: (h ++ p),
      ¬ c < 32 ∧ c ≠ 127 ∧ c ≠ 35 ∧ c ≠ 63 := by
    intro c hc
    rcases List.mem_append.1 hc with m | m
    · have := hsn c m; omega
    · rcases List.mem_cons.1 m with e | m
      · simp only [ch, Char.reduceToNat] at e; omega
      · exact hrest c m
  have hctl := stringContainsCTLByte_false _ (fun c hc => ⟨(hall c hc).1, (hall c hc).2.1⟩)
  have h35 : (35 : Nat) ∉ sch ++ ch ':' :: ch '/' :: ch '/' :: (h ++ p) :=
    fun m => (hall 35 m).2.2.1 rfl
  have h63 : (63 : Nat) ∉ ch '/' :: ch '/' :: (h ++ p) := fun m => (hrest 63 m).2.2.2 rfl
  have hstar : sch ++ ch ':' :: ch '/' :: ch '/' :: (h ++ p) ≠ str "*" := by
    intro e
    have hlen := congrArg List.length e
    simp [str, utf8EncodeRune] at hlen
    omega
  have hscheme : url.getScheme (sch ++ ch ':' :: ch '/' :: ch '/' :: (h ++ p))
      = .ok (sch, ch '/' :: ch '/' :: (h ++ p)) := by
    have := getSchemeLoop_scheme (sch ++ ch ':' :: ch '/' :: ch '/' :: (h ++ p)) sch
      (ch '/' :: ch '/' :: (h ++ p)) 0 hsb (fun _ => hfirst)
    simpa [url.getScheme] using this
  have hlower := ToLower_scheme sch hsb
  have hsuf : strings.HasSuffix (ch '/' :: ch '/' :: (h ++ p)) (str "?") = false :=
    HasSuffix_absent _ 63 h63
  have hcut : strings.Cut (ch '/' :: ch '/' :: (h ++ p)) (ch '?')
      = (ch '/' :: ch '/' :: (h ++ p), [], false) := Cut_absent _ 63 h63
  have hcuth : strings.Cut (sch ++ ch ':' :: ch '/' :: ch '/' :: (h ++ p)) (ch '#')
      = (sch ++ ch ':' :: ch '/' :: ch '/' :: (h ++ p), [], false) := Cut_absent _ 35 h35
  have hpre1 : strings.HasPrefix (ch '/' :: ch '/' :: (h ++ p)) (str "/") = true := by
    simp [strings.HasPrefix, str, utf8EncodeRune, ch]
  have hpre2 : strings.HasPrefix (ch '/' :: ch '/' :: (h ++ p)) (str "//") = true := by
    simp [strings.HasPrefix, str, utf8EncodeRune, ch]
  have h47 : (47 : Nat) ∉ h := fun m => (hhn 47 m).2.2.2.2.1 rfl
  have h64 : (64 : Nat) ∉ h := fun m => (hhn 64 m).2.2.2.2.2.2.1 rfl
  have hidx : strings.IndexByte (h ++ p) (ch '/') = some h.length := by
    rw [hp]; exact IndexByte_first h r 47 h47
  have hat : strings.LastIndexByte h (ch '@') = none := LastIndexByte_absent h 64 h64
  have hauth : url.parseAuthority h = .ok (none, h) := by
    unfold url.parseAuthority
    simp [hat, (parseHost_plain h hh).1]
  have hparse : url.parse (sch ++ ch ':' :: ch '/' :: ch '/' :: (h ++ p))
      = .ok ⟨sch, [], none, h, p, [], false, false, [], [], []⟩ := by
    unfold url.parse
    simp [hctl, hstar, hscheme, hlower, hsuf, hcut, hpre1, hpre2, hschne, hidx, hauth,
      setPath_plain _ _ hb]
  unfold url.Parse
  simp [hcuth, hparse]

/-- For a base URL in plain form (a lower-case scheme, a host name with an
optional numeric port, no user information, an unescaped path of plain bytes
that begins and ends with "/" and has no "." or ".." element) and a plain
relative path (not empty, no leading slash, plain bytes, no "." or ".."
element), every request `NewRequest` returns has the scheme and the host of
the base URL and the base path followed by the relative path as its path; and
for a nil body and a valid method `NewRequest` does return a request. -/
theorem NewRequest_plain_relative (c : Client) (method urlStr : GoString)
    (body : Option GoValue) (hbase : isPlainBase c.BaseURL = true)
    (hrel : isPlainRelative urlStr = true) :
    (∀ req, c.NewRequest method urlStr body = .ok req →
      req.URL.Scheme = c.BaseURL.Scheme ∧ req.URL.Host = c.BaseURL.Host ∧
      req.URL.Path = c.BaseURL.Path ++ urlStr ∧
      strings.HasPrefix req.URL.Path c.BaseURL.Path = true) ∧
    (http.validMethod (if method = [] then str "GET" else method) = true → body = none →
      ∃ req, c.NewRequest method urlStr body = .ok req) := by
  obtain ⟨hsch, hhost, _, _, hpath, ⟨q, hq⟩, ⟨r, hr⟩⟩ := isPlainBase_spec c.BaseURL hbase
  have hresolve := Parse_resolve_plain c.BaseURL urlStr hbase hrel
  have hrel2 := hrel
  simp only [isPlainRelative, Bool.and_eq_true] at hrel2
  obtain ⟨hbb, _⟩ := isPlainPath_spec c.BaseURL.Path hpath
  obtain ⟨hsb, _⟩ := isPlainPath_spec urlStr hrel2.2
  have hall : ∀ x ∈ c.BaseURL.Path ++ urlStr, plainPathByte x = true := by
    intro x hx
    rcases List.mem_append.1 hx with m | m
    · exact hbb x m
    · exact hsb x m
  have hp : c.BaseURL.Path ++ urlStr = ch '/' :: (r ++ urlStr) := by rw [hr]; simp
  have hesc : ∀ x ∈ c.BaseURL.Host, url.shouldEscape x .encodeHost = false := by
    intro x hx
    rcases isHostPort_bytes _ hhost x hx with e | e
    · exact hostNameByte_shouldEscape x e
    · exact port_shouldEscape x e
  have hschne : c.BaseURL.Scheme ≠ [] := by
    obtain ⟨⟨a, t, e, _⟩, _⟩ := isLowerScheme_spec _ hsch
    rw [e]; simp
  have hstring := String_plain c.BaseURL.Scheme c.BaseURL.Host (c.BaseURL.Path ++ urlStr)
    (r ++ urlStr) hschne hp hesc hall
  have hparse := Parse_plain_absolute c.BaseURL.Scheme c.BaseURL.Host
    (c.BaseURL.Path ++ urlStr) (r ++ urlStr) hsch hhost hp hall
  rw [← hstring] at hparse
  constructor
  · intro req h
    obtain ⟨_, u, buf, r0, hu, _, hr0, hreq⟩ := Client_NewRequest_ok c method urlStr body req h
    rw [hresolve] at hu
    have hu := (Except.ok.inj hu).symm
    subst hu
    obtain ⟨u2, hu2, hr2⟩ := http_NewRequest_ok method _ buf r0 hr0
    rw [hparse] at hu2
    have hu2 := (Except.ok.inj hu2).symm
    subst hu2
    have hurl : req.URL = r0.URL := by
      rw [hreq]
      cases body <;> rfl
    rw [hurl, hr2]
    refine ⟨rfl, (parseHost_plain _ hhost).2, rfl, ?_⟩
    simp [strings.HasPrefix]
  · intro hm hb
    subst hb
    have hslash : strings.HasSuffix c.BaseURL.Path (str "/") = true := by
      simp only [isPlainBase, Bool.and_eq_true] at hbase
      exact hbase.1.2
    unfold Client.NewRequest
    simp only [hslash, Bool.not_true, Bool.false_eq_true, if_false, hresolve]
    rw [http_NewRequest_eq method _ none _ hm hparse]
    exact ⟨_, rfl⟩

/-! ## Resolution of relative paths going down -/

/-- The values of the table of upper-case hexadecimal digits: a digit, a
letter from "A" to "F", or zero past the end of the table. -/
theorem upperhex_values (n : Nat) :
    (n < 16 ∧ url.ishex (url.upperhex n) = true ∧ url.unhex (url.upperhex n) = n ∧
      ((48 ≤ url.upperhex n ∧ url.upperhex n ≤ 57) ∨ (65 ≤ url.upperhex n ∧ url.upperhex n ≤ 70)))
    ∨ (16 ≤ n ∧ url.upperhex n = 0) := by
  by_cases h : n < 16
  · left
    interval_cases n <;> decide
  · right
    refine ⟨by omega, ?_⟩
    have h16 : (str "0123456789ABCDEF").length = 16 := by decide
    unfold url.upperhex
    rw [List.getD_eq_default]
    omega

/-- The percent sign is escaped in every part of a URL. -/
theorem shouldEscape_percent (mode : url.encoding) : url.shouldEscape (ch '%') mode = true := by
  cases mode <;> decide

/-- The bytes of an escaped text: a percent sign, a plus sign in a query
component, a value of the table of hexadecimal digits, or a byte of the text
that needs no escape. -/
theorem escape_bytes (s : GoString) (mode : url.encoding) :
    ∀ x ∈ url.escape s mode,
      x = ch '%' ∨ (x = ch '+' ∧ mode = .encodeQueryComponent) ∨ (∃ n, x = url.upperhex n) ∨
      (x ∈ s ∧ url.shouldEscape x mode = false) := by
  induction s with
  | nil => simp [url.escape]
  | cons c s ih =>
    intro x hx
    have hsplit : url.escape (c :: s) mode
        = (if url.shouldEscape c mode then
            if c = ch ' ' ∧ mode = .encodeQueryComponent then [ch '+']
            else [ch '%', url.upperhex (c / 16), url.upperhex (c % 16)]
          else [c]) ++ url.escape s mode := by
      simp [url.escape, List.flatMap_cons]
    rw [hsplit] at hx
    rcases List.mem_append.1 hx with m | m
    · by_cases he : url.shouldEscape c mode = true
      · rw [if_pos he] at m
        by_cases hq : c = ch ' ' ∧ mode = .encodeQueryComponent
        · rw [if_pos hq] at m
          simp only [List.mem_singleton] at m
          exact Or.inr (Or.inl ⟨m, hq.2⟩)
        · rw [if_neg hq] at m
          simp only [List.mem_cons, List.mem_singleton, List.not_mem_nil, or_false] at m
          rcases m with e | e | e
          · exact Or.inl e
          · exact Or.inr (Or.inr (Or.inl ⟨_, e⟩))
          · exact Or.inr (Or.inr (Or.inl ⟨_, e⟩))
      · rw [if_neg he] at m
        simp only [List.mem_singleton] at m
        subst m
        exact Or.inr (Or.inr (Or.inr ⟨List.mem_cons_self _ _, by simpa using he⟩))
    · rcases ih x m with h | h | h | h
      · exact Or.inl h
      · exact Or.inr (Or.inl h)
      · exact Or.inr (Or.inr (Or.inl h))
      · exact Or.inr (Or.inr (Or.inr ⟨List.mem_cons_of_mem _ h.1, h.2⟩))

/-- A byte that is escaped, and is no percent sign, plus sign, digit or
upper-case letter, and not zero, does not occur in an escaped text. -/
theorem escape_not_mem (s : GoString) (mode : url.encoding) (c : Nat)
    (he : url.shouldEscape c mode = true) (h1 : c ≠ ch '%') (h2 : c ≠ ch '+') (h3 : c ≠ 0)
    (h4 : ¬ (48 ≤ c ∧ c ≤ 57)) (h5 : ¬ (65 ≤ c ∧ c ≤ 70)) :
    c ∉ url.escape s mode := by
  intro hm
  rcases escape_bytes s mode c hm with h | h | ⟨n, h⟩ | h
  · exact h1 h
  · exact h2 h.1
  · rcases upperhex_values n with ⟨_, _, _, hv⟩ | ⟨_, hv⟩
    · rw [← h] at hv
      omega
    · rw [hv] at h
      exact h3 h
  · rw [he] at h
    exact absurd h.2 (by simp)

/-- What unescaping gives in any part other than a query component, it gives
in a path. -/
theorem unescape_path_of (mode : url.encoding) (hm : mode ≠ .encodeQueryComponent) :
    ∀ (n : Nat) (s t : GoString), s.length ≤ n → url.unescape s mode = .ok t →
      url.unescape s .encodePath = .ok t := by
  intro n
  induction n with
  | zero =>
    intro s t hs h
    have : s = [] := List.length_eq_zero.1 (Nat.le_zero.1 hs)
    subst this
    simpa [url.unescape] using h
  | succ n ih =>
    intro s t hs h
    cases s with
    | nil => simpa [url.unescape] using h
    | cons c s =>
      unfold url.unescape at h ⊢
      by_cases hc : c = ch '%'
      · rw [if_pos hc] at h ⊢
        rcases s with _ | ⟨h1, _ | ⟨h2, rest⟩⟩
        · simp at h
        · simp at h
        · simp only at h ⊢
          by_cases hx : (!url.ishex h1 || !url.ishex h2) = true
          · rw [if_pos hx] at h
            simp at h
          · rw [if_neg hx] at h ⊢
            have hp1 : ¬ (url.encoding.encodePath = url.encoding.encodeHost ∧ url.unhex h1 < 8 ∧
                [c, h1, h2] ≠ str "%25") := by simp
            have hp2 : ¬ (url.encoding.encodePath = url.encoding.encodeZone ∧
                [c, h1, h2] ≠ str "%25" ∧ url.unhex h1 * 16 + url.unhex h2 ≠ ch ' ' ∧
                url.shouldEscape (url.unhex h1 * 16 + url.unhex h2) .encodeHost = true) := by simp
            rw [if_neg hp1, if_neg hp2]
            split_ifs at h
            cases hr : url.unescape rest mode with
            | error e => simp [hr] at h
            | ok tr =>
              rw [hr] at h
              have hlen : rest.length ≤ n := by simp at hs; omega
              rw [ih rest tr hlen hr]
              exact h
      · rw [if_neg hc] at h ⊢
        have hlen : s.length ≤ n := by simpa using hs
        by_cases hp : c = ch '+'
        · rw [if_pos hp] at h ⊢
          cases hr : url.unescape s mode with
          | error e => simp [hr] at h
          | ok tr =>
            rw [hr] at h
            rw [ih s tr hlen hr]
            simpa [hm] using h
        · rw [if_neg hp] at h ⊢
          have hp3 : ¬ ((url.encoding.encodePath = url.encoding.encodeHost ∨
              url.encoding.encodePath = url.encoding.encodeZone) ∧ c < 0x80 ∧
              url.shouldEscape c .encodeHost = true) := by simp
          rw [if_neg hp3]
          split_ifs at h
          cases hr : url.unescape s mode with
          | error e => simp [hr] at h
          | ok tr =>
            rw [hr] at h
            rw [ih s tr hlen hr]
            exact h

/-- Unescaping a path that begins with a byte other than the percent sign. -/
theorem unescape_path_cons (c : Nat) (s : GoString) (hc : c ≠ ch '%') :
    url.unescape (c :: s) .encodePath
      = match url.unescape s .encodePath with
        | .ok t => .ok (c :: t)
        | .error e => .error e := by
  conv_lhs => unfold url.unescape
  rw [if_neg hc]
  by_cases hp : c = ch '+'
  · rw [if_pos hp]
    subst hp
    cases url.unescape s .encodePath <;> simp
  · rw [if_neg hp]
    have hp3 : ¬ ((url.encoding.encodePath = url.encoding.encodeHost ∨
        url.encoding.encodePath = url.encoding.encodeZone) ∧ c < 0x80 ∧
        url.shouldEscape c .encodeHost = true) := by simp
    rw [if_neg hp3]

/-- Unescaping a path that begins with a percent sign and two more bytes. -/
theorem unescape_path_percent (h1 h2 : Nat) (rest : GoString) :
    url.unescape (ch '%' :: h1 :: h2 :: rest) .encodePath
      = if (!url.ishex h1 || !url.ishex h2) = true then
          .error (.escapeError [ch '%', h1, h2])
        else
          match url.unescape rest .encodePath with
          | .ok t => .ok ((url.unhex h1 * 16 + url.unhex h2) :: t)
          | .error e => .error e := by
  conv_lhs => unfold url.unescape
  rw [if_pos rfl]
  simp only
  by_cases hx : (!url.ishex h1 || !url.ishex h2) = true
  · rw [if_pos hx, if_pos hx]
  · rw [if_neg hx, if_neg hx]
    have hp1 : ¬ (url.encoding.encodePath = url.encoding.encodeHost ∧ url.unhex h1 < 8 ∧
        [ch '%', h1, h2] ≠ str "%25") := by simp
    have hp2 : ¬ (url.encoding.encodePath = url.encoding.encodeZone ∧
        [ch '%', h1, h2] ≠ str "%25" ∧ url.unhex h1 * 16 + url.unhex h2 ≠ ch ' ' ∧
        url.shouldEscape (url.unhex h1 * 16 + url.unhex h2) .encodeHost = true) := by simp
    rw [if_neg hp1, if_neg hp2]

/-- A percent sign with fewer than two bytes after it cannot be unescaped. -/
theorem unescape_path_short (s : GoString) (hs : s.length < 2) (t : GoString) :
    url.unescape (ch '%' :: s) .encodePath ≠ .ok t := by
  rcases s with _ | ⟨h1, _ | ⟨h2, rest⟩⟩
  · simp [url.unescape]
  · simp [url.unescape]
  · simp at hs
    omega

/-- Unescaping a path that continues: the unescaped first part, then the
unescaped rest. -/
theorem unescape_path_append (b : GoString) :
    ∀ (n : Nat) (a ta : GoString), a.length ≤ n → url.unescape a .encodePath = .ok ta →
      url.unescape (a ++ b) .encodePath
        = match url.unescape b .encodePath with
          | .ok tb => .ok (ta ++ tb)
          | .error e => .error e := by
  intro n
  induction n with
  | zero =>
    intro a ta ha h
    have : a = [] := List.length_eq_zero.1 (Nat.le_zero.1 ha)
    subst this
    simp [url.unescape] at h
    subst h
    simp only [List.nil_append]
    cases url.unescape b .encodePath <;> rfl
  | succ n ih =>
    intro a ta ha h
    cases a with
    | nil =>
      simp [url.unescape] at h
      subst h
      simp only [List.nil_append]
      cases url.unescape b .encodePath <;> rfl
    | cons c a =>
      by_cases hc : c = ch '%'
      · subst hc
        rcases a with _ | ⟨h1, _ | ⟨h2, rest⟩⟩
        · exact absurd h (unescape_path_short [] (by simp) ta)
        · exact absurd h (unescape_path_short [h1] (by simp) ta)
        · rw [unescape_path_percent] at h
          simp only [List.cons_append]
          rw [unescape_path_percent]
          by_cases hx : (!url.ishex h1 || !url.ishex h2) = true
          · rw [if_pos hx] at h
            simp at h
          · rw [if_neg hx] at h ⊢
            cases hr : url.unescape rest .encodePath with
            | error e => simp [hr] at h
            | ok tr =>
              rw [hr] at h
              simp only [Except.ok.injEq] at h
              subst h
              have hlen : rest.length ≤ n := by simp at ha; omega
              rw [ih rest tr hlen hr]
              cases url.unescape b .encodePath <;> simp
      · rw [unescape_path_cons c a hc] at h
        simp only [List.cons_append]
        rw [unescape_path_cons c (a ++ b) hc]
        cases hr : url.unescape a .encodePath with
        | error e => simp [hr] at h
        | ok tr =>
          rw [hr] at h
          simp only [Except.ok.injEq] at h
          subst h
          have hlen : a.length ≤ n := by simpa using ha
          rw [ih a tr hlen hr]
          cases url.unescape b .encodePath <;> simp

/-- Unescaping a path around a slash: both sides are unescaped, and the path
is their unescaped texts around the slash. -/
theorem unescape_path_slash (b : GoString) :
    ∀ (n : Nat) (a t : GoString), a.length ≤ n →
      url.unescape (a ++ ch '/' :: b) .encodePath = .ok t →
      ∃ ta tb, url.unescape a .encodePath = .ok ta ∧ url.unescape b .encodePath = .ok tb ∧
        t = ta ++ ch '/' :: tb := by
  intro n
  induction n with
  | zero =>
    intro a t ha h
    have : a = [] := List.length_eq_zero.1 (Nat.le_zero.1 ha)
    subst this
    rw [List.nil_append, unescape_path_cons _ _ (by decide)] at h
    cases hr : url.unescape b .encodePath with
    | error e => simp [hr] at h
    | ok tb =>
      rw [hr] at h
      simp only [Except.ok.injEq] at h
      exact ⟨[], tb, rfl, rfl, by simp [← h]⟩
  | succ n ih =>
    intro a t ha h
    cases a with
    | nil =>
      rw [List.nil_append, unescape_path_cons _ _ (by decide)] at h
      cases hr : url.unescape b .encodePath with
      | error e => simp [hr] at h
      | ok tb =>
        rw [hr] at h
        simp only [Except.ok.injEq] at h
        exact ⟨[], tb, rfl, rfl, by simp [← h]⟩
    | cons c a =>
      by_cases hc : c = ch '%'
      · subst hc
        rcases a with _ | ⟨h1, _ | ⟨h2, rest⟩⟩
        · simp only [List.cons_append, List.nil_append] at h
          rcases b with _ | ⟨b1, b⟩
          · exact absurd h (unescape_path_short _ (by simp) t)
          · rw [unescape_path_percent] at h
            have : (!url.ishex (ch '/') || !url.ishex b1) = true := by
              have : url.ishex (ch '/') = false := by decide
              simp [this]
            rw [if_pos this] at h
            simp at h
        · simp only [List.cons_append, List.nil_append] at h
          rw [unescape_path_percent] at h
          have : (!url.ishex h1 || !url.ishex (ch '/')) = true := by
            have : url.ishex (ch '/') = false := by decide
            simp [this]
          rw [if_pos this] at h
          simp at h
        · simp only [List.cons_append] at h
          rw [unescape_path_percent] at h
          rw [unescape_path_percent]
          by_cases hx : (!url.ishex h1 || !url.ishex h2) = true
          · rw [if_pos hx] at h
            simp at h
          · rw [if_neg hx] at h ⊢
            cases hr : url.unescape (rest ++ ch '/' :: b) .encodePath with
            | error e => simp [hr] at h
            | ok tr =>
              rw [hr] at h
              simp only [Except.ok.injEq] at h
              have hlen : rest.length ≤ n := by simp at ha; omega
              obtain ⟨ta, tb, h1', h2', h3'⟩ := ih rest tr hlen hr
              refine ⟨(url.unhex h1 * 16 + url.unhex h2) :: ta, tb, by rw [h1'], h2', ?_⟩
              rw [← h, h3']
              rfl
      · simp only [List.cons_append] at h
        rw [unescape_path_cons c _ hc] at h
        rw [unescape_path_cons c a hc]
        cases hr : url.unescape (a ++ ch '/' :: b) .encodePath with
        | error e => simp [hr] at h
        | ok tr =>
          rw [hr] at h
          simp only [Except.ok.injEq] at h
          have hlen : a.length ≤ n := by simpa using ha
          obtain ⟨ta, tb, h1', h2', h3'⟩ := ih a tr hlen hr
          refine ⟨c :: ta, tb, by rw [h1'], h2', ?_⟩
          rw [← h, h3']
          rfl

/-- Escaping goes byte by byte. -/
theorem escape_cons (c : Nat) (s : GoString) (mode : url.encoding) :
    url.escape (c :: s) mode
      = (if url.shouldEscape c mode = true then
          if c = ch ' ' ∧ mode = .encodeQueryComponent then [ch '+']
          else [ch '%', url.upperhex (c / 16), url.upperhex (c % 16)]
        else [c]) ++ url.escape s mode := by
  simp [url.escape, List.flatMap_cons]

/-- What can be unescaped of an escaped text is the text. -/
theorem unescape_escape_inv (mode : url.encoding) (hm : mode ≠ .encodeQueryComponent)
    (rest : GoString) :
    ∀ (h t : GoString), url.unescape (url.escape h mode ++ rest) .encodePath = .ok t →
      ∃ t', t = h ++ t' ∧ url.unescape rest .encodePath = .ok t' := by
  intro h
  induction h with
  | nil =>
    intro t ht
    exact ⟨t, rfl, by simpa [url.escape] using ht⟩
  | cons c h ih =>
    intro t ht
    rw [escape_cons] at ht
    by_cases he : url.shouldEscape c mode = true
    · rw [if_pos he] at ht
      have hq : ¬ (c = ch ' ' ∧ mode = .encodeQueryComponent) := fun x => hm x.2
      rw [if_neg hq] at ht
      simp only [List.cons_append, List.nil_append] at ht
      rw [unescape_path_percent] at ht
      by_cases hx : (!url.ishex (url.upperhex (c / 16)) || !url.ishex (url.upperhex (c % 16))) = true
      · rw [if_pos hx] at ht
        simp at ht
      · rw [if_neg hx] at ht
        simp only [Bool.or_eq_true, Bool.not_eq_true', not_or, Bool.not_eq_false] at hx
        cases hr : url.unescape (url.escape h mode ++ rest) .encodePath with
        | error e => simp [hr] at ht
        | ok tr =>
          rw [hr] at ht
          simp only [Except.ok.injEq] at ht
          obtain ⟨t', ht', hrest⟩ := ih tr hr
          refine ⟨t', ?_, hrest⟩
          rw [← ht, ht']
          have h16 : c / 16 < 16 := by
            rcases upperhex_values (c / 16) with ⟨hlt, _⟩ | ⟨_, hz⟩
            · exact hlt
            · rw [hz] at hx
              exact absurd hx.1 (by decide)
          have hu1 : url.unhex (url.upperhex (c / 16)) = c / 16 := by
            rcases upperhex_values (c / 16) with ⟨_, _, hu, _⟩ | ⟨hge, _⟩
            · exact hu
            · omega
          have hu2 : url.unhex (url.upperhex (c % 16)) = c % 16 := by
            rcases upperhex_values (c % 16) with ⟨_, _, hu, _⟩ | ⟨hge, _⟩
            · exact hu
            · have := Nat.mod_lt c (by decide : 0 < 16)
              omega
          rw [hu1, hu2]
          have : c / 16 * 16 + c % 16 = c := by omega
          rw [this]
          rfl
    · rw [if_neg he] at ht
      simp only [List.cons_append, List.nil_append] at ht
      have hc : c ≠ ch '%' := by
        intro e
        rw [e, shouldEscape_percent] at he
        exact he rfl
      rw [unescape_path_cons c _ hc] at ht
      cases hr : url.unescape (url.escape h mode ++ rest) .encodePath with
      | error e => simp [hr] at ht
      | ok tr =>
        rw [hr] at ht
        simp only [Except.ok.injEq] at ht
        obtain ⟨t', ht', hrest⟩ := ih tr hr
        exact ⟨t', by rw [← ht, ht']; rfl, hrest⟩

/-- An escaped text of bytes is unescaped to the text. -/
theorem unescape_escape (mode : url.encoding) (hm : mode ≠ .encodeQueryComponent) :
    ∀ p : GoString, (∀ c ∈ p, c < 256) →
      url.unescape (url.escape p mode) .encodePath = .ok p := by
  intro p
  induction p with
  | nil => intro _; rfl
  | cons c p ih =>
    intro hb
    have hc256 := hb c (List.mem_cons_self _ _)
    have hp := ih (fun x hx => hb x (List.mem_cons_of_mem _ hx))
    rw [escape_cons]
    by_cases he : url.shouldEscape c mode = true
    · rw [if_pos he]
      have hq : ¬ (c = ch ' ' ∧ mode = .encodeQueryComponent) := fun x => hm x.2
      rw [if_neg hq]
      simp only [List.cons_append, List.nil_append]
      rw [unescape_path_percent, hp]
      have h1 : c / 16 < 16 := by omega
      have h2 : c % 16 < 16 := Nat.mod_lt c (by decide)
      have hx1 : url.ishex (url.upperhex (c / 16)) = true ∧
          url.unhex (url.upperhex (c / 16)) = c / 16 := by
        rcases upperhex_values (c / 16) with ⟨_, hi, hu, _⟩ | ⟨hge, _⟩
        · exact ⟨hi, hu⟩
        · omega
      have hx2 : url.ishex (url.upperhex (c % 16)) = true ∧
          url.unhex (url.upperhex (c % 16)) = c % 16 := by
        rcases upperhex_values (c % 16) with ⟨_, hi, hu, _⟩ | ⟨hge, _⟩
        · exact ⟨hi, hu⟩
        · omega
      have hx : ¬ (!url.ishex (url.upperhex (c / 16)) || !url.ishex (url.upperhex (c % 16)))
          = true := by simp [hx1.1, hx2.1]
      rw [if_neg hx, hx1.2, hx2.2]
      have : c / 16 * 16 + c % 16 = c := by omega
      rw [this]
    · rw [if_neg he]
      simp only [List.cons_append, List.nil_append]
      have hc : c ≠ ch '%' := by
        intro e
        rw [e, shouldEscape_percent] at he
        exact he rfl
      rw [unescape_path_cons c _ hc, hp]

/-- What can be unescaped of the escaped path of a URL is its path. -/
theorem unescape_EscapedPath_inv (u : url.URL) (t : GoString)
    (h : url.unescape u.EscapedPath .encodePath = .ok t) : t = u.Path := by
  unfold url.URL.EscapedPath at h
  by_cases h1 : u.RawPath ≠ [] ∧ url.validEncoded u.RawPath .encodePath = true ∧
      url.unescape u.RawPath .encodePath = .ok u.Path
  · rw [if_pos h1] at h
    rw [h1.2.2] at h
    exact (Except.ok.inj h).symm
  · rw [if_neg h1] at h
    by_cases h2 : u.Path = str "*"
    · rw [if_pos h2] at h
      rw [h2]
      have : url.unescape (str "*") .encodePath = .ok (str "*") := by decide
      rw [this] at h
      exact (Except.ok.inj h).symm
    · rw [if_neg h2] at h
      have := unescape_escape_inv .encodePath (by decide) [] u.Path t (by simpa using h)
      obtain ⟨t', ht, hr⟩ := this
      simp [url.unescape] at hr
      subst hr
      simpa using ht

/-- The escaped path of a URL whose path is of bytes is unescaped to the path. -/
theorem unescape_EscapedPath (u : url.URL) (hb : ∀ c ∈ u.Path, c < 256) :
    url.unescape u.EscapedPath .encodePath = .ok u.Path := by
  unfold url.URL.EscapedPath
  by_cases h1 : u.RawPath ≠ [] ∧ url.validEncoded u.RawPath .encodePath = true ∧
      url.unescape u.RawPath .encodePath = .ok u.Path
  · rw [if_pos h1]
    exact h1.2.2
  · rw [if_neg h1]
    by_cases h2 : u.Path = str "*"
    · rw [if_pos h2, h2]
      decide
    · rw [if_neg h2]
      exact unescape_escape .encodePath (by decide) u.Path hb

/-- The escaped path of a URL holds no question mark and no number sign. -/
theorem EscapedPath_not_mem (u : url.URL) :
    ch '?' ∉ u.EscapedPath ∧ ch '#' ∉ u.EscapedPath := by
  unfold url.URL.EscapedPath
  by_cases h1 : u.RawPath ≠ [] ∧ url.validEncoded u.RawPath .encodePath = true ∧
      url.unescape u.RawPath .encodePath = .ok u.Path
  · rw [if_pos h1]
    have hv := h1.2.1
    simp only [url.validEncoded, List.all_eq_true] at hv
    constructor
    · intro hm
      have := hv _ hm
      revert this
      decide
    · intro hm
      have := hv _ hm
      revert this
      decide
  · rw [if_neg h1]
    by_cases h2 : u.Path = str "*"
    · rw [if_pos h2]
      decide
    · rw [if_neg h2]
      exact ⟨escape_not_mem _ _ _ (by decide) (by decide) (by decide) (by decide) (by decide)
               (by decide),
             escape_not_mem _ _ _ (by decide) (by decide) (by decide) (by decide) (by decide)
               (by decide)⟩

/-- The elements of a split text do not hold the separator. -/
theorem splitByte_not_mem (s : GoString) (sep : Nat) :
    ∀ e ∈ url.splitByte s sep, sep ∉ e := by
  induction s with
  | nil => simp [url.splitByte]
  | cons b s ih =>
    by_cases hb : b = sep
    · subst hb
      rw [splitByte_cons_sep]
      intro e he
      rcases List.mem_cons.1 he with h | h
      · subst h; simp
      · exact ih e h
    · cases hs : url.splitByte s sep with
      | nil => exact absurd hs (splitByte_ne_nil s sep)
      | cons e0 es =>
        rw [splitByte_cons_ne b s sep e0 es hb hs]
        rw [hs] at ih
        intro e he
        rcases List.mem_cons.1 he with h | h
        · subst h
          intro hm
          rcases List.mem_cons.1 hm with h2 | h2
          · exact hb h2.symm
          · exact ih e0 (List.mem_cons_self _ _) h2
        · exact ih e (List.mem_cons_of_mem _ h)

/-- The loop of `resolvePath` over elements that never climb: the builder
holds the base and, after it, the elements that were entered and not left. -/
theorem resolve_fold_descends (q : GoString) :
    ∀ (es st : List GoString), staysBelow st.length es = true →
      (∀ e ∈ st, ch '/' ∉ e) → (∀ e ∈ es, ch '/' ∉ e) →
      ∃ st' : List GoString,
        es.foldl url.resolveStep (ch '/' :: q ++ st.flatMap (fun x => ch '/' :: x), false)
          = (ch '/' :: q ++ st'.flatMap (fun x => ch '/' :: x), false) ∧
        (∀ e ∈ st', e ∈ st ∨ e ∈ es) ∧
        (es = [] → st' = st) ∧
        (∀ x, es.getLast? = some x → notDot x = true → st' ≠ []) := by
  intro es
  induction es with
  | nil =>
    intro st _ _ _
    exact ⟨st, rfl, fun e he => Or.inl he, fun _ => rfl, by simp⟩
  | cons e es ih =>
    intro st hstay hst hes
    have hes' : ∀ x ∈ es, ch '/' ∉ x := fun x hx => hes x (List.mem_cons_of_mem _ hx)
    have hlast : ∀ x, (e :: es).getLast? = some x → es ≠ [] → es.getLast? = some x := by
      intro x hx hne
      cases es with
      | nil => exact absurd rfl hne
      | cons a as => simpa [List.getLast?_cons_cons] using hx
    rw [List.foldl_cons]
    by_cases h1 : e = str "."
    · have hstep : url.resolveStep (ch '/' :: q ++ st.flatMap (fun x => ch '/' :: x), false) e
          = (ch '/' :: q ++ st.flatMap (fun x => ch '/' :: x), false) := by
        simp [url.resolveStep, h1]
      rw [hstep]
      have hstay' : staysBelow st.length es = true := by
        simpa only [staysBelow, if_pos h1] using hstay
      obtain ⟨st', hf, hm, hnil, hl⟩ := ih st hstay' hst hes'
      refine ⟨st', hf, ?_, by simp, ?_⟩
      · intro x hx
        rcases hm x hx with h | h
        · exact Or.inl h
        · exact Or.inr (List.mem_cons_of_mem _ h)
      · intro x hx hnd
        by_cases hne : es = []
        · subst hne
          simp at hx
          subst hx
          simp [notDot, h1] at hnd
        · exact hl x (hlast x hx hne) hnd
    · by_cases h2 : e = str ".."
      · rcases List.eq_nil_or_concat st with hnil | ⟨st0, top, hst0⟩
        · subst hnil
          simp only [staysBelow, if_neg h1, if_pos h2, List.length_nil] at hstay
          exact absurd hstay (by simp)
        · rw [List.concat_eq_append] at hst0
          subst hst0
          have htop : ch '/' ∉ top := hst top (by simp)
          have hstay' : staysBelow st0.length es = true := by
            have : (st0 ++ [top]).length = st0.length + 1 := by simp
            rw [this] at hstay
            simpa only [staysBelow, if_neg h1, if_pos h2] using hstay
          have hstep : url.resolveStep
              (ch '/' :: q ++ (st0 ++ [top]).flatMap (fun x => ch '/' :: x), false) e
              = (ch '/' :: q ++ st0.flatMap (fun x => ch '/' :: x), false) := by
            have hdrop : (ch '/' :: q ++ (st0 ++ [top]).flatMap (fun x => ch '/' :: x)).drop 1
                = (q ++ st0.flatMap (fun x => ch '/' :: x)) ++ ch '/' :: top := by
              simp
            have hidx := LastIndexByte_last (q ++ st0.flatMap (fun x => ch '/' :: x)) top
              (ch '/') htop
            have htake : List.take (q ++ st0.flatMap (fun x => ch '/' :: x)).length
                ((q ++ st0.flatMap (fun x => ch '/' :: x)) ++ ch '/' :: top)
                = q ++ st0.flatMap (fun x => ch '/' :: x) := List.take_left' rfl
            unfold url.resolveStep
            rw [if_neg h1, if_pos h2]
            simp only [hdrop, hidx, htake]
            rfl
          rw [hstep]
          obtain ⟨st', hf, hm, hnil, hl⟩ := ih st0 hstay'
            (fun x hx => hst x (List.mem_append_left _ hx)) hes'
          refine ⟨st', hf, ?_, by simp, ?_⟩
          · intro x hx
            rcases hm x hx with h | h
            · exact Or.inl (List.mem_append_left _ h)
            · exact Or.inr (List.mem_cons_of_mem _ h)
          · intro x hx hnd
            by_cases hne : es = []
            · subst hne
              simp at hx
              subst hx
              simp [notDot, h2] at hnd
            · exact hl x (hlast x hx hne) hnd
      · have hnd : notDot e = true := by simp [notDot, h1, h2]
        have hstep : url.resolveStep
            (ch '/' :: q ++ st.flatMap (fun x => ch '/' :: x), false) e
            = (ch '/' :: q ++ (st ++ [e]).flatMap (fun x => ch '/' :: x), false) := by
          rw [resolveStep_plain _ _ _ hnd]
          simp
        rw [hstep]
        have hstay' : staysBelow (st ++ [e]).length es = true := by
          have : (st ++ [e]).length = st.length + 1 := by simp
          rw [this]
          simpa only [staysBelow, if_neg h1, if_neg h2] using hstay
        have hst' : ∀ x ∈ st ++ [e], ch '/' ∉ x := by
          intro x hx
          rcases List.mem_append.1 hx with h | h
          · exact hst x h
          · have hxe : x = e := by simpa using h
            rw [hxe]
            exact hes e (List.mem_cons_self _ _)
        obtain ⟨st', hf, hm, hnil, hl⟩ := ih (st ++ [e]) hstay' hst' hes'
        refine ⟨st', hf, ?_, by simp, ?_⟩
        · intro x hx
          rcases hm x hx with h | h
          · rcases List.mem_append.1 h with h' | h'
            · exact Or.inl h'
            · have hxe : x = e := by simpa using h'
              rw [hxe]
              exact Or.inr (List.mem_cons_self _ _)
          · exact Or.inr (List.mem_cons_of_mem _ h)
        · intro x hx hndx
          by_cases hne : es = []
          · rw [hnil hne]
            simp
          · exact hl x (hlast x hx hne) hndx

/-- Resolving a relative path that never climbs against a base path that
ends with a slash and has no dot elements: the result is the base path
followed by a text made of elements of the relative path, each after a
slash, and possibly a last slash. -/
theorem resolvePath_descends (bp q r rp : GoString) (hbq : bp = q ++ [ch '/'])
    (hbr : bp = ch '/' :: r)
    (hq : ∀ e ∈ url.splitByte bp (ch '/'), notDot e = true)
    (hhead : rp.head? ≠ some (ch '/'))
    (hstay : staysBelow 0 (url.splitByte rp (ch '/')) = true) :
    ∃ (st : List GoString) (tail : GoString),
      url.resolvePath bp rp = q ++ (st.flatMap (fun x => ch '/' :: x) ++ tail) ∧
      (∀ e ∈ st, e ∈ url.splitByte rp (ch '/')) ∧
      (tail = [] ∨ tail = [ch '/']) ∧ (st = [] → tail = [ch '/']) := by
  have hlast : strings.LastIndexByte bp (ch '/') = some q.length := by
    rw [hbq]
    exact LastIndexByte_last q [] (ch '/') (by simp)
  have htake : List.take (q.length + 1) bp = bp := by
    apply List.take_of_length_le
    rw [hbq]
    simp
  have hfull : (if rp = [] then bp
      else if rp.head? ≠ some (ch '/') then bp ++ rp
      else rp) = q ++ ch '/' :: rp := by
    by_cases hne : rp = []
    · rw [if_pos hne, hne, hbq]
    · rw [if_neg hne, if_pos hhead, hbq]
      simp
  have hqdot : ∀ e ∈ url.splitByte q (ch '/'), notDot e = true := by
    have h2 : bp = q ++ ch '/' :: [] := hbq
    rw [h2, splitByte_append] at hq
    intro e he
    exact hq e (List.mem_append_left _ he)
  have hne2 : q ++ ch '/' :: rp ≠ [] := by simp
  obtain ⟨st, hf, hm, _, hl⟩ := resolve_fold_descends q (url.splitByte rp (ch '/')) [] hstay
    (by simp) (splitByte_not_mem rp (ch '/'))
  simp only [List.flatMap_nil, List.append_nil] at hf
  have hfold : (url.splitByte (q ++ ch '/' :: rp) (ch '/')).foldl url.resolveStep ([ch '/'], true)
      = (ch '/' :: q ++ st.flatMap (fun x => ch '/' :: x), false) := by
    rw [splitByte_append, List.foldl_append, resolve_fold q hqdot, hf]
  have hgl : (url.splitByte (q ++ ch '/' :: rp) (ch '/')).getLast?
      = (url.splitByte rp (ch '/')).getLast? := by
    rw [splitByte_append]
    exact List.getLast?_append_of_ne_nil _ (splitByte_ne_nil rp _)
  have hqx : q = [] ∨ ∃ q', q = ch '/' :: q' := by
    cases q with
    | nil => exact Or.inl rfl
    | cons x q' =>
      have : x = ch '/' := by
        rw [hbq] at hbr
        simpa using (List.cons.inj hbr).1
      subst this
      exact Or.inr ⟨q', rfl⟩
  have hstrip : ∀ X w : GoString, q ++ X = ch '/' :: w →
      (if (ch '/' :: q ++ X).length > 1 ∧ (ch '/' :: q ++ X).get? 1 = some (ch '/')
        then (ch '/' :: q ++ X).drop 1 else ch '/' :: q ++ X) = q ++ X := by
    intro X w hw
    have : ch '/' :: q ++ X = ch '/' :: ch '/' :: w := by
      rw [List.cons_append, hw]
    rw [this, hw]
    simp
  unfold url.resolvePath
  simp only [hlast, htake]
  simp only [hfull, if_neg hne2, hfold, hgl]
  by_cases hdot : (url.splitByte rp (ch '/')).getLast? = some (str ".") ∨
      (url.splitByte rp (ch '/')).getLast? = some (str "..")
  · rw [if_pos hdot]
    refine ⟨st, [ch '/'], ?_, fun e he => (hm e he).resolve_left (by simp), Or.inr rfl,
      fun _ => rfl⟩
    have hw : ∃ w, q ++ (st.flatMap (fun x => ch '/' :: x) ++ [ch '/']) = ch '/' :: w := by
      rcases hqx with h | ⟨q', h⟩
      · subst h
        cases st with
        | nil => exact ⟨[], rfl⟩
        | cons a as => exact ⟨a ++ (as.flatMap (fun x => ch '/' :: x) ++ [ch '/']), by simp⟩
      · subst h
        exact ⟨q' ++ (st.flatMap (fun x => ch '/' :: x) ++ [ch '/']), by simp⟩
    obtain ⟨w, hw⟩ := hw
    have := hstrip _ w hw
    rw [← List.append_assoc] at this
    exact this
  · rw [if_neg hdot]
    have hst : st ≠ [] := by
      cases hx : (url.splitByte rp (ch '/')).getLast? with
      | none =>
        exact absurd (List.getLast?_eq_none_iff.1 hx) (splitByte_ne_nil rp _)
      | some x =>
        apply hl x hx
        rw [hx] at hdot
        simp only [Option.some.injEq, not_or] at hdot
        simp [notDot, hdot.1, hdot.2]
    refine ⟨st, [], ?_, fun e he => (hm e he).resolve_left (by simp), Or.inl rfl,
      fun h => absurd h hst⟩
    have hw : ∃ w, q ++ (st.flatMap (fun x => ch '/' :: x) ++ []) = ch '/' :: w := by
      rcases hqx with h | ⟨q', h⟩
      · subst h
        cases st with
        | nil => exact absurd rfl hst
        | cons a as => exact ⟨a ++ (as.flatMap (fun x => ch '/' :: x) ++ []), by simp⟩
      · subst h
        exact ⟨q' ++ (st.flatMap (fun x => ch '/' :: x) ++ []), by simp⟩
    obtain ⟨w, hw⟩ := hw
    have := hstrip _ w hw
    simp only [List.append_nil] at this ⊢
    exact this

/-- The elements of a text that can be unescaped can be unescaped. -/
theorem unescape_joinElems (l : List GoString) :
    ∀ t, url.unescape (joinElems (ch '/') l) .encodePath = .ok t →
      ∀ e ∈ l, ∃ te, url.unescape e .encodePath = .ok te := by
  induction l with
  | nil => intro t _ e he; simp at he
  | cons a as ih =>
    intro t ht e he
    cases as with
    | nil =>
      simp only [joinElems, List.flatMap_nil, List.append_nil] at ht
      simp only [List.mem_singleton] at he
      subst he
      exact ⟨t, ht⟩
    | cons b bs =>
      have hj : joinElems (ch '/') (a :: b :: bs) = a ++ ch '/' :: joinElems (ch '/') (b :: bs) := by
        simp [joinElems]
      rw [hj] at ht
      obtain ⟨ta, tb, h1, h2, _⟩ := unescape_path_slash _ a.length a t (le_refl _) ht
      rcases List.mem_cons.1 he with h | h
      · subst h; exact ⟨ta, h1⟩
      · exact ih tb h2 e h

/-- The elements of a path that can be unescaped can be unescaped. -/
theorem unescape_splitByte (s t : GoString) (h : url.unescape s .encodePath = .ok t) :
    ∀ e ∈ url.splitByte s (ch '/'), ∃ te, url.unescape e .encodePath = .ok te := by
  apply unescape_joinElems _ t
  rw [joinElems_splitByte]
  exact h

/-- Elements that can be unescaped, each after a slash, with or without a
last slash, can be unescaped together. -/
theorem unescape_stack (st : List GoString) (tail : GoString)
    (hst : ∀ e ∈ st, ∃ te, url.unescape e .encodePath = .ok te)
    (htail : tail = [] ∨ tail = [ch '/']) :
    ∃ t, url.unescape (st.flatMap (fun x => ch '/' :: x) ++ tail) .encodePath = .ok t := by
  induction st with
  | nil =>
    rcases htail with h | h <;> subst h
    · exact ⟨[], rfl⟩
    · exact ⟨[ch '/'], by decide⟩
  | cons a as ih =>
    obtain ⟨ta, hta⟩ := hst a (List.mem_cons_self _ _)
    obtain ⟨ty, hty⟩ := ih (fun e he => hst e (List.mem_cons_of_mem _ he))
    refine ⟨ch '/' :: (ta ++ ty), ?_⟩
    simp only [List.flatMap_cons, List.cons_append, List.append_assoc]
    rw [unescape_path_cons _ _ (by decide), unescape_path_append _ a.length a ta (le_refl _) hta,
      hty]

/-- What `setPath` stores when the path can be unescaped. -/
theorem setPathIgnoringError_ok (u : url.URL) (e p : GoString)
    (h : url.unescape e .encodePath = .ok p) :
    u.setPathIgnoringError e
      = { u with Path := p, RawPath := if e = url.escape p .encodePath then [] else e } := by
  simp [url.URL.setPathIgnoringError, url.URL.setPath, h]

/-- The escaped path of a URL whose path and raw path begin with a slash
begins with a slash. -/
theorem EscapedPath_slash (u : url.URL) (p : GoString) (hp : u.Path = ch '/' :: p)
    (hr : u.RawPath = [] ∨ ∃ r, u.RawPath = ch '/' :: r) :
    ∃ r, u.EscapedPath = ch '/' :: r := by
  unfold url.URL.EscapedPath
  by_cases h1 : u.RawPath ≠ [] ∧ url.validEncoded u.RawPath .encodePath = true ∧
      url.unescape u.RawPath .encodePath = .ok u.Path
  · rw [if_pos h1]
    rcases hr with h | h
    · exact absurd h h1.1
    · exact h
  · rw [if_neg h1]
    have h2 : ¬ u.Path = str "*" := by
      rw [hp]
      intro e
      simp [str, utf8EncodeRune, ch] at e
    rw [if_neg h2, hp, escape_cons]
    have : url.shouldEscape (ch '/') .encodePath = false := by decide
    simp only [this, Bool.false_eq_true, if_false]
    exact ⟨_, rfl⟩

/-- Resolving a relative path that goes down against the URL of a directory:
the scheme, the user information and the host of the base, no opaque part,
and a path that continues the path of the base. -/
theorem ResolveReference_descends (base ref : url.URL) (hbase : isDirectoryURL base = true)
    (href : isDescendingReference ref = true) (ho : ref.Opaque = []) :
    (base.ResolveReference ref).Scheme = base.Scheme ∧
    (base.ResolveReference ref).Opaque = [] ∧
    (base.ResolveReference ref).User = base.User ∧
    (base.ResolveReference ref).Host = base.Host ∧
    (base.ResolveReference ref).OmitHost = ref.OmitHost ∧
    (∃ t, (base.ResolveReference ref).Path = base.Path ++ t) ∧
    (∃ r, (base.ResolveReference ref).EscapedPath = ch '/' :: r) := by
  simp only [isDirectoryURL, Bool.and_eq_true, decide_eq_true_eq, List.all_eq_true, isBytes] at hbase
  obtain ⟨⟨⟨⟨⟨⟨hsch, hopq⟩, hport⟩, hbytes⟩, hpre⟩, hsuf⟩, hdots⟩ := hbase
  simp only [isDescendingReference, Bool.and_eq_true, decide_eq_true_eq, List.all_eq_true, isBytes,
    Option.isNone_iff_eq_none, Bool.not_eq_true'] at href
  obtain ⟨⟨⟨⟨⟨hrs, hrh⟩, hru⟩, hrb⟩, hrp⟩, hstay⟩ := href
  obtain ⟨q, hq⟩ := HasSuffix_byte base.EscapedPath (ch '/') hsuf
  obtain ⟨r, hr⟩ := HasPrefix_byte base.EscapedPath (ch '/') hpre
  have hhead : ref.EscapedPath.head? ≠ some (ch '/') := by
    cases hx : ref.EscapedPath with
    | nil => simp
    | cons x t =>
      intro e
      have : x = ch '/' := by simpa using e
      subst this
      rw [hx] at hrp
      simp [strings.HasPrefix, str, utf8EncodeRune, List.isPrefixOf, ch] at hrp
  obtain ⟨st, tail, hres, hmem, htail, hnil⟩ :=
    resolvePath_descends base.EscapedPath q r ref.EscapedPath hq hr hdots hhead hstay
  have hub := unescape_EscapedPath base (by simpa using hbytes)
  have hur := unescape_EscapedPath ref (by simpa using hrb)
  have helems := unescape_splitByte _ _ hur
  obtain ⟨tx, htx⟩ := unescape_stack st tail (fun e he => helems e (hmem e he)) htail
  -- the resolved path is the base path followed by a text
  have hshape : ∃ T, st.flatMap (fun x => ch '/' :: x) ++ tail = ch '/' :: T := by
    cases st with
    | nil => rw [hnil rfl]; exact ⟨[], rfl⟩
    | cons a as => exact ⟨a ++ (as.flatMap (fun x => ch '/' :: x) ++ tail), by simp⟩
  obtain ⟨T, hT⟩ := hshape
  rw [hT] at hres htx
  rw [unescape_path_cons _ _ (by decide)] at htx
  cases hTu : url.unescape T .encodePath with
  | error e => simp [hTu] at htx
  | ok tT =>
    have hres2 : url.resolvePath base.EscapedPath ref.EscapedPath = base.EscapedPath ++ T := by
      rw [hres, hq]
      simp
    have hun : url.unescape (url.resolvePath base.EscapedPath ref.EscapedPath) .encodePath
        = .ok (base.Path ++ tT) := by
      rw [hres2, unescape_path_append _ _ _ _ (le_refl _) hub, hTu]
    -- the path of the base begins with a slash
    have hbp : ∃ p, base.Path = ch '/' :: p := by
      rw [hr, unescape_path_cons _ _ (by decide)] at hub
      cases hx : url.unescape r .encodePath with
      | error e => simp [hx] at hub
      | ok tr =>
        rw [hx] at hub
        exact ⟨tr, (Except.ok.inj hub).symm⟩
    obtain ⟨p, hp⟩ := hbp
    have hc1 : ¬ (ref.Scheme ≠ [] ∨ ref.Host ≠ [] ∨ ref.User ≠ none) := by
      simp [hrs, hrh, hru]
    have hc2 : ¬ ref.Opaque ≠ [] := by simp [ho]
    have hc3 : ∀ P : Prop, ¬ (P ∧ base.Opaque ≠ []) := by
      intro P h
      exact h.2 hopq
    have hcore : base.ResolveReference ref
        = url.URL.setPathIgnoringError
            { (if ref.Path = [] ∧ (!ref.ForceQuery) = true ∧ ref.RawQuery = [] then
                if ref.Fragment = [] then
                  { ({ ref with Scheme := base.Scheme } : url.URL) with
                    RawQuery := base.RawQuery, Fragment := base.Fragment,
                    RawFragment := base.RawFragment }
                else { ({ ref with Scheme := base.Scheme } : url.URL) with
                       RawQuery := base.RawQuery }
              else ({ ref with Scheme := base.Scheme } : url.URL)) with
              Host := base.Host, User := base.User }
            (url.resolvePath base.EscapedPath ref.EscapedPath) := by
      unfold url.URL.ResolveReference
      rw [if_pos hrs, if_neg hc1, if_neg hc2, if_neg (hc3 _)]
    rw [hcore, setPathIgnoringError_ok _ _ _ hun]
    refine ⟨?_, ?_, ?_, ?_, ?_, ⟨tT, ?_⟩, ?_⟩
    · split_ifs <;> rfl
    · split_ifs <;> simp [ho]
    · split_ifs <;> rfl
    · split_ifs <;> rfl
    · split_ifs <;> rfl
    · split_ifs <;> rfl
    · apply EscapedPath_slash _ (p ++ tT)
      · show base.Path ++ tT = ch '/' :: (p ++ tT)
        rw [hp]
        rfl
      · show (if url.resolvePath base.EscapedPath ref.EscapedPath
              = url.escape (base.Path ++ tT) .encodePath then []
            else url.resolvePath base.EscapedPath ref.EscapedPath) = [] ∨
          ∃ r, (if url.resolvePath base.EscapedPath ref.EscapedPath
              = url.escape (base.Path ++ tT) .encodePath then []
            else url.resolvePath base.EscapedPath ref.EscapedPath) = ch '/' :: r
        by_cases hx : url.resolvePath base.EscapedPath ref.EscapedPath
            = url.escape (base.Path ++ tT) .encodePath
        · left
          rw [if_pos hx]
        · right
          refine ⟨r ++ T, ?_⟩
          rw [if_neg hx, hres2, hr]
          rfl

/-- The index `strings.Index` reports lies within the text. -/
theorem Index_le (s sub : GoString) (z : Nat) (h : strings.Index s sub = some z) :
    z ≤ s.length := by
  induction s generalizing z with
  | nil =>
    simp only [strings.Index] at h
    split_ifs at h
    simp at h
    omega
  | cons b s ih =>
    simp only [strings.Index] at h
    split_ifs at h
    · simp at h; omega
    · cases hx : strings.Index s sub with
      | none => simp [hx] at h
      | some z' =>
        rw [hx] at h
        simp at h
        have := ih z' hx
        simp
        omega

/-- The host `parseHost` reads from an escaped host is the host. -/
theorem parseHost_escape (h h' : GoString)
    (hp : url.parseHost (url.escape h .encodeHost) = .ok h') : h' = h := by
  have key : ∀ t, url.unescape (url.escape h .encodeHost) .encodePath = .ok t → t = h := by
    intro t ht
    obtain ⟨t', e1, e2⟩ := unescape_escape_inv .encodeHost (by decide) [] h t (by simpa using ht)
    simp [url.unescape] at e2
    subst e2
    simpa using e1
  have keyh : ∀ t, url.unescape (url.escape h .encodeHost) .encodeHost = .ok t → t = h :=
    fun t ht => key t (unescape_path_of .encodeHost (by decide) _ _ _ (le_refl _) ht)
  unfold url.parseHost at hp
  split_ifs at hp with h1
  · cases hl : strings.LastIndexByte (url.escape h .encodeHost) (ch ']') with
    | none => simp [hl] at hp
    | some i =>
      simp only [hl] at hp
      split_ifs at hp with h3
      cases hz : strings.Index ((url.escape h .encodeHost).take i) (str "%25") with
      | none =>
        simp only [hz] at hp
        exact keyh h' hp
      | some zone =>
        simp only [hz] at hp
        cases hu1 : url.unescape ((url.escape h .encodeHost).take zone) .encodeHost with
        | error e => simp [hu1] at hp
        | ok host1 =>
          cases hu2 : url.unescape (((url.escape h .encodeHost).take i).drop zone) .encodeZone with
          | error e => simp [hu1, hu2] at hp
          | ok host2 =>
            cases hu3 : url.unescape ((url.escape h .encodeHost).drop i) .encodeHost with
            | error e => simp [hu1, hu2, hu3] at hp
            | ok host3 =>
              simp only [hu1, hu2, hu3, Except.ok.injEq] at hp
              have p1 := unescape_path_of .encodeHost (by decide) _ _ _ (le_refl _) hu1
              have p2 := unescape_path_of .encodeZone (by decide) _ _ _ (le_refl _) hu2
              have p3 := unescape_path_of .encodeHost (by decide) _ _ _ (le_refl _) hu3
              have hzi : zone ≤ i := by
                have := Index_le _ _ _ hz
                simp only [List.length_take] at this
                omega
              have hsplit : url.escape h .encodeHost
                  = (url.escape h .encodeHost).take zone
                    ++ ((((url.escape h .encodeHost).take i).drop zone)
                    ++ (url.escape h .encodeHost).drop i) := by
                have e1 : (url.escape h .encodeHost).take zone
                    = ((url.escape h .encodeHost).take i).take zone := by
                  rw [List.take_take, Nat.min_eq_left hzi]
                rw [e1, ← List.append_assoc, List.take_append_drop, List.take_append_drop]
              have hall : url.unescape (url.escape h .encodeHost) .encodePath
                  = .ok (host1 ++ (host2 ++ host3)) := by
                conv_lhs => rw [hsplit]
                rw [unescape_path_append _ _ _ _ (le_refl _) p1,
                  unescape_path_append _ _ _ _ (le_refl _) p2, p3]
              rw [← hp, List.append_assoc]
              exact key _ hall
  · cases hl : strings.LastIndexByte (url.escape h .encodeHost) (ch ':') with
    | none =>
      simp only [hl] at hp
      exact keyh h' hp
    | some i =>
      simp only [hl] at hp
      split_ifs at hp with h3
      exact keyh h' hp

/-- An escaped host holds no "@", "/", "?" or "#". -/
theorem escape_host_not_mem (h : GoString) :
    ch '@' ∉ url.escape h .encodeHost ∧ ch '/' ∉ url.escape h .encodeHost ∧
    ch '?' ∉ url.escape h .encodeHost ∧ ch '#' ∉ url.escape h .encodeHost :=
  ⟨escape_not_mem _ _ _ (by decide) (by decide) (by decide) (by decide) (by decide) (by decide),
   escape_not_mem _ _ _ (by decide) (by decide) (by decide) (by decide) (by decide) (by decide),
   escape_not_mem _ _ _ (by decide) (by decide) (by decide) (by decide) (by decide) (by decide),
   escape_not_mem _ _ _ (by decide) (by decide) (by decide) (by decide) (by decide) (by decide)⟩

/-- The text of user information holds no "/", "?" or "#". -/
theorem Userinfo_String_not_mem (ui : url.Userinfo) :
    ch '/' ∉ ui.String ∧ ch '?' ∉ ui.String ∧ ch '#' ∉ ui.String := by
  have e := fun (s : GoString) (c : Nat) (h1 : url.shouldEscape c .encodeUserPassword = true)
      (h2 : c ≠ ch '%') (h3 : c ≠ ch '+') (h4 : c ≠ 0) (h5 : ¬ (48 ≤ c ∧ c ≤ 57))
      (h6 : ¬ (65 ≤ c ∧ c ≤ 70)) => escape_not_mem s .encodeUserPassword c h1 h2 h3 h4 h5 h6
  unfold url.Userinfo.String
  refine ⟨?_, ?_, ?_⟩ <;>
  · intro hm
    rcases List.mem_append.1 hm with m | m
    · exact e _ _ (by decide) (by decide) (by decide) (by decide) (by decide) (by decide) m
    · split_ifs at m
      · rcases List.mem_cons.1 m with m | m
        · revert m; decide
        · exact e _ _ (by decide) (by decide) (by decide) (by decide) (by decide) (by decide) m
      · simp at m

/-- The authority text holds no "/", "?" or "#". -/
theorem authorityText_not_mem (user : Option url.Userinfo) (host : GoString) :
    ch '/' ∉ authorityText user host ∧ ch '?' ∉ authorityText user host ∧
    ch '#' ∉ authorityText user host := by
  obtain ⟨_, h1, h2, h3⟩ := escape_host_not_mem host
  unfold authorityText
  cases user with
  | none => simpa using ⟨h1, h2, h3⟩
  | some ui =>
    obtain ⟨u1, u2, u3⟩ := Userinfo_String_not_mem ui
    refine ⟨?_, ?_, ?_⟩ <;>
    · intro hm
      simp only [List.mem_append, List.mem_singleton] at hm
      rcases hm with (m | m) | m
      · first | exact u1 m | exact u2 m | exact u3 m
      · revert m; decide
      · first | exact h1 m | exact h2 m | exact h3 m

/-- The host `parseAuthority` reads from the authority text of a URL is the
host of the URL. -/
theorem parseAuthority_authorityText (user user' : Option url.Userinfo) (host host' : GoString)
    (h : url.parseAuthority (authorityText user host) = .ok (user', host')) : host' = host := by
  obtain ⟨hat, _, _, _⟩ := escape_host_not_mem host
  unfold url.parseAuthority at h
  cases user with
  | none =>
    have hA : authorityText none host = url.escape host .encodeHost := by simp [authorityText]
    rw [hA, LastIndexByte_absent _ _ hat] at h
    simp only at h
    cases hp : url.parseHost (url.escape host .encodeHost) with
    | error e => simp [hp] at h
    | ok hh =>
      rw [hp] at h
      simp only [Except.ok.injEq, Prod.mk.injEq] at h
      rw [← h.2]
      exact parseHost_escape host hh hp
  | some ui =>
    have hA : authorityText (some ui) host = ui.String ++ ch '@' :: url.escape host .encodeHost := by
      simp [authorityText]
    rw [hA, LastIndexByte_last _ _ _ hat] at h
    simp only at h
    have hd : (ui.String ++ ch '@' :: url.escape host .encodeHost).drop (ui.String.length + 1)
        = url.escape host .encodeHost := by
      rw [List.drop_append_eq_append_drop]
      simp
    rw [hd] at h
    cases hp : url.parseHost (url.escape host .encodeHost) with
    | error e => simp [hp] at h
    | ok hh =>
      rw [hp] at h
      simp only at h
      have hh' := parseHost_escape host hh hp
      split_ifs at h
      · split at h
        · simp at h
        · simp only [Except.ok.injEq, Prod.mk.injEq] at h
          rw [← h.2, hh']
      · split at h
        · simp at h
        · split at h
          · simp at h
          · simp only [Except.ok.injEq, Prod.mk.injEq] at h
            rw [← h.2, hh']

/-- A URL whose escaped path begins with a slash has a path. -/
theorem Path_ne_nil (u : url.URL) (r : GoString) (hp : u.EscapedPath = ch '/' :: r) :
    u.Path ≠ [] := by
  intro hn
  have hun : ∀ t, url.unescape u.EscapedPath .encodePath = .ok t → t = [] := by
    intro t ht
    rw [← hn]
    exact unescape_EscapedPath_inv u t ht
  have hb : ∀ c ∈ u.Path, c < 256 := by rw [hn]; simp
  have h1 := unescape_EscapedPath u hb
  rw [hp, unescape_path_cons _ _ (by decide)] at h1
  cases hx : url.unescape r .encodePath with
  | error e => simp [hx] at h1
  | ok t =>
    rw [hx, hn] at h1
    simp at h1

/-- The text of a URL with a scheme, no opaque part and an escaped path that
begins with a slash: the scheme, "://", the authority, the escaped path, the
query and the fragment. -/
theorem String_directory (u : url.URL) (r : GoString) (hs : u.Scheme ≠ []) (ho : u.Opaque = [])
    (hom : u.OmitHost = false) (hp : u.EscapedPath = ch '/' :: r) :
    u.String = u.Scheme ++ ch ':' :: ch '/' :: ch '/' ::
      (authorityText u.User u.Host ++ (u.EscapedPath ++ queryFragmentText u)) := by
  have hpne := Path_ne_nil u r hp
  have hesc : (if u.Host ≠ [] then url.escape u.Host .encodeHost else [])
      = url.escape u.Host .encodeHost := by
    by_cases hh : u.Host = []
    · rw [hh]; rfl
    · rw [if_pos hh]
  unfold url.URL.String
  simp only [hs, ho, hom, hpne, hesc, hp, ne_eq, not_false_eq_true, if_true, not_true_eq_false,
    if_false, true_or, or_true, false_and, List.head?_cons, List.cons_ne_nil, and_false,
    List.append_eq_nil, and_self]
  unfold authorityText queryFragmentText
  cases hu : u.User <;> simp [str, utf8EncodeRune, ch] <;> split_ifs <;> simp

/-- Cutting at a byte that does not occur in the first part of a text. -/
theorem Cut_append_absent (a b : GoString) (c : Nat) (h : c ∉ a) :
    strings.Cut (a ++ b) c = (a ++ (strings.Cut b c).1, (strings.Cut b c).2.1,
      (strings.Cut b c).2.2) := by
  induction a with
  | nil => simp
  | cons x a ih =>
    have hx : x ≠ c := fun e => h (e ▸ List.mem_cons_self _ _)
    have ha : c ∉ a := fun m => h (List.mem_cons_of_mem _ m)
    simp [strings.Cut, hx, ih ha]

/-- The text before the query, as `parse` takes it: with or without a query
after it, a text without a question mark is what remains. -/
theorem query_cut (y q : GoString) (hy : ch '?' ∉ y) (hq : q = [] ∨ ∃ x, q = ch '?' :: x) :
    (if (strings.HasSuffix (y ++ q) (str "?") && decide (strings.CountByte (y ++ q) (ch '?') = 1))
        = true
      then (y ++ q).take ((y ++ q).length - 1) else (strings.Cut (y ++ q) (ch '?')).1) = y := by
  rcases hq with h | ⟨x, h⟩
  · subst h
    simp only [List.append_nil]
    have h1 : strings.HasSuffix y (str "?") = false := HasSuffix_absent y _ hy
    rw [h1]
    simp [Cut_absent y _ hy]
  · subst h
    have hcut : strings.Cut (y ++ ch '?' :: x) (ch '?') = (y, x, true) := Cut_first y x _ hy
    by_cases hf : (strings.HasSuffix (y ++ ch '?' :: x) (str "?") &&
        decide (strings.CountByte (y ++ ch '?' :: x) (ch '?') = 1)) = true
    · rw [if_pos hf]
      simp only [Bool.and_eq_true, decide_eq_true_eq] at hf
      have hcount : x.count (ch '?') = 0 := by
        have := hf.2
        simp only [strings.CountByte, List.count_append, List.count_cons_self] at this
        have h0 : y.count (ch '?') = 0 := List.count_eq_zero.2 hy
        omega
      have hx : x = [] := by
        cases hx : x with
        | nil => rfl
        | cons a as =>
          subst hx
          obtain ⟨w, hw⟩ := HasSuffix_byte _ _ hf.1
          have hl : (y ++ ch '?' :: a :: as).getLast? = some (ch '?') := by
            rw [hw]; simp [ch]
          have hl2 : (y ++ ch '?' :: a :: as).getLast? = (a :: as).getLast? := by
            have : y ++ ch '?' :: a :: as = (y ++ [ch '?']) ++ (a :: as) := by simp
            rw [this, List.getLast?_append_of_ne_nil _ (by simp)]
          rw [hl2] at hl
          have hm := List.mem_of_getLast?_eq_some hl
          exact absurd hm (List.count_eq_zero.1 hcount)
      subst hx
      simp
    · rw [if_neg hf, hcut]

/-- A text that begins with a scheme and a colon is not "*". -/
theorem scheme_text_ne_star (sch rest : GoString) (hs : sch ≠ []) :
    sch ++ ch ':' :: rest ≠ str "*" := by
  intro e
  have hlen := congrArg List.length e
  cases sch with
  | nil => exact hs rfl
  | cons a as =>
    simp [str, utf8EncodeRune] at hlen

/-- What `parse` reads from the text of a URL with a scheme and an
authority: the scheme, the host of the authority, and the unescaped path. -/
theorem parse_directory_text (sch A P q r : GoString) (v : url.URL)
    (hsch : isLowerScheme sch = true) (hA1 : ch '/' ∉ A) (hA2 : ch '?' ∉ A)
    (hP : P = ch '/' :: r) (hPq : ch '?' ∉ P) (hq : q = [] ∨ ∃ x, q = ch '?' :: x)
    (hv : url.parse (sch ++ ch ':' :: ch '/' :: ch '/' :: (A ++ (P ++ q))) = .ok v) :
    v.Scheme = sch ∧
    ∃ user host, url.parseAuthority A = .ok (user, host) ∧ v.Host = host ∧
      url.unescape P .encodePath = .ok v.Path := by
  obtain ⟨hfirst, hsb⟩ := isLowerScheme_spec sch hsch
  have hschne : sch ≠ [] := by
    obtain ⟨c, t, e, _⟩ := hfirst
    rw [e]; simp
  have hstar := scheme_text_ne_star sch (ch '/' :: ch '/' :: (A ++ (P ++ q))) hschne
  have hscheme : url.getScheme (sch ++ ch ':' :: ch '/' :: ch '/' :: (A ++ (P ++ q)))
      = .ok (sch, ch '/' :: ch '/' :: (A ++ (P ++ q))) := by
    have := getSchemeLoop_scheme (sch ++ ch ':' :: ch '/' :: ch '/' :: (A ++ (P ++ q))) sch
      (ch '/' :: ch '/' :: (A ++ (P ++ q))) 0 hsb (fun _ => hfirst)
    simpa [url.getScheme] using this
  have hlower := ToLower_scheme sch hsb
  have hy : ch '?' ∉ ch '/' :: ch '/' :: (A ++ P) := by
    intro m
    simp only [List.mem_cons, List.mem_append] at m
    rcases m with e | e | m | m
    · revert e; decide
    · revert e; decide
    · exact hA2 m
    · exact hPq m
  have hre : ch '/' :: ch '/' :: (A ++ (P ++ q)) = (ch '/' :: ch '/' :: (A ++ P)) ++ q := by
    simp
  have hrest1 := query_cut (ch '/' :: ch '/' :: (A ++ P)) q hy hq
  rw [← hre] at hrest1
  have hpre1 : strings.HasPrefix (ch '/' :: ch '/' :: (A ++ P)) (str "/") = true := by
    simp [strings.HasPrefix, str, utf8EncodeRune, ch]
  have hpre2 : strings.HasPrefix (ch '/' :: ch '/' :: (A ++ P)) (str "//") = true := by
    simp [strings.HasPrefix, str, utf8EncodeRune, ch]
  have hidx : strings.IndexByte (A ++ P) (ch '/') = some A.length := by
    rw [hP]; exact IndexByte_first A r _ hA1
  unfold url.parse at hv
  split_ifs at hv with hctl
  simp only [hscheme, hlower] at hv
  simp only [hrest1, hpre1, hpre2, hschne, ne_eq, not_false_eq_true, Bool.not_true,
    Bool.false_eq_true, false_and, if_false, true_or, and_self, if_true,
    List.drop_succ_cons, List.drop_zero, hidx, List.take_left', List.drop_left'] at hv
  cases hauth : url.parseAuthority A with
  | error e =>
    by_cases hfq : (strings.HasSuffix (ch '/' :: ch '/' :: (A ++ (P ++ q))) (str "?") &&
        decide (strings.CountByte (ch '/' :: ch '/' :: (A ++ (P ++ q))) (ch '?') = 1)) = true
    · simp [hfq, hschne, hauth] at hv
    · simp [hfq, hschne, hauth] at hv
  | ok uh =>
    obtain ⟨user, host⟩ := uh
    by_cases hfq : (strings.HasSuffix (ch '/' :: ch '/' :: (A ++ (P ++ q))) (str "?") &&
        decide (strings.CountByte (ch '/' :: ch '/' :: (A ++ (P ++ q))) (ch '?') = 1)) = true
    · cases hun : url.unescape P .encodePath with
      | error e => simp [hfq, hschne, hauth, url.URL.setPath, hun] at hv
      | ok p =>
        simp only [hfq, if_true, hschne, not_false_eq_true, true_or, and_self, hauth,
          url.URL.setPath, hun, Except.ok.injEq, ↓reduceIte] at hv
        subst hv
        exact ⟨rfl, user, host, rfl, rfl, rfl⟩
    · cases hun : url.unescape P .encodePath with
      | error e => simp [hfq, hschne, hauth, url.URL.setPath, hun] at hv
      | ok p =>
        simp only [hfq, if_false, hschne, not_false_eq_true, true_or, and_self, hauth,
          url.URL.setPath, hun, Except.ok.injEq, Bool.false_eq_true, ↓reduceIte] at hv
        subst hv
        exact ⟨rfl, user, host, rfl, rfl, rfl⟩

/-- The query and the fragment text up to the number sign: nothing, or a
question mark and a text. -/
theorem queryFragmentText_cut (u : url.URL) :
    (strings.Cut (queryFragmentText u) (ch '#')).1 = [] ∨
    ∃ x, (strings.Cut (queryFragmentText u) (ch '#')).1 = ch '?' :: x := by
  unfold queryFragmentText
  by_cases hq : u.ForceQuery = true ∨ u.RawQuery ≠ []
  · right
    rw [if_pos hq]
    have hne : ch '?' ≠ ch '#' := by decide
    simp only [List.cons_append, strings.Cut, if_neg hne]
    exact ⟨_, rfl⟩
  · left
    rw [if_neg hq]
    by_cases hf : u.Fragment ≠ []
    · rw [if_pos hf]
      simp [strings.Cut]
    · rw [if_neg hf]
      simp [strings.Cut]

/-- Reading the text of a URL back: for a URL with a lower-case scheme, no
opaque part and an escaped path that begins with a slash, what `Parse` reads
from its text has the scheme, the host and the path of the URL. -/
theorem Parse_String_directory (u v : url.URL) (r : GoString)
    (hs : isLowerScheme u.Scheme = true) (ho : u.Opaque = []) (hom : u.OmitHost = false)
    (hp : u.EscapedPath = ch '/' :: r) (hv : url.Parse u.String = .ok v) :
    v.Scheme = u.Scheme ∧ v.Host = u.Host ∧ v.Path = u.Path := by
  obtain ⟨hfirst, hsb⟩ := isLowerScheme_spec u.Scheme hs
  have hschne : u.Scheme ≠ [] := by
    obtain ⟨c, t, e, _⟩ := hfirst
    rw [e]; simp
  obtain ⟨hA1, hA2, hA3⟩ := authorityText_not_mem u.User u.Host
  obtain ⟨hP1, hP2⟩ := EscapedPath_not_mem u
  have hX : ch '#' ∉ u.Scheme ++ ch ':' :: ch '/' :: ch '/' ::
      (authorityText u.User u.Host ++ u.EscapedPath) := by
    intro m
    simp only [List.mem_append, List.mem_cons] at m
    rcases m with m | e | e | e | m | m
    · have := (schemeByte_not _ (hsb _ m)).2.2.1
      exact this rfl
    · revert e; decide
    · revert e; decide
    · revert e; decide
    · exact hA3 m
    · exact hP2 m
  have hstr : u.String = (u.Scheme ++ ch ':' :: ch '/' :: ch '/' ::
      (authorityText u.User u.Host ++ u.EscapedPath)) ++ queryFragmentText u := by
    rw [String_directory u r hschne ho hom hp]
    simp
  have hcut := Cut_append_absent _ (queryFragmentText u) _ hX
  rw [← hstr] at hcut
  have hcut1 : (strings.Cut u.String (ch '#')).1 = u.Scheme ++ ch ':' :: ch '/' :: ch '/' ::
      (authorityText u.User u.Host ++ (u.EscapedPath ++
        (strings.Cut (queryFragmentText u) (ch '#')).1)) := by
    rw [hcut]
    simp
  have main : ∀ v', url.parse (strings.Cut u.String (ch '#')).1 = .ok v' →
      v'.Scheme = u.Scheme ∧ v'.Host = u.Host ∧ v'.Path = u.Path := by
    intro v' hv'
    rw [hcut1] at hv'
    obtain ⟨h1, user, host, h2, h3, h4⟩ := parse_directory_text u.Scheme
      (authorityText u.User u.Host) u.EscapedPath _ r v' hs hA1 hA2 hp hP1
      (queryFragmentText_cut u) hv'
    refine ⟨h1, ?_, ?_⟩
    · rw [h3]
      exact parseAuthority_authorityText _ _ _ _ h2
    · exact unescape_EscapedPath_inv u _ h4
  unfold url.Parse at hv
  simp only at hv
  cases hpr : url.parse (strings.Cut u.String (ch '#')).1 with
  | error e => simp [hpr] at hv
  | ok v' =>
    have hm := main v' hpr
    rw [hpr] at hv
    simp only at hv
    split_ifs at hv
    · simp only [Except.ok.injEq] at hv
      subst hv
      exact hm
    · unfold url.URL.setFragment at hv
      cases hf : url.unescape (strings.Cut u.String (ch '#')).2.1 .encodeFragment with
      | error e => simp [hf] at hv
      | ok frag =>
        simp only [hf, Except.ok.injEq] at hv
        subst hv
        exact hm

/-- What `setPath` changes: the path and the raw path. -/
theorem setPath_fields (u v : url.URL) (p : GoString) (h : u.setPath p = .ok v) :
    v.Scheme = u.Scheme ∧ v.Opaque = u.Opaque ∧ v.OmitHost = u.OmitHost := by
  unfold url.URL.setPath at h
  cases hx : url.unescape p .encodePath with
  | error e => simp [hx] at h
  | ok t =>
    simp only [hx, Except.ok.injEq] at h
    subst h
    exact ⟨rfl, rfl, rfl⟩

/-- A reference that `parse` reads without a scheme has no opaque part and
keeps its host. -/
theorem parse_no_scheme (s : GoString) (ref : url.URL) (h : url.parse s = .ok ref)
    (hs : ref.Scheme = []) : ref.Opaque = [] ∧ ref.OmitHost = false := by
  unfold url.parse at h
  split_ifs at h with h1 h2
  · simp only [Except.ok.injEq] at h
    subst h
    exact ⟨rfl, rfl⟩
  · cases hg : url.getScheme s with
    | error e => simp [hg] at h
    | ok sr =>
      obtain ⟨scheme, rest0⟩ := sr
      simp only [hg] at h
      have key : ∀ (url0 : url.URL) (rest1 : GoString), url0.Scheme = strings.ToLower scheme →
          url0.Opaque = [] → url0.OmitHost = false →
          (if (!strings.HasPrefix rest1 (str "/")) = true ∧ url0.Scheme ≠ [] then
            (.ok { url0 with Opaque := rest1 } : Except url.ParseError url.URL)
          else if (!strings.HasPrefix rest1 (str "/")) = true ∧
              strings.ContainsByte (strings.Cut rest1 (ch '/')).1 (ch ':') = true then
            .error .firstPathSegmentColon
          else if (url0.Scheme ≠ [] ∨ (!strings.HasPrefix rest1 (str "///")) = true) ∧
              strings.HasPrefix rest1 (str "//") = true then
            match url.parseAuthority (match strings.IndexByte (rest1.drop 2) (ch '/') with
                | some i => (rest1.drop 2).take i
                | none => rest1.drop 2) with
            | .error e => .error e
            | .ok (user, host) =>
              url.URL.setPath { url0 with User := user, Host := host }
                (match strings.IndexByte (rest1.drop 2) (ch '/') with
                  | some i => (rest1.drop 2).drop i
                  | none => [])
          else if url0.Scheme ≠ [] ∧ strings.HasPrefix rest1 (str "/") = true then
            url.URL.setPath { url0 with OmitHost := true } rest1
          else
            url.URL.setPath url0 rest1) = .ok ref →
          ref.Opaque = [] ∧ ref.OmitHost = false := by
        intro url0 rest1 h0s h0o h0m hb
        split_ifs at hb with c1 c2 c3 c4
        · simp only [Except.ok.injEq] at hb
          subst hb
          exact absurd hs c1.2
        · cases hpa : url.parseAuthority (match strings.IndexByte (rest1.drop 2) (ch '/') with
              | some i => (rest1.drop 2).take i
              | none => rest1.drop 2) with
          | error e => simp [hpa] at hb
          | ok uh =>
            obtain ⟨user, host⟩ := uh
            simp only [hpa] at hb
            obtain ⟨e1, e2, e3⟩ := setPath_fields _ _ _ hb
            exact ⟨e2.trans h0o, e3.trans h0m⟩
        · obtain ⟨e1, e2, e3⟩ := setPath_fields _ _ _ hb
          exact absurd (e1.symm.trans hs) c4.1
        · obtain ⟨e1, e2, e3⟩ := setPath_fields _ _ _ hb
          exact ⟨e2.trans h0o, e3.trans h0m⟩
      by_cases hfq : (strings.HasSuffix rest0 (str "?") &&
          decide (strings.CountByte rest0 (ch '?') = 1)) = true
      · simp only [hfq, ↓reduceIte] at h
        exact key { Scheme := strings.ToLower scheme, ForceQuery := true }
          (rest0.take (rest0.length - 1)) rfl rfl rfl h
      · simp only [hfq, ↓reduceIte, Bool.false_eq_true] at h
        exact key { Scheme := strings.ToLower scheme, RawQuery := (strings.Cut rest0 (ch '?')).2.1 }
          (strings.Cut rest0 (ch '?')).1 rfl rfl rfl h

/-- A reference that `Parse` reads without a scheme has no opaque part and
keeps its host. -/
theorem Parse_no_scheme (s : GoString) (ref : url.URL) (h : url.Parse s = .ok ref)
    (hs : ref.Scheme = []) : ref.Opaque = [] ∧ ref.OmitHost = false := by
  unfold url.Parse at h
  simp only at h
  cases hp : url.parse (strings.Cut s (ch '#')).1 with
  | error e => simp [hp] at h
  | ok v =>
    rw [hp] at h
    simp only at h
    split_ifs at h
    · simp only [Except.ok.injEq] at h
      subst h
      exact parse_no_scheme _ _ hp hs
    · unfold url.URL.setFragment at h
      cases hf : url.unescape (strings.Cut s (ch '#')).2.1 .encodeFragment with
      | error e => simp [hf] at h
      | ok frag =>
        simp only [hf, Except.ok.injEq] at h
        subst h
        exact parse_no_scheme _ v hp hs

/-- A request built for a relative path going down, on a directory base, has
the scheme and the host of the base and a path under the base path. -/
theorem NewRequest_descends (c : Client) (method urlStr : GoString)
    (body : Option GoValue) (req : http.Request) (hbase : isDirectoryURL c.BaseURL = true)
    (hrel : descends urlStr = true) (h : c.NewRequest method urlStr body = .ok req) :
    req.URL.Scheme = c.BaseURL.Scheme ∧ req.URL.Host = c.BaseURL.Host ∧
    strings.HasPrefix req.URL.Path c.BaseURL.Path = true := by
  obtain ⟨_, u, buf, r0, hu, _, hr0, hreq⟩ := Client_NewRequest_ok c method urlStr body req h
  unfold descends at hrel
  unfold url.URL.Parse at hu
  cases hp : url.Parse urlStr with
  | error e => simp [hp] at hrel
  | ok ref =>
    simp only [hp] at hrel hu
    have hu := (Except.ok.inj hu).symm
    have hsch : ref.Scheme = [] := by
      simp only [isDescendingReference, Bool.and_eq_true, decide_eq_true_eq] at hrel
      exact hrel.1.1.1.1.1
    obtain ⟨hopq, hom⟩ := Parse_no_scheme urlStr ref hp hsch
    obtain ⟨e1, e2, _, e4, e5, ⟨t, e6⟩, ⟨r, e7⟩⟩ :=
      ResolveReference_descends c.BaseURL ref hbase hrel hopq
    rw [← hu] at e1 e2 e4 e5 e6 e7
    obtain ⟨u2, hu2, hr2⟩ := http_NewRequest_ok method _ buf r0 hr0
    have hbase2 := hbase
    simp only [isDirectoryURL, Bool.and_eq_true, decide_eq_true_eq] at hbase2
    obtain ⟨⟨⟨⟨⟨⟨hls, _⟩, hport⟩, _⟩, _⟩, _⟩, _⟩ := hbase2
    obtain ⟨f1, f2, f3⟩ := Parse_String_directory u u2 r (by rw [e1]; exact hls) e2
      (by rw [e5]; exact hom) e7 hu2
    have hurl : req.URL = r0.URL := by
      rw [hreq]
      cases body <;> rfl
    rw [hurl, hr2]
    refine ⟨f1.trans e1, ?_, ?_⟩
    · show http.removeEmptyPort u2.Host = c.BaseURL.Host
      rw [f2, e4, hport]
    · show strings.HasPrefix u2.Path c.BaseURL.Path = true
      rw [f3, e6]
      simp [strings.HasPrefix]

/-- Relative paths that go down: with a query, with a fragment, with a
percent escape, with a space, ".", a ".." that stays inside, the empty text,
a query alone, an empty element and a first element that holds a colon. -/
theorem descends_examples :
    descends (str "business-units/find?name=trustpilot.com") = true ∧
    descends (str "reviews/latest#top") = true ∧
    descends (str "a%20b") = true ∧
    descends (str "a b") = true ∧
    descends (str ".") = true ∧
    descends (str "a/../b") = true ∧
    descends (str "a/..") = true ∧
    descends [] = true ∧
    descends (str "?page=2") = true ∧
    descends (str "a//b") = true ∧
    descends (str "./a:b") = true := by
  refine ⟨by decide, by decide, by decide, by decide, by decide, by decide, by decide, by decide,
    by decide, by decide, by decide⟩

/-- Texts that are not relative paths going down: a leading slash, a ".."
that climbs, an escaped leading slash, an escaped "..", a host and a scheme. -/
theorem descends_not_examples :
    descends (str "/v1/reviews/latest") = false ∧
    descends (str "../../reviews/latest") = false ∧
    descends (str "a/../../b") = false ∧
    descends (str "%2Fa b") = false ∧
    descends (str "%2E%2E/a b") = false ∧
    descends (str "//evil.example/x") = false ∧
    descends (str "https://evil.example/x") = false := by
  refine ⟨by decide, by decide, by decide, by decide, by decide, by decide, by decide⟩

/-- Directory URLs: the base of the tests, a numeric IPv6 host with a port,
an IPv6 host with a zone, user information, a query and a fragment, an
escaped path and a host outside ASCII. -/
theorem isDirectoryURL_examples :
    isDirectoryURL testClient.BaseURL = true ∧
    isDirectoryURL (clientAt (str "https://api.trustpilot.com/v1/")).BaseURL = true ∧
    isDirectoryURL (clientAt (str "http://[::1]:8080/v1/")).BaseURL = true ∧
    isDirectoryURL (clientAt (str "http://[fe80::1%25en0]:8080/v1/")).BaseURL = true ∧
    isDirectoryURL (clientAt (str "http://user:pw@example.com/v1/")).BaseURL = true ∧
    isDirectoryURL (clientAt (str "http://localhost/v1/?k=v#frag")).BaseURL = true ∧
    isDirectoryURL (clientAt (str "http://localhost/a%20b/")).BaseURL = true ∧
    isDirectoryURL (clientAt (str "http://localhost/a%2Fb/")).BaseURL = true := by
  refine ⟨by decide, by decide, by decide, by decide, by decide, by decide, by decide, by decide⟩

/-- Each condition on the base URL and on the reference is there for a
reason: without it the request leaves the base although the base path ends in
"/". An escaped leading slash and an escaped ".." next to a space are read as
a leading slash and as ".."; a reference with a host replaces the host; an
empty port of the base is removed from the host; an escaped slash at the end
of the base path is no directory; a "." element of the base path is removed. -/
theorem leaves_base_examples :
    requestURL testClient (str "%2Fa b")
      = some { testClient.BaseURL with Path := str "/a b" } ∧
    requestURL testClient (str "%2E%2E/a b")
      = some { testClient.BaseURL with Path := str "/v1/oauth/a b" } ∧
    requestURL testClient (str "//evil.example/x")
      = some { testClient.BaseURL with Host := str "evil.example", Path := str "/x" } ∧
    ((clientAt (str "http://localhost:/v1/")).BaseURL.Host = str "localhost:" ∧
      (requestURL (clientAt (str "http://localhost:/v1/")) (str "x")).map (fun u => u.Host)
        = some (str "localhost")) ∧
    ((clientAt (str "http://localhost/v1%2F")).BaseURL.Path = str "/v1/" ∧
      (requestURL (clientAt (str "http://localhost/v1%2F")) (str "x")).map (fun u => u.Path)
        = some (str "/x")) ∧
    ((clientAt (str "http://localhost/a/./v1/")).BaseURL.Path = str "/a/./v1/" ∧
      (requestURL (clientAt (str "http://localhost/a/./v1/")) (str "x")).map (fun u => u.Path)
        = some (str "/a/v1/x")) := by
  refine ⟨by decide, by decide, by decide, ⟨by decide, by decide⟩, ⟨by decide, by decide⟩,
    ⟨by decide, by decide⟩⟩

/-! ## Requests stay under the base URL -/

/-- C2, counterexample: on the test client, whose base path ends in "/", the
relative paths "/v1/reviews/latest" and "../../reviews/latest" give a request
whose URL path is "/v1/reviews/latest", which does not have the base path
"/v1/oauth/oauth-business-users-for-applications/" as a prefix. -/
theorem NewRequest_leaves_base_counterexample :
    strings.HasSuffix testClient.BaseURL.Path (str "/") = true ∧
    testClient.NewRequest (str "GET") (str "/v1/reviews/latest") none = .ok escapedRequest ∧
    testClient.NewRequest (str "GET") (str "../../reviews/latest") none = .ok escapedRequest ∧
    strings.HasPrefix escapedRequest.URL.Path testClient.BaseURL.Path = false := by
  refine ⟨by decide, by decide, by decide, by decide⟩

/-- C2, amended: take a client whose base URL is a directory URL (a
lower-case scheme, no opaque part, a host without an empty port, an escaped
path that begins and ends with "/" and has no "." or ".." element; user
information, an IPv6 host, a query and a fragment may be present) and a text
that `url.Parse` reads as a relative path going down (no scheme, no host, no
user information, an escaped path without a leading slash whose ".." elements
never climb above its start; a query, a fragment, percent escapes, "." and the
empty path may be present). Then every request `NewRequest` returns has the
scheme and the host of the base URL, and the base path is a prefix of its
path. For a plain base and a plain relative path, moreover, the path of the
request is the base path followed by the relative path, and for a nil body
and a valid method `NewRequest` does return a request. -/
theorem NewRequest_stays_under_base (c : Client) (method urlStr : GoString)
    (body : Option GoValue) :
    (isDirectoryURL c.BaseURL = true → descends urlStr = true →
      ∀ req, c.NewRequest method urlStr body = .ok req →
        req.URL.Scheme = c.BaseURL.Scheme ∧ req.URL.Host = c.BaseURL.Host ∧
        strings.HasPrefix req.URL.Path c.BaseURL.Path = true) ∧
    (isPlainBase c.BaseURL = true → isPlainRelative urlStr = true →
      (∀ req, c.NewRequest method urlStr body = .ok req →
        req.URL.Scheme = c.BaseURL.Scheme ∧ req.URL.Host = c.BaseURL.Host ∧
        req.URL.Path = c.BaseURL.Path ++ urlStr ∧
        strings.HasPrefix req.URL.Path c.BaseURL.Path = true) ∧
      (http.validMethod (if method = [] then str "GET" else method) = true → body = none →
        ∃ req, c.NewRequest method urlStr body = .ok req)) :=
  ⟨fun hbase hrel req h => NewRequest_descends c method urlStr body req hbase hrel h,
   fun hbase hrel => NewRequest_plain_relative c method urlStr body hbase hrel⟩

/-- Witness of C2 (amended): the test client with a relative path that
carries a query, and with the plain path "reviews/latest". -/
theorem NewRequest_stays_under_base_witness :
    (isDirectoryURL testClient.BaseURL = true ∧
      descends (str "business-units/find?name=trustpilot.com") = true ∧
      testClient.NewRequest (str "GET") (str "business-units/find?name=trustpilot.com") none
        = .ok findRequest ∧
      findRequest.URL.Scheme = testClient.BaseURL.Scheme ∧
      findRequest.URL.Host = testClient.BaseURL.Host ∧
      strings.HasPrefix findRequest.URL.Path testClient.BaseURL.Path = true) ∧
    (isPlainBase testClient.BaseURL = true ∧ isPlainRelative (str "reviews/latest") = true ∧
      testClient.NewRequest (str "GET") (str "reviews/latest") none = .ok latestRequest ∧
      latestRequest.URL.Path = testClient.BaseURL.Path ++ str "reviews/latest") :=
  ⟨⟨by decide, by decide, by decide,
    (NewRequest_stays_under_base testClient (str "GET")
      (str "business-units/find?name=trustpilot.com") none).1 (by decide) (by decide)
      findRequest (by decide)⟩,
   ⟨by decide, by decide, by decide,
    (((NewRequest_stays_under_base testClient (str "GET") (str "reviews/latest") none).2
      (by decide) (by decide)).1 latestRequest (by decide)).2.2.1⟩⟩

/-! ## The authorization redirect -/

/-- C8, the code at the failing input: for the redirect URL
"https://www.clientsSite.com/?a=1&b=2" the request `AuthorizationCode` builds
carries `redirect_uri` equal to "https://www.clientsSite.com/?a=1" and a
further parameter `b`, in both modes of `isTEST`; for
"https://www.clientsSite.com/#done" it carries `redirect_uri` equal to
"https://www.clientsSite.com/". -/
theorem authorizationCodeRequest_unescaped_query :
    queryParameter (AuthorizationsService.authorizationCodeRequest true testClient
        (str "https://www.clientsSite.com/?a=1&b=2")) (str "redirect_uri")
      = some (str "https://www.clientsSite.com/?a=1") ∧
    queryParameter (AuthorizationsService.authorizationCodeRequest false testClient
        (str "https://www.clientsSite.com/?a=1&b=2")) (str "redirect_uri")
      = some (str "https://www.clientsSite.com/?a=1") ∧
    queryParameter (AuthorizationsService.authorizationCodeRequest false testClient
        (str "https://www.clientsSite.com/?a=1&b=2")) (str "b") = some (str "2") ∧
    queryParameter (AuthorizationsService.authorizationCodeRequest true testClient
        (str "https://www.clientsSite.com/#done")) (str "redirect_uri")
      = some (str "https://www.clientsSite.com/") := by
  refine ⟨by decide, by decide, by decide, by decide⟩

/-! ## Decoding the token response -/

/-- Assigning a field and reading a field. -/
theorem Authorization_get_set (a : Authorization) (f g : AuthorizationField)
    (v : Option GoString) :
    (a.set f v).get g = if g = f then v else a.get g := by
  cases f <;> cases g <;> simp [Authorization.set, Authorization.get]

/-- Decoding members with string values: no error is saved and each field
ends as `fieldAfter` says. -/
theorem decode_stringMembers (members : List (GoString × json.Value)) (a : Authorization)
    (h : stringMembers members) :
    (members.foldl decodeMember (a, none)).2 = none ∧
    ∀ f, (members.foldl decodeMember (a, none)).1.get f = fieldAfter a members f := by
  induction members generalizing a with
  | nil =>
    refine ⟨rfl, fun f => ?_⟩
    simp [fieldAfter]
  | cons m ms ih =>
    obtain ⟨k, v⟩ := m
    have hm := h (k, v) (List.mem_cons_self _ _)
    have hms : stringMembers ms := fun x hx => h x (List.mem_cons_of_mem _ hx)
    rw [List.foldl_cons]
    cases hf : Authorization.fieldFor k with
    | none =>
      have hstep : decodeMember (a, none) (k, v) = (a, none) := by simp [decodeMember, hf]
      rw [hstep]
      refine ⟨(ih a hms).1, fun f => ?_⟩
      rw [(ih a hms).2 f]
      simp only [fieldAfter, List.reverse_cons, List.find?_append]
      cases hfind : ms.reverse.find? (fun x => Authorization.fieldFor x.1 = some f) with
      | some x => simp
      | none => simp [hf]
    | some g =>
      obtain ⟨s, hs⟩ := hm g hf
      simp only at hs
      subst hs
      have hstep : decodeMember (a, none) (k, .string s) = (a.set g (some s), none) := by
        simp [decodeMember, hf]
      rw [hstep]
      refine ⟨(ih _ hms).1, fun f => ?_⟩
      rw [(ih _ hms).2 f]
      simp only [fieldAfter, List.reverse_cons, List.find?_append]
      cases hfind : ms.reverse.find? (fun x => Authorization.fieldFor x.1 = some f) with
      | some x =>
        obtain ⟨xk, xv⟩ := x
        cases xv <;> rfl
      | none =>
        rw [Authorization_get_set]
        by_cases hfg : f = g
        · subst hfg
          simp [hf]
        · have : ¬ g = f := fun e => hfg e.symm
          simp [hf, hfg, this]

/-- A struct is its three fields. -/
theorem Authorization_ext_get (a b : Authorization) (h : ∀ f, a.get f = b.get f) : a = b := by
  cases a
  cases b
  have h1 := h .AccessToken
  have h2 := h .RefreshToken
  have h3 := h .ExpiresIN
  simp only [Authorization.get] at h1 h2 h3
  simp [h1, h2, h3]

/-- Unmarshalling an object with string members into a fresh struct. -/
theorem unmarshalAuthorization_object (data : GoString)
    (members : List (GoString × json.Value))
    (hobj : json.parse data = some (.object members)) (hstr : stringMembers members) :
    unmarshalAuthorization data (some {})
      = (some { AccessToken := fieldAfter {} members .AccessToken,
                RefreshToken := fieldAfter {} members .RefreshToken,
                ExpiresIN := fieldAfter {} members .ExpiresIN }, none) := by
  obtain ⟨h1, h2⟩ := decode_stringMembers members {} hstr
  unfold unmarshalAuthorization
  simp only [hobj, Option.getD_some, h1]
  congr 2
  apply Authorization_ext_get
  intro f
  rw [h2 f]
  cases f <;> rfl

/-- C11, counterexample: a successful response whose body is the JSON object
with "access_token" equal to "12345abc" and a numeric "expires_in" of 3600;
`RetrieveAccessToken` returns a nil pointer and a non-nil error. -/
theorem RetrieveAccessToken_numeric_expiry_counterexample :
    (json.parse numericExpiryBody).isSome = true ∧
    CheckResponse 0 (okResponse numericExpiryBody) = none ∧
    (AuthorizationsService.RetrieveAccessToken true unmarshalAuthorization
      { testClient with client := answeringClient (okResponse numericExpiryBody) } 0
      (str "612576sadxas") (str "blah/ohai")).value = none ∧
    (AuthorizationsService.RetrieveAccessToken true unmarshalAuthorization
      { testClient with client := answeringClient (okResponse numericExpiryBody) } 0
      (str "612576sadxas") (str "blah/ohai")).err ≠ none := by
  refine ⟨by decide!, by decide!, by decide!, by decide!⟩

/-- C11, amended: for a response that `CheckResponse` accepts and whose body,
read to its end, is a JSON object in which every member decoded into a field
of `Authorization` has a string value, `RetrieveAccessToken` returns a nil
error and an `Authorization` in which each field holds the string of the last
member whose key is decoded into it (the key of that name, or one equal to it
up to letter case) and is nil when there is no such member; for the body of
the tests the access and refresh tokens are set and the expiry is nil. -/
theorem RetrieveAccessToken_decodes (isTEST : Bool) (c : Client) (now : Int) (ctx : Context)
    (code redirectURL : GoString) (req : http.Request) (resp : http.Response)
    (members : List (GoString × json.Value))
    (hreq : AuthorizationsService.retrieveAccessTokenRequest isTEST c code redirectURL = .ok req)
    (hctx : c.CTX = some ctx) (hresp : c.client req = .ok resp)
    (hok : CheckResponse now resp = none) (hread : resp.Body.err = none)
    (hobj : json.parse resp.Body.data = some (.object members))
    (hstr : stringMembers members) :
    (AuthorizationsService.RetrieveAccessToken isTEST unmarshalAuthorization c now code
      redirectURL).err = none ∧
    (AuthorizationsService.RetrieveAccessToken isTEST unmarshalAuthorization c now code
      redirectURL).value
      = some { AccessToken := fieldAfter {} members .AccessToken,
               RefreshToken := fieldAfter {} members .RefreshToken,
               ExpiresIN := fieldAfter {} members .ExpiresIN } ∧
    (resp.Body.data = tokenBody →
      (AuthorizationsService.RetrieveAccessToken isTEST unmarshalAuthorization c now code
        redirectURL).value
        = some { AccessToken := some (str "12345abc"), RefreshToken := some (str "deadmeat"),
                 ExpiresIN := none }) := by
  have hdo : c.Do now (some ctx) req
      = { bytes := some resp.Body.data, err := none, sent := [req] } := by
    simp [Client.Do, hresp, hok, hread, ioutil.ReadAll]
  have hun := unmarshalAuthorization_object resp.Body.data members hobj hstr
  have hval : (AuthorizationsService.RetrieveAccessToken isTEST unmarshalAuthorization c now code
      redirectURL).value
      = some { AccessToken := fieldAfter {} members .AccessToken,
               RefreshToken := fieldAfter {} members .RefreshToken,
               ExpiresIN := fieldAfter {} members .ExpiresIN } := by
    simp [AuthorizationsService.RetrieveAccessToken, hreq, hctx, hdo, hun]
  refine ⟨?_, hval, ?_⟩
  · simp [AuthorizationsService.RetrieveAccessToken, hreq, hctx, hdo, hun]
  · intro hbody
    have hp : json.parse tokenBody
        = some (.object [(str "access_token", .string (str "12345abc")),
                         (str "refresh_token", .string (str "deadmeat"))]) := by rfl
    rw [hbody, hp] at hobj
    have hm := json.Value.object.inj (Option.some.inj hobj)
    rw [hval, ← hm]
    have e1 : fieldAfter {} [(str "access_token", json.Value.string (str "12345abc")),
        (str "refresh_token", json.Value.string (str "deadmeat"))] .AccessToken
        = some (str "12345abc") := by decide!
    have e2 : fieldAfter {} [(str "access_token", json.Value.string (str "12345abc")),
        (str "refresh_token", json.Value.string (str "deadmeat"))] .RefreshToken
        = some (str "deadmeat") := by decide!
    have e3 : fieldAfter {} [(str "access_token", json.Value.string (str "12345abc")),
        (str "refresh_token", json.Value.string (str "deadmeat"))] .ExpiresIN
        = none := by decide!
    rw [e1, e2, e3]

/-- Witness of C11 (amended): the token body of the tests answered to the
test client. -/
theorem RetrieveAccessToken_decodes_witness :
    AuthorizationsService.retrieveAccessTokenRequest true exchangeClient (str "612576sadxas")
      (str "blah/ohai") = .ok tokenRequest ∧
    exchangeClient.CTX = some {} ∧
    exchangeClient.client tokenRequest = .ok (okResponse tokenBody) ∧
    CheckResponse 0 (okResponse tokenBody) = none ∧
    (okResponse tokenBody).Body.err = none ∧
    json.parse (okResponse tokenBody).Body.data = some (.object tokenMembers) ∧
    stringMembers tokenMembers ∧
    (AuthorizationsService.RetrieveAccessToken true unmarshalAuthorization exchangeClient 0
      (str "612576sadxas") (str "blah/ohai")).err = none ∧
    (AuthorizationsService.RetrieveAccessToken true unmarshalAuthorization exchangeClient 0
      (str "612576sadxas") (str "blah/ohai")).value
      = some { AccessToken := some (str "12345abc"), RefreshToken := some (str "deadmeat"),
               ExpiresIN := none } :=
  have hstr : stringMembers tokenMembers := by
    intro m hm f _
    simp only [tokenMembers, List.mem_cons, List.mem_singleton, List.not_mem_nil,
      or_false] at hm
    rcases hm with e | e <;> exact e ▸ ⟨_, rfl⟩
  have h := RetrieveAccessToken_decodes true exchangeClient 0 {} (str "612576sadxas")
    (str "blah/ohai") tokenRequest (okResponse tokenBody) tokenMembers (by decide!) rfl rfl
    (by decide!) rfl (by rfl) hstr
  ⟨by decide!, rfl, rfl, by decide!, rfl, by rfl, hstr, h.1, h.2.2 rfl⟩

/-! ## The content type -/

/-- C12, the code at the failing input: the request `RetrieveAccessToken`
dispatches for the test client carries two `Content-Type` values, the one
`NewRequest` set and the form type added after it, so reading the header
gives "application/json". -/
theorem retrieveAccessTokenRequest_content_type :
    AuthorizationsService.retrieveAccessTokenRequest true testClient (str "612576sadxas")
      (str "blah/ohai") = .ok tokenRequest ∧
    tokenRequest.Header.Get (str "Content-Type") = str "application/json" ∧
    tokenRequest.Header.Values (str "Content-Type")
      = [str "application/json", str "application/x-www-form-urlencoded"] := by
  refine ⟨by decide!, by decide!, by decide!⟩

/-- C14: a request `NewRequest` returns has the `Content-Type` header
"application/json" exactly when the body is non-nil; for a nil body it has no
header at all and no payload. -/
theorem NewRequest_content_type (c : Client) (method urlStr : GoString)
    (body : Option GoValue) (req : http.Request)
    (h : c.NewRequest method urlStr body = .ok req) :
    (req.Header.Get (str "Content-Type") = str "application/json" ↔ body.isSome = true) ∧
    (body.isSome = true →
      req.Header.Values (str "Content-Type") = [str "application/json"]) ∧
    (body = none →
      req.Header = {} ∧ req.Header.Values (str "Content-Type") = [] ∧
      req.Body = none ∧ req.ContentLength = 0) := by
  obtain ⟨_, u, buf, r, _, hbuf, hr, hreq⟩ := Client_NewRequest_ok c method urlStr body req h
  obtain ⟨u2, _, hr2⟩ := http_NewRequest_ok method u.String buf r hr
  have hset : ({} : http.Header).Set (str "Content-Type") (str "application/json")
      = ⟨[(str "Content-Type", [str "application/json"])]⟩ := by decide
  cases body with
  | none =>
    simp only [] at hbuf
    subst hbuf
    have hreq2 : req = r := by simpa using hreq
    subst hreq2
    subst hr2
    refine ⟨?_, ?_, ?_⟩
    · constructor
      · intro hget
        have : ({} : http.Header).Get (str "Content-Type") = [] := by decide
        rw [this] at hget
        exact absurd hget (by decide)
      · intro hsome
        exact absurd hsome (by simp)
    · intro hsome
      exact absurd hsome (by simp)
    · intro _
      exact ⟨rfl, rfl, rfl, rfl⟩
  | some v =>
    have hh : req.Header = ⟨[(str "Content-Type", [str "application/json"])]⟩ := by
      rw [hreq, hr2]
      exact hset
    refine ⟨?_, ?_, ?_⟩
    · constructor
      · intro _; rfl
      · intro _
        rw [hh]
        decide
    · intro _
      rw [hh]
      decide
    · intro hnone
      exact absurd hnone (by simp)

/-- Witness of C14: the string body posted by the test client. -/
theorem NewRequest_content_type_witness :
    testClient.NewRequest (str "POST") (str "reply") (some (.string (str "Fish & <chips>")))
      = .ok ampersandRequest ∧
    ampersandRequest.Header.Get (str "Content-Type") = str "application/json" ∧
    ampersandRequest.Header.Values (str "Content-Type") = [str "application/json"] :=
  have h := NewRequest_content_type testClient (str "POST") (str "reply")
    (some (.string (str "Fish & <chips>"))) ampersandRequest (by decide!)
  ⟨by decide!, h.1.2 rfl, h.2.1 rfl⟩

/-! ## The endpoint URLs -/

/-- C13, the code at the failing inputs: the URL string of every endpoint
method begins with a slash in test mode and with the absolute `fakeURL`
otherwise, so none is relative; on the client `NewClient` returns the request
of `GetServiceReviews` goes to the host "localhost:8005", and on the test
client in test mode its path is "/v1/reviews/latest", outside the base path. -/
theorem endpoint_urls_not_relative (isTEST : Bool) (c : Client)
    (redirectURL search reviewID businessUnitID : GoString) :
    strings.HasPrefix (AuthorizationsService.authorizationCodeURL isTEST c redirectURL)
      (if isTEST then str "/" else fakeURL) = true ∧
    strings.HasPrefix (AuthorizationsService.accessTokenURL isTEST)
      (if isTEST then str "/" else fakeURL) = true ∧
    strings.HasPrefix (BusinessService.getBusinessCredentialsURL isTEST search)
      (if isTEST then str "/" else fakeURL) = true ∧
    strings.HasPrefix (BusinessService.getServiceReviewsURL isTEST)
      (if isTEST then str "/" else fakeURL) = true ∧
    strings.HasPrefix (BusinessService.getServicePrivateReviewURL isTEST reviewID)
      (if isTEST then str "/" else fakeURL) = true ∧
    strings.HasPrefix (BusinessService.sendServiceReviewsURL isTEST reviewID)
      (if isTEST then str "/" else fakeURL) = true ∧
    strings.HasPrefix (ProductService.getProductReviewsURL isTEST businessUnitID)
      (if isTEST then str "/" else fakeURL) = true ∧
    strings.HasPrefix (ProductService.getProductPrivateReviewsURL isTEST businessUnitID)
      (if isTEST then str "/" else fakeURL) = true ∧
    (NewClient refusingClient none).NewRequest (str "GET")
      (BusinessService.getServiceReviewsURL false) none = .ok fakeReviewsRequest ∧
    fakeReviewsRequest.URL.Host ≠ (NewClient refusingClient none).BaseURL.Host ∧
    testClient.NewRequest (str "GET") (BusinessService.getServiceReviewsURL true) none
      = .ok escapedRequest ∧
    strings.HasPrefix escapedRequest.URL.Path testClient.BaseURL.Path = false := by
  have hfake : ∀ x : GoString, strings.HasPrefix (fakeURL ++ x) fakeURL = true := by
    intro x
    simp [strings.HasPrefix, List.isPrefixOf_iff_prefix]
  cases isTEST
  · simp only [Bool.false_eq_true, if_false]
    refine ⟨?_, ?_, ?_, ?_, ?_, ?_, ?_, ?_, by decide!, by decide!, by decide!, by decide!⟩
    · simp only [AuthorizationsService.authorizationCodeURL, Bool.false_eq_true, if_false,
        List.append_assoc]
      exact hfake _
    · exact hfake _
    · simp only [BusinessService.getBusinessCredentialsURL, Bool.false_eq_true, if_false,
        List.append_assoc]
      exact hfake _
    · exact hfake _
    · simp only [BusinessService.getServicePrivateReviewURL, Bool.false_eq_true, if_false,
        List.append_assoc]
      exact hfake _
    · simp only [BusinessService.sendServiceReviewsURL, Bool.false_eq_true, if_false,
        List.append_assoc]
      exact hfake _
    · simp only [ProductService.getProductReviewsURL, Bool.false_eq_true, if_false,
        List.append_assoc]
      exact hfake _
    · simp only [ProductService.getProductPrivateReviewsURL, Bool.false_eq_true, if_false,
        List.append_assoc]
      exact hfake _
  · simp only [if_true]
    exact ⟨rfl, rfl, rfl, rfl, rfl, rfl, rfl, rfl, by decide!, by decide!, by decide!,
      by decide!⟩

/-! ## The context and the rate limit in `Do` -/

/-- C15, the code at the failing input: with a context that is already
canceled, or past its deadline, and an HTTP client that answers with a 200
response, `Do` returns the body and a nil error, not `ctx.Err()`. -/
theorem Do_ignores_done_context :
    exchangeClient.Do 0 (some ⟨some .Canceled⟩) tokenRequest
      = { bytes := some tokenBody, err := none, sent := [tokenRequest] } ∧
    exchangeClient.Do 0 (some ⟨some .DeadlineExceeded⟩) tokenRequest
      = { bytes := some tokenBody, err := none, sent := [tokenRequest] } := by
  refine ⟨by decide!, by decide!⟩

/-- C16, the code at the failing input: on a client that has seen its rate
limit exceeded, with the reset still ahead at epoch second 1700000000, `Do`
hands the request to the underlying HTTP client and returns what comes of
it, here the transport error of a refused connection; with an HTTP client
that answers 429 again the rate-limit error comes from that new call. -/
theorem Do_calls_despite_rate_limit :
    rateLimitedClient.Do 1700000000 (some {}) sampleRequest
      = { bytes := none, err := some (.transport (str "connection refused")),
          sent := [sampleRequest] } ∧
    (({ rateLimitedClient with client := answeringClient rateLimitedResponse } : Client).Do
        1700000000 (some {}) sampleRequest).sent = [sampleRequest] := by
  refine ⟨by decide!, by decide!⟩
